import Mathlib

/-!
# ergo: structured errors with attributes, stack traces and codes

A shallow embedding of `ergo.go` and `code.go`.

* A Go `error` interface value is a term of `Ergo.Error`; the nil interface is
  `Error.nil`.  Every link has at most one parent, so a chain is a finite term.
* A method call that dereferences a nil interface panics; such calls return
  `none` here (`Option String`).
* `caller.New(skip)` comes from another module.  It is taken as a parameter
  `callerNew : Nat → StackTrace` standing for the capture at the call site.
* `errors.As(err, &target)` walks `Unwrap() error` from `err` and stops at the
  first link whose dynamic type is the target type.  Foreign errors with an
  `As` method or an `Unwrap() []error` method are outside the model.
-/

namespace Ergo

set_option linter.dupNamespace false

/-! ## Data model -/

/-- Value of an attribute (`slog.Value`), restricted to three kinds. -/
inductive Value where
  | string (s : String)
  | int64 (n : Int)
  | bool (b : Bool)
  deriving DecidableEq, Repr

/-- Text of a value, `slog.Value.String`. -/
def Value.String : Value → String
  | .string s => s
  | .int64 n => toString n
  | .bool b => if b then "true" else "false"

/-- Key/value pair, `slog.Attr`. -/
structure Attr where
  Key : String
  Value : Ergo.Value
  deriving DecidableEq, Repr

/-- Text of an attribute, `slog.Attr.String`: key, an equals sign, the value. -/
def Attr.String (a : Attr) : String :=
  a.Key ++ "=" ++ a.Value.String

/-- Modelled from the spec: one frame of `caller.StackTrace` with its file,
line, function name and package path (the frame type lives in another module). -/
structure Frame where
  file : String
  line : Nat
  function : String
  pkgPath : String
  deriving DecidableEq, Repr

/-- Slice of frames, `caller.StackTrace`; `none` is the nil slice. -/
abbrev StackTrace := Option (List Frame)

/-- Error code, `Code` of `code.go`. -/
structure Code where
  pkgpath : String
  key : String
  message : String
  deriving DecidableEq, Repr

/-- Go `error` interface value.  `defaultError` and `codedError` are the two
struct types of the library; `foreign` is any other error type: its `Error()`
text, what `Unwrap()` returns (`nil` when it has no such method or returns nil)
and, when it implements `fmt.Formatter`, the text its `Format` writes when it
is called in verbose mode. -/
inductive Error where
  | nil
  | defaultError (parent : Error) (msg : String) (attrs : List Attr) (stacktrace : StackTrace)
  | codedError (parent : Error) (code : Code)
  | foreign (parent : Error) (msg : String) (format : Option String)
  deriving DecidableEq, Repr

/-- Test `err == nil` on an interface value. -/
def Error.isNil : Error → Bool
  | .nil => true
  | _ => false

/-- Formatting state `fmt.State`, reduced to its flag query. -/
structure State where
  Flag : Char → Bool

/-! ## code.go -/

/-- Zero value `Code{}`. -/
def Code.zero : Code := ⟨"", "", ""⟩

/-- Function `NewCode`: the package path is that of the first captured frame,
when there is one. -/
def NewCode (callerNew : Nat → StackTrace) (key message : String) : Code :=
  match callerNew 1 with
  | some (f :: _) => ⟨f.pkgPath, key, message⟩
  | _ => ⟨"", key, message⟩

/-- Method `Code.IsZero`. -/
def Code.IsZero (code : Code) : Bool :=
  code == Code.zero

/-- Method `Code.PkgPath`. -/
def Code.PkgPath (code : Code) : String := code.pkgpath

/-- Method `Code.Key`. -/
def Code.Key (code : Code) : String := code.key

/-- Method `Code.Message`. -/
def Code.Message (code : Code) : String := code.message

/-- Method `Code.String`. -/
def Code.String (code : Code) : String :=
  let key := if code.pkgpath != "" then code.pkgpath ++ "." ++ code.key else code.key
  key ++ ": " ++ code.message

/-- Function `WithCode`. -/
def WithCode (err : Error) (code : Code) : Error :=
  if err.isNil then .nil else .codedError err code

/-- Result of `errors.As(err, &codedError)`: parent and code of the first
coded-error link, `none` when the call returns false. -/
def asCodedError : Error → Option (Error × Code)
  | .nil => none
  | .codedError parent code => some (parent, code)
  | .defaultError parent _ _ _ => asCodedError parent
  | .foreign parent _ _ => asCodedError parent

/-- Function `CodeOf`. -/
def CodeOf (err : Error) : Code :=
  match asCodedError err with
  | some (_, code) => code
  | none => Code.zero

/-! ## ergo.go -/

/-- Method call `err.Error()` through the interface: `defaultError.Error`,
`codedError.Error`, or the text of a foreign error.  The call panics (`none`)
on the nil interface. -/
def Error.Error : Error → Option String
  | .nil => none
  | .defaultError parent msg _ _ =>
    if msg == "" then
      parent.Error
    else
      let suffix : Option String :=
        if !parent.isNil then parent.Error.map (fun p => ": " ++ p) else some ""
      suffix.map (fun x => msg ++ x)
  | .codedError parent code =>
    parent.Error.map (fun p => code.String ++ ": " ++ p)
  | .foreign _ msg _ => some msg

/-- Function `errors.Unwrap` on the modelled error types: `defaultError.Unwrap`
and `codedError.Unwrap` return the parent field. -/
def Unwrap : Error → Error
  | .nil => .nil
  | .defaultError parent _ _ _ => parent
  | .codedError parent _ => parent
  | .foreign parent _ _ => parent

/-- Type assertion `err.(interface{ Format(fmt.State, rune) })`. -/
def hasFormat : Error → Bool
  | .defaultError _ _ _ _ => true
  | .foreign _ _ (some _) => true
  | _ => false

/-- Method `defaultError.Format`: the text written to the state, `none` when a
call made on the way panics.  On a foreign error with a `Format` method the
result is the text of that method; the other links have no such method (`none`). -/
def Format (s : State) (verb : Char) : Error → Option String
  | .nil => none
  | .codedError _ _ => none
  | .foreign _ _ format => format
  | .defaultError parent msg attrs stacktrace =>
    if verb == 'v' && s.Flag '+' then
      if attrs.length == 0 then
        if !parent.isNil then
          let sep := if msg != "" then ": " else ""
          if hasFormat parent then
            (Format s verb parent).map (fun p => msg ++ sep ++ p)
          else
            parent.Error.map (fun p => msg ++ sep ++ p)
        else
          some msg
      else
        let values := attrs.map Attr.String
        let head :=
          if msg != "" then msg ++ ": " ++ ",".intercalate values
          else ",".intercalate values
        if !parent.isNil then
          if hasFormat parent then
            (Format s verb parent).map (fun p => head ++ ": " ++ p)
          else
            parent.Error.map (fun p => head ++ ": " ++ p)
        else
          some head
    else
      (Error.defaultError parent msg attrs stacktrace).Error

/-- Function `newDefaultError`. -/
def newDefaultError (callerNew : Nat → StackTrace) (msg : String) (attrs : List Attr) : Error :=
  .defaultError .nil msg attrs (callerNew 2)

/-- Function `New`. -/
def New (callerNew : Nat → StackTrace) (msg : String) (attrs : List Attr) : Error :=
  newDefaultError callerNew msg attrs

/-- Function `NewSentinel`: the result of `errors.New`, a foreign error with no
parent and no `Format` method. -/
def NewSentinel (msg : String) : Error :=
  .foreign .nil msg none

/-- Result of `errors.As(err, &defaultError)`: the fields of the first
default-error link, `none` when the call returns false. -/
def asDefaultError : Error → Option (Error × String × List Attr × StackTrace)
  | .nil => none
  | .defaultError parent msg attrs stacktrace => some (parent, msg, attrs, stacktrace)
  | .codedError parent _ => asDefaultError parent
  | .foreign parent _ _ => asDefaultError parent

/-- Function `StackTraceOf`.  The `errors.As` walk is unfolded into the
recursion: on a link that is not a default error the search goes on in its
parent (`StackTraceOf_unfold` gives the shape of the source). -/
def StackTraceOf : Error → StackTrace
  | .nil => none
  | .codedError parent _ => StackTraceOf parent
  | .foreign parent _ _ => StackTraceOf parent
  | .defaultError parent _ _ stacktrace =>
    match stacktrace with
    | some st => some st
    | none => StackTraceOf parent

/-- Function `Wrap`. -/
def Wrap (callerNew : Nat → StackTrace) (parent : Error) (msg : String) (attrs : List Attr) :
    Error :=
  match StackTraceOf parent with
  | none => .defaultError parent msg attrs (callerNew 1)
  | some _ => .defaultError parent msg attrs none

/-- Content of the `done` map of `attrsAll`: the keys present in it. -/
abbrev Done := List String

/-- First loop of `attrsAll`, over the attributes of one link.  The consumer is
a callback `yield` over its own state; the result is the new content of the
done map, the new consumer state, and false when the consumer stopped. -/
def rangeAttrs {σ : Type} (yield : σ → Attr → σ × Bool) :
    List Attr → Done → σ → Done × σ × Bool
  | [], done, s => (done, s, true)
  | attr :: rest, done, s =>
    if attr.Key ∈ done then
      rangeAttrs yield rest done s
    else
      let r := yield s attr
      if !r.2 then (attr.Key :: done, r.1, false)
      else rangeAttrs yield rest (attr.Key :: done) r.1

/-- Body of the sequence returned by `attrsAll(err, done)`, run with a `yield`
callback.  The `errors.As` walk is unfolded into the recursion, as in
`StackTraceOf` (`attrsAll_unfold` gives the shape of the source). -/
def attrsAll {σ : Type} (yield : σ → Attr → σ × Bool) :
    Error → Done → σ → Done × σ × Bool
  | .nil, done, s => (done, s, true)
  | .codedError parent _, done, s => attrsAll yield parent done s
  | .foreign parent _ _, done, s => attrsAll yield parent done s
  | .defaultError parent _ attrs _, done, s =>
    let r := rangeAttrs yield attrs done s
    if !r.2.2 then r
    else attrsAll yield parent r.1 r.2.1

/-- One pass over the sequence returned by `AttrsAll(err)`, whose done map
starts empty. -/
def AttrsAll {σ : Type} (err : Error) (yield : σ → Attr → σ × Bool) (s : σ) : Done × σ × Bool :=
  attrsAll yield err [] s

/-- Callback of `slices.Collect`: append and go on. -/
def collectYield (acc : List Attr) (a : Attr) : List Attr × Bool :=
  (acc ++ [a], true)

/-- Call `slices.Collect(AttrsAll(err))`. -/
def Collect (err : Error) : List Attr :=
  (AttrsAll err collectYield []).2.1

/-! ## Reference definitions for the statements -/

/-- Attribute lists of the links of a chain, concatenated child first, each in
its stored order.  A link that is not a default error stores no attributes. -/
def chainAttrs : Error → List Attr
  | .nil => []
  | .defaultError parent _ attrs _ => attrs ++ chainAttrs parent
  | .codedError parent _ => chainAttrs parent
  | .foreign parent _ _ => chainAttrs parent

/-- Removal of every attribute whose key already occurred earlier in the list. -/
def firstPerKey : List Attr → List Attr
  | [] => []
  | a :: rest => a :: (firstPerKey rest).filter (fun b => b.Key != a.Key)

/-- Links of a chain from the error toward its parents, the nil end left out. -/
def links : Error → List Error
  | .nil => []
  | .defaultError parent msg attrs stacktrace =>
    .defaultError parent msg attrs stacktrace :: links parent
  | .codedError parent code => .codedError parent code :: links parent
  | .foreign parent msg format => .foreign parent msg format :: links parent

/-- Stack trace stored in one link: the field of a default error, nothing for
any other link. -/
def storedTrace : Error → StackTrace
  | .defaultError _ _ _ stacktrace => stacktrace
  | _ => none

/-- Code stored in one link: the field of a coded-error wrapper. -/
def storedCode : Error → Option Code
  | .codedError _ code => some code
  | _ => none

/-- The same chain with every attribute list emptied. -/
def eraseAttrs : Error → Error
  | .nil => .nil
  | .defaultError parent msg _ stacktrace => .defaultError (eraseAttrs parent) msg [] stacktrace
  | .codedError parent code => .codedError (eraseAttrs parent) code
  | .foreign parent msg format => .foreign (eraseAttrs parent) msg format

/-- What the verbose branch of `defaultError.Format` prints for a parent: the
output of its `Format` method when it has one, its plain message otherwise. -/
def parentVerbose (s : State) (p : Error) : Option String :=
  if hasFormat p then Format s 'v' p else p.Error

/-- Verbose rendering as the specification words it: the base text, then
the parent after a separator, the separator left out when the base is made of
an empty message and no attributes. -/
def verboseSpec (s : State) (p : Error) (m : String) (attrs : List Attr) : Option String :=
  let joined := ",".intercalate (attrs.map Attr.String)
  let base := if attrs = [] then m else if m = "" then joined else m ++ ": " ++ joined
  if p = .nil then some base
  else if m = "" ∧ attrs = [] then parentVerbose s p
  else (parentVerbose s p).map (fun r => base ++ ": " ++ r)

/-- Link built by this library: a default error or a coded-error wrapper. -/
def isLibrary : Error → Bool
  | .defaultError _ _ _ _ => true
  | .codedError _ _ => true
  | _ => false

/-- Run of a consumer over a list of attributes handed to it one by one, up to
and including the first one on which it returns false. -/
def feed {σ : Type} (yield : σ → Attr → σ × Bool) : List Attr → σ → σ × Bool
  | [], s => (s, true)
  | a :: rest, s => if (yield s a).2 then feed yield rest (yield s a).1 else ((yield s a).1, false)

/-- Prefix of a list up to and including the first attribute on which the
consumer returns false, the whole list when it never does. -/
def stopPrefix {σ : Type} (yield : σ → Attr → σ × Bool) : List Attr → σ → List Attr
  | [], _ => []
  | a :: rest, s => if (yield s a).2 then a :: stopPrefix yield rest (yield s a).1 else [a]

/-- Calls received by a consumer fed with a list: each attribute with the value
the callback returned on it. -/
def feedCalls {σ : Type} (yield : σ → Attr → σ × Bool) : List Attr → σ → List (Attr × Bool)
  | [], _ => []
  | a :: rest, s =>
    if (yield s a).2 then (a, true) :: feedCalls yield rest (yield s a).1 else [(a, false)]

/-- Consumer that keeps a record of its calls: every attribute it is called
with and the value it returned, in call order. -/
def recordYield {σ : Type} (yield : σ → Attr → σ × Bool) (st : List (Attr × Bool) × σ)
    (a : Attr) : (List (Attr × Bool) × σ) × Bool :=
  ((st.1 ++ [(a, (yield st.2 a).2)], (yield st.2 a).1), (yield st.2 a).2)

/-- Calls made to `yield` during one pass over `AttrsAll(err)`. -/
def yieldCalls {σ : Type} (err : Error) (yield : σ → Attr → σ × Bool) (s : σ) :
    List (Attr × Bool) :=
  (AttrsAll err (recordYield yield) ([], s)).2.1.1

/-- Consumer of the loop `for range AttrsAll(err) { break }` in the tests. -/
def breakYield (n : Nat) (_ : Attr) : Nat × Bool := (n + 1, false)

/-- Text that the verbose branch of `defaultError.Format` writes before the
rendering of a parent: the message and the attributes, then the separator. -/
def verboseHead (m : String) (attrs : List Attr) : String :=
  if attrs.length == 0 then m ++ (if m != "" then ": " else "")
  else (if m != "" then m ++ ": " ++ ",".intercalate (attrs.map Attr.String)
    else ",".intercalate (attrs.map Attr.String)) ++ ": "

/-- Default error among the links. -/
def isDefault : Error → Bool
  | .defaultError _ _ _ _ => true
  | _ => false

/-- Chains built with `New`, `Wrap`, `WithCode` and `NewSentinel` only, from
nil, every stack capture returning a non-nil trace. -/
inductive Built : Error → Prop where
  | nil : Built .nil
  | new (callerNew : Nat → StackTrace) (msg : String) (attrs : List Attr) :
      callerNew 2 ≠ none → Built (New callerNew msg attrs)
  | sentinel (msg : String) : Built (NewSentinel msg)
  | wrap (callerNew : Nat → StackTrace) (parent : Error) (msg : String) (attrs : List Attr) :
      callerNew 1 ≠ none → Built parent → Built (Wrap callerNew parent msg attrs)
  | withCode (err : Error) (code : Code) : Built err → Built (WithCode err code)

/-! ## Inputs of the test suite -/

/-- A capture that returns one frame, whatever the skip count. -/
def testCaller : Nat → StackTrace :=
  fun skip => some [⟨"ergo_test.go", skip, "ergo_test.TestWrap", "github.com/newmo-oss/ergo_test"⟩]

/-- Attributes of the parent in `TestWrap`. -/
def parentAttrs : List Attr := [⟨"key1", .int64 100⟩]

/-- Parent error of `TestWrap` and `TestWithCode`. -/
def testParent : Error := New testCaller "error" parentAttrs

/-- Code `codeA` of the tests. -/
def codeA : Code := ⟨"github.com/newmo-oss/ergo_test", "A", "code A message"⟩

/-- Formatting state of the verb with the plus flag. -/
def plusState : State := ⟨fun c => c == '+'⟩

/-- Formatting state without flags. -/
def plainState : State := ⟨fun _ => false⟩

end Ergo

/-!
# ergocheck: the static checker

A shallow embedding of `ergocheck/ergocheck.go`.

* The SSA form comes from `golang.org/x/tools/go/ssa`.  A function body is a
  `Func`: values and instructions are named by identifiers, basic blocks by
  their index, and the accessors of the SSA package (`Referrers`, `Block`,
  `Preds`, `Instrs`) are fields.  Phi edges may reach each other cyclically.
* The recursion through phi nodes has no bound in the source.  The functions
  that take part in it carry a `fuel` argument and return `none` when it runs
  out; a result `some r` is a run that returned `r`.
* `backtrace` is run with as much fuel as the function has blocks, plus one.
-/

namespace Ergocheck

/-! ## SSA form -/

/-- Identity of an `ssa.Value` or `ssa.Instruction` object. -/
abbrev ValueId := Nat

/-- Index of an `*ssa.BasicBlock` in the blocks of its function. -/
abbrev BlockId := Nat

/-- Value of an `*ssa.Const`: nil, a constant of a string type, or another one. -/
inductive ConstVal where
  | nil
  | string (s : String)
  | other
  deriving DecidableEq, Repr

/-- Call instructions `*ssa.Call`, `*ssa.Go` and `*ssa.Defer`. -/
inductive CallKind where
  | call
  | go
  | defer
  deriving DecidableEq, Repr

/-- Dynamic type of an SSA value or instruction, with the operands the checker
reads.  The callee of a call is named by its package path, a dot and its name.
`parameter` is any value that is neither an instruction nor a constant, `instr`
any other instruction. -/
inductive Node where
  | const (val : ConstVal)
  | parameter
  | phi (edges : List ValueId)
  | binOp (op : String) (x y : ValueId)
  | ifInstr (cond : ValueId)
  | call (kind : CallKind) (callee : String) (args : List ValueId)
  | instr
  deriving DecidableEq, Repr

/-- Body of an `*ssa.Function`. -/
structure Func where
  node : ValueId → Node
  Referrers : ValueId → Option (List ValueId)
  Block : ValueId → BlockId
  Preds : BlockId → List BlockId
  Instrs : BlockId → List ValueId
  numBlocks : Nat
  Pos : ValueId → Nat

/-- Type assertion `v.(ssa.Instruction)`. -/
def isInstruction : Node → Bool
  | .const _ => false
  | .parameter => false
  | _ => true

/-- Method `(*ssa.Const).IsNil`. -/
def ConstVal.IsNil : ConstVal → Bool
  | .nil => true
  | _ => false

/-! ## Phi expansion -/

/-- Loop of `phiValues` over the edges of a phi node: the sequence of each edge
is run with the same `yield`, and the loop ends when the consumer stopped. -/
def rangeEdges {σ : Type} (rec : ValueId → σ → Option (σ × Bool)) :
    List ValueId → σ → Option (σ × Bool)
  | [], s => some (s, true)
  | v :: rest, s =>
    match rec v s with
    | none => none
    | some (s1, false) => some (s1, false)
    | some (s1, true) => rangeEdges rec rest s1

/-- Body of the sequence returned by `phiValues(v)`, run with a `yield`
callback over a consumer state: the new state, and false when the consumer
stopped. -/
def phiValues {σ : Type} (f : Func) (yield : σ → ValueId → σ × Bool) :
    Nat → ValueId → σ → Option (σ × Bool)
  | 0, _, _ => none
  | fuel + 1, v, s =>
    match f.node v with
    | .phi edges => rangeEdges (phiValues f yield fuel) edges s
    | _ => some (yield s v)

/-- Function `equalValue`.  The consumer state of each loop is whether the
loop body returned true. -/
def equalValue (f : Func) (fuel : Nat) (x y : ValueId) : Option Bool :=
  if x == y then some true
  else
    match phiValues f (fun found x1 => if x1 == y then (true, false) else (found, true))
        fuel x false with
    | none => none
    | some (true, _) => some true
    | some (false, _) =>
      match phiValues f (fun found y1 => if x == y1 then (true, false) else (found, true))
          fuel y false with
      | none => none
      | some (found, _) => some found

/-! ## Nil guards -/

/-- Function `getIf`: the first `*ssa.If` among the referrers of a condition. -/
def getIf (f : Func) (cond : ValueId) : Option ValueId :=
  match f.Referrers cond with
  | none => none
  | some refs =>
    refs.find? (fun ref => match f.node ref with
      | .ifInstr _ => true
      | _ => false)

/-- Operator `&&` on two calls that may not return: the second is not made when
the first returns false. -/
def andThen (a b : Option Bool) : Option Bool :=
  match a with
  | none => none
  | some false => some false
  | some true => b

/-- Function `toNilGuard`, with the call of `isNil` taken as a parameter. -/
def toNilGuard (f : Func) (isNilRec : BlockId → ValueId → Option Bool) (fuel : Nat)
    (v instr : ValueId) : Option (Option ValueId) :=
  match f.node instr with
  | .binOp _ x y =>
    match getIf f instr with
    | none => some none
    | some guard =>
      match andThen (equalValue f fuel x v) (isNilRec (f.Block instr) y) with
      | none => none
      | some true => some (some guard)
      | some false =>
        match andThen (equalValue f fuel y v) (isNilRec (f.Block instr) x) with
        | none => none
        | some true => some (some guard)
        | some false => some none
  | _ => some none

/-- Loop of `hasNilGuard` over the referrers: the guards found, as the keys of
the `guards` map. -/
def collectGuards (f : Func) (isNilRec : BlockId → ValueId → Option Bool) (fuel : Nat)
    (v : ValueId) : List ValueId → Option (List ValueId)
  | [] => some []
  | ref :: rest =>
    match toNilGuard f isNilRec fuel v ref with
    | none => none
    | some guard =>
      match collectGuards f isNilRec fuel v rest with
      | none => none
      | some guards =>
        match guard with
        | some g => some (g :: guards)
        | none => some guards

/-- Loop of `backtrace` over the predecessors of a block. -/
def rangePreds (rec : BlockId → List BlockId → Option (Bool × List BlockId))
    (drop : BlockId → Bool) : List BlockId → List BlockId → Option (Bool × List BlockId)
  | [], done => some (false, done)
  | pre :: rest, done =>
    if !drop pre then
      match rec pre done with
      | none => none
      | some (true, done1) => some (true, done1)
      | some (false, done1) => rangePreds rec drop rest done1
    else
      rangePreds rec drop rest done

/-- Function `backtrace`: the result and the new content of the `done` map. -/
def backtrace (preds : BlockId → List BlockId) (drop terminate : BlockId → Bool) :
    Nat → BlockId → List BlockId → Option (Bool × List BlockId)
  | 0, _, _ => none
  | fuel + 1, b, done =>
    if b ∈ done then some (false, done)
    else if terminate b then some (true, b :: done)
    else rangePreds (backtrace preds drop terminate fuel) drop (preds b) (b :: done)

/-- First closure passed to `backtrace` by `hasNilGuard`: the last instruction
of the block is one of the guards. -/
def dropGuard (f : Func) (guards : List ValueId) (b : BlockId) : Bool :=
  match (f.Instrs b).getLast? with
  | none => false
  | some last => decide (last ∈ guards)

/-- Second closure passed to `backtrace` by `hasNilGuard`: the block is the
first block of the function. -/
def isEntry (b : BlockId) : Bool := b == 0

/-- Function `hasNilGuard`, with the call of `isNil` taken as a parameter. -/
def hasNilGuardWith (f : Func) (isNilRec : BlockId → ValueId → Option Bool) (fuel : Nat)
    (b : BlockId) (v : ValueId) : Option Bool :=
  if !isInstruction (f.node v) then some false
  else
    match f.Referrers v with
    | none => some false
    | some refs =>
      match collectGuards f isNilRec fuel v refs with
      | none => none
      | some guards =>
        if guards.length == 0 then some false
        else
          match backtrace f.Preds (dropGuard f guards) isEntry (f.numBlocks + 1) b [] with
          | none => none
          | some (true, _) => some false
          | some (false, _) => some true

/-- Function `slices.ContainsFunc` over calls that may not return. -/
def containsFunc {α : Type} (p : α → Option Bool) : List α → Option Bool
  | [] => some false
  | a :: rest =>
    match p a with
    | none => none
    | some true => some true
    | some false => containsFunc p rest

/-- Function `isNil`. -/
def isNil (f : Func) : Nat → BlockId → ValueId → Option Bool
  | 0, _, _ => none
  | fuel + 1, b, v =>
    match f.node v with
    | .const val => some val.IsNil
    | .phi edges =>
      match hasNilGuardWith f (isNil f fuel) fuel b v with
      | none => none
      | some true => some false
      | some false => containsFunc (isNil f fuel b) edges
    | _ => some false

/-- Function `hasNilGuard`. -/
def hasNilGuard (f : Func) (fuel : Nat) (b : BlockId) (v : ValueId) : Option Bool :=
  hasNilGuardWith f (isNil f fuel) fuel b v

/-! ## Rules on instructions -/

/-- Arguments of one `pass.Reportf` call: the position and the values put into
the message text of the rule. -/
inductive Diagnostic where
  | deprecated (pos : Nat) (fullName pkgPath suggest : String)
  | formatString (pos : Nat) (fullName msg : String)
  | nilErr (pos : Nat) (ordinal fullName : String)
  | varInit (pos : Nat) (fullName suggest : String)
  deriving DecidableEq, Repr

/-- Call `analysisutil.Called(instr, nil, obj)`: the instruction is a call of
the function named `obj`. -/
def Called (f : Func) (instr : ValueId) (obj : String) : Bool :=
  match f.node instr with
  | .call _ callee _ => callee == obj
  | _ => false

/-- Method `checkDeprecatedFunc`. -/
def checkDeprecatedFunc (libFuncs : List String) (pkgPath : String) (f : Func)
    (instr : ValueId) : List Diagnostic :=
  [("errors.New", "ergo.New"), ("fmt.Errorf", "ergo.Wrap")].filterMap (fun deprecated =>
    if deprecated.1 ∉ libFuncs then none
    else if Called f instr deprecated.1 then
      some (.deprecated (f.Pos instr) deprecated.1 pkgPath deprecated.2)
    else none)

/-- Fragment of the regular expressions of package `regexp` used by
`formatRegexp`: one character, a character class, an optional part, a
concatenation. -/
inductive Pattern where
  | char (c : Char)
  | cls (cs : List Char)
  | opt (p : Pattern)
  | seq (p q : Pattern)
  deriving DecidableEq, Repr

/-- Remainders of the input after each way of matching a prefix of it. -/
def Pattern.step : Pattern → List Char → List (List Char)
  | .char _, [] => []
  | .char c, x :: rest => if x == c then [rest] else []
  | .cls _, [] => []
  | .cls cs, x :: rest => if cs.contains x then [rest] else []
  | .opt p, s => p.step s ++ [s]
  | .seq p q, s => (p.step s).flatMap q.step

/-- Method `MatchString` of an unanchored pattern: some part of the text matches. -/
def Pattern.MatchString (p : Pattern) (s : String) : Bool :=
  s.data.tails.any (fun t => !(p.step t).isEmpty)

/-- Compiled regular expression `*regexp.Regexp`, known by what it matches. -/
structure Regexp where
  MatchString : String → Bool

/-- Pattern of `formatRegexp`: a percent sign, an optional plus or hash sign,
one of the letters `v`, `s`, `d`, `T`. -/
def formatPattern : Pattern :=
  .seq (.char '%') (.seq (.opt (.cls ['+', '#'])) (.cls ['v', 's', 'd', 'T']))

/-- Variable `formatRegexp`. -/
def formatRegexp : Regexp := ⟨formatPattern.MatchString⟩

/-- Method `checkFormatString`. -/
def checkFormatString (libFuncs : List String) (f : Func) (instr : ValueId) : List Diagnostic :=
  [("github.com/newmo-oss/ergo.New", 0), ("github.com/newmo-oss/ergo.Wrap", 1)].filterMap
    (fun fn =>
      if fn.1 ∉ libFuncs then none
      else if !Called f instr fn.1 then none
      else
        match f.node instr with
        | .call .call _ args =>
          match args.get? fn.2 with
          | none => none
          | some msgarg =>
            match f.node msgarg with
            | .const (.string msg) =>
              if formatRegexp.MatchString msg then
                some (.formatString (f.Pos instr) fn.1 msg)
              else none
            | _ => none
        | _ => none)

/-- Function `ordinalNumber`. -/
def ordinalNumber (n : Nat) : String :=
  match n with
  | 1 => "1st"
  | 2 => "2nd"
  | 3 => "3rd"
  | _ => toString n ++ "th"

/-- Body of the loop of `checkNilErr` for one function of the list. -/
def checkNilErrOne (libFuncs : List String) (f : Func) (fuel : Nat) (instr : ValueId)
    (fn : String × Nat) : Option (List Diagnostic) :=
  if fn.1 ∉ libFuncs then some []
  else if !Called f instr fn.1 then some []
  else
    match f.node instr with
    | .call .call _ args =>
      match args.get? fn.2 with
      | none => some []
      | some errarg =>
        match isNil f fuel (f.Block instr) errarg with
        | none => none
        | some true => some [.nilErr (f.Pos instr) (ordinalNumber (fn.2 + 1)) fn.1]
        | some false => some []
    | _ => some []

/-- Method `checkNilErr`: the diagnostics reported, `none` when a call of
`isNil` does not return. -/
def checkNilErr (libFuncs : List String) (f : Func) (fuel : Nat) (instr : ValueId) :
    Option (List Diagnostic) :=
  match checkNilErrOne libFuncs f fuel instr ("github.com/newmo-oss/ergo.WithCode", 0) with
  | none => none
  | some d1 =>
    match checkNilErrOne libFuncs f fuel instr ("github.com/newmo-oss/ergo.Wrap", 0) with
    | none => none
    | some d2 => some (d1 ++ d2)

/-! ## Driver -/

/-- Result `*buildssa.SSA` of the SSA builder.  Function objects are named by
identifiers: their bodies, their anonymous functions, the source functions, and
the package members, `none` for a member that is not a function. -/
structure SSA where
  Funcs : Nat → Func
  AnonFuncs : Nat → List Nat
  SrcFuncs : List Nat
  Members : List (Option Nat)

/-- Expression of the syntax tree, as far as `checkVarInit` and `getCallFun`
look: an identifier or a selector with the function object it denotes, a call
with its position, anything else. -/
inductive Expr where
  | ident (obj : Option String)
  | selector (obj : Option String)
  | call (pos : Nat) (fn : Expr)
  | other
  deriving DecidableEq, Repr

/-- Spec of a general declaration: a value spec with its values, or another one. -/
inductive Spec where
  | value (values : List Expr)
  | other
  deriving DecidableEq, Repr

/-- Top-level declaration: a general declaration with whether its token is
`var` and its specs, or another declaration. -/
inductive Decl where
  | gen (isVar : Bool) (specs : List Spec)
  | other
  deriving DecidableEq, Repr

/-- Input `*analysis.Pass` of one run. -/
structure Pass where
  PkgPath : String
  ResultOf : Option SSA
  ObjectOf : String → String → Bool
  Files : List (List Decl)

/-- Receiver `runner`. -/
structure Runner where
  targetPackgeRegexp : Option Regexp
  excludePackageRegexp : Option Regexp
  libFuncs : List String
  ssa : Option SSA

/-- Method `getFuncs`: the keys of the map it returns. -/
def getFuncs (pass : Pass) (libFuncs : List (String × String)) : List String :=
  libFuncs.filterMap (fun libFunc =>
    if pass.ObjectOf libFunc.1 libFunc.2 then some (libFunc.1 ++ "." ++ libFunc.2) else none)

/-- Method `init`.  `Compile` stands for `regexp.Compile`, the two flags are the
package variables `flagPackages` and `flagExclues`. -/
def init (Compile : String → Except Ergo.Error Regexp) (callerNew : Nat → Ergo.StackTrace)
    (flagPackages flagExclues : String) (pass : Pass) : Except Ergo.Error Runner :=
  let target : Except Ergo.Error (Option Regexp) :=
    if flagPackages != "" then
      match Compile flagPackages with
      | .error err =>
        .error (Ergo.Wrap callerNew err "failed to compile target packages import path regexp"
          [⟨"regexp", .string flagPackages⟩])
      | .ok re => .ok (some re)
    else .ok none
  match target with
  | .error err => .error err
  | .ok targetPackgeRegexp =>
    let exclude : Except Ergo.Error (Option Regexp) :=
      if flagExclues != "" then
        match Compile flagExclues with
        | .error err =>
          .error (Ergo.Wrap callerNew err
            "failed to compile excluded packages import path regexp"
            [⟨"regexp", .string flagExclues⟩])
        | .ok re => .ok (some re)
      else .ok none
    match exclude with
    | .error err => .error err
    | .ok excludePackageRegexp =>
      .ok {
        targetPackgeRegexp := targetPackgeRegexp
        excludePackageRegexp := excludePackageRegexp
        ssa := pass.ResultOf
        libFuncs := getFuncs pass [
          ("errors", "New"),
          ("fmt", "Errorf"),
          ("github.com/newmo-oss/ergo", "New"),
          ("github.com/newmo-oss/ergo", "Wrap"),
          ("github.com/newmo-oss/ergo", "WithCode")] }

/-- Method `isTargetPkg`. -/
def isTargetPkg (r : Runner) (pkgpath : String) : Bool :=
  (match r.targetPackgeRegexp with
    | none => true
    | some re => re.MatchString pkgpath)
  && (match r.excludePackageRegexp with
    | none => true
    | some re => !re.MatchString pkgpath)

/-- Functions analysed by `run`: the source functions, then every member
function not yet in the list, each followed by its anonymous functions not yet
in the list. -/
def collectFuncs (ssa : SSA) : List Nat :=
  ssa.Members.foldl (fun funcs m =>
    match m with
    | some f =>
      if f ∉ funcs then
        (ssa.AnonFuncs f).foldl (fun funcs anon =>
          if anon ∉ funcs then funcs ++ [anon] else funcs) (funcs ++ [f])
      else funcs
    | none => funcs) ssa.SrcFuncs

/-- Instructions visited by `ssainspect.All`: those of every block of every
function of the list. -/
def allInstrs (ssa : SSA) (funcs : List Nat) : List (Func × ValueId) :=
  funcs.flatMap (fun fn =>
    (List.range (ssa.Funcs fn).numBlocks).flatMap (fun b =>
      ((ssa.Funcs fn).Instrs b).map (fun instr => (ssa.Funcs fn, instr))))

/-- Method `getCallFun`. -/
def getCallFun : Expr → Option String
  | .ident obj => obj
  | .selector obj => obj
  | _ => none

/-- Method `checkVarInit`. -/
def checkVarInit (libFuncs : List String) (files : List (List Decl)) : List Diagnostic :=
  if "github.com/newmo-oss/ergo.New" ∉ libFuncs then []
  else if "github.com/newmo-oss/ergo.Wrap" ∉ libFuncs then []
  else
    files.flatMap (fun file => file.flatMap (fun decl =>
      match decl with
      | .gen true specs => specs.flatMap (fun spec =>
        match spec with
        | .value values => values.flatMap (fun val =>
          match val with
          | .call pos fn =>
            match getCallFun fn with
            | none => []
            | some obj =>
              if obj == "github.com/newmo-oss/ergo.New" then
                [.varInit pos obj "ergo.NewSentinel"]
              else if obj == "github.com/newmo-oss/ergo.Wrap" then
                [.varInit pos obj "errors.Join"]
              else []
          | _ => [])
        | .other => [])
      | _ => []))

/-- Loop of `run` over the instructions: the diagnostics of the three rules,
`none` when a call of `checkNilErr` does not return. -/
def checkInstrs (libFuncs : List String) (pkgPath : String) (fuel : Nat) :
    List (Func × ValueId) → Option (List Diagnostic)
  | [] => some []
  | cur :: rest =>
    match checkNilErr libFuncs cur.1 fuel cur.2 with
    | none => none
    | some nilErrs =>
      match checkInstrs libFuncs pkgPath fuel rest with
      | none => none
      | some ds =>
        some (checkDeprecatedFunc libFuncs pkgPath cur.1 cur.2
          ++ checkFormatString libFuncs cur.1 cur.2 ++ nilErrs ++ ds)

/-- Method `run`: the diagnostics reported and the error returned (nil when
there is none), `none` when the run does not return. -/
def run (Compile : String → Except Ergo.Error Regexp) (callerNew : Nat → Ergo.StackTrace)
    (flagPackages flagExclues : String) (fuel : Nat) (pass : Pass) :
    Option (List Diagnostic × Ergo.Error) :=
  match init Compile callerNew flagPackages flagExclues pass with
  | .error err => some ([], err)
  | .ok r =>
    match r.ssa with
    | none => some ([], .nil)
    | some ssa =>
      if !isTargetPkg r pass.PkgPath then some ([], .nil)
      else
        match checkInstrs r.libFuncs pass.PkgPath fuel (allInstrs ssa (collectFuncs ssa)) with
        | none => none
        | some ds => some (ds ++ checkVarInit r.libFuncs pass.Files, .nil)

/-! ## Reference definitions for the statements -/

/-- A block on which `terminate` holds can be reached from `b` by following
predecessor edges without entering a block that `drop` removes. -/
inductive Reaches (preds : BlockId → List BlockId) (drop terminate : BlockId → Bool) :
    BlockId → Prop where
  | here {b : BlockId} : terminate b = true → Reaches preds drop terminate b
  | pred {b p : BlockId} : p ∈ preds b → drop p = false → Reaches preds drop terminate p →
      Reaches preds drop terminate b

/-- State of the `done` map after a run that returned false: the map has only
grown, and every block added to it does not terminate and has all its
predecessors that `drop` keeps in the map. -/
def Explored (preds : BlockId → List BlockId) (drop terminate : BlockId → Bool)
    (done d1 : List BlockId) : Prop :=
  done ⊆ d1 ∧ ∀ x ∈ d1, x ∉ done →
    terminate x = false ∧ ∀ q ∈ preds x, drop q = false → q ∈ d1

/-- Number of blocks of a function with `n` blocks that are not in the `done` map. -/
def unvisited (n : Nat) (done : List BlockId) : Nat :=
  ((List.range n).filter (fun b => decide (b ∉ done))).length

/-- Path of the control-flow graph from the entry block (index 0) to `b`, read
from `b` backwards: the list holds the blocks the path goes through before it
ends in `b`, the nearest first and the entry block last; it is empty for the
path made of the entry block alone. -/
inductive EntryPath (preds : BlockId → List BlockId) : BlockId → List BlockId → Prop where
  | entry : EntryPath preds 0 []
  | pred {b p : BlockId} {l : List BlockId} : p ∈ preds b → EntryPath preds p l →
      EntryPath preds b (p :: l)

/-- The conditional branch `g` is a nil guard of `v`: some referrer of `v` is a
binary operation whose first `*ssa.If` referrer is `g`, and one of its operands
is equal to `v` up to phi nodes while `isNil` holds for the other operand in the
block of the binary operation. -/
def NilGuard (f : Func) (fuel : Nat) (v g : ValueId) : Prop :=
  ∃ refs ref op x y, f.Referrers v = some refs ∧ ref ∈ refs ∧ f.node ref = .binOp op x y
    ∧ getIf f ref = some g
    ∧ ((equalValue f fuel x v = some true ∧ isNil f fuel (f.Block ref) y = some true)
      ∨ (equalValue f fuel y v = some true ∧ isNil f fuel (f.Block ref) x = some true))

/-- The last instruction of the block is a nil guard of `v`. -/
def GuardBlock (f : Func) (fuel : Nat) (v : ValueId) (x : BlockId) : Prop :=
  ∃ g, (f.Instrs x).getLast? = some g ∧ NilGuard f fuel v g

/-- The text holds a percent sign, then at most one plus or hash sign, then one
of the letters `v`, `s`, `d`, `T`. -/
def HasVerb (m : String) : Prop :=
  ∃ pre flag verb post, m.data = pre ++ '%' :: (flag ++ verb :: post)
    ∧ (flag = [] ∨ flag = ['+'] ∨ flag = ['#'])
    ∧ verb ∈ ['v', 's', 'd', 'T']

/-- Leaves of the phi-tree of a value: the values that are not phi nodes and are
reached by expanding phi edges again and again; a value that is not a phi node
is its own leaf. -/
inductive Leaf (f : Func) : ValueId → ValueId → Prop where
  | self {v : ValueId} : (∀ edges, f.node v ≠ .phi edges) → Leaf f v v
  | edge {v e l : ValueId} {edges : List ValueId} : f.node v = .phi edges → e ∈ edges →
      Leaf f e l → Leaf f v l

/-- The same function with the operator of one binary operation replaced. -/
def withOp (f : Func) (instr : ValueId) (op : String) : Func :=
  { f with
    node := fun v =>
      if v == instr then
        match f.node v with
        | .binOp _ x y => .binOp op x y
        | n => n
      else f.node v }

/-- Consumer of `phiValues` that collects every value and never stops. -/
def collectLeaf (acc : List ValueId) (v : ValueId) : List ValueId × Bool :=
  (acc ++ [v], true)

/-! ## Functions of the test data -/

/-- SSA form of the pattern of `forCheckNilErr`:
`var err error; if cond { err = ergo.New("e") }; ergo.Wrap(err, "");
if err != nil { ergo.Wrap(err, "") }`, the variadic arguments left out.

* block 0: `0: t0 = cond`, `1: if t0 goto 1 else 2`
* block 1: `3: t1 = ergo.New("e")`, `4: jump 2`
* block 2: `6: t2 = phi [0: nil, 1: t1]`, `8: ergo.Wrap(t2, "")`,
  `10: t3 = t2 != nil`, `11: if t3 goto 3 else 4`
* block 3: `13: ergo.Wrap(t2, "")`, `14: jump 4`
* block 4: `15: return`

The constants are the values 2, 5, 7, 9 and 12. -/
def nilErrFunc : Func where
  node := fun v =>
    match v with
    | 1 => .ifInstr 0
    | 2 => .const (.string "e")
    | 3 => .call .call "github.com/newmo-oss/ergo.New" [2]
    | 5 => .const .nil
    | 6 => .phi [5, 3]
    | 7 => .const (.string "")
    | 8 => .call .call "github.com/newmo-oss/ergo.Wrap" [6, 7]
    | 9 => .const .nil
    | 10 => .binOp "!=" 6 9
    | 11 => .ifInstr 10
    | 12 => .const (.string "")
    | 13 => .call .call "github.com/newmo-oss/ergo.Wrap" [6, 12]
    | _ => .instr
  Referrers := fun v =>
    match v with
    | 0 => some [1]
    | 2 => none
    | 3 => some [6]
    | 5 => none
    | 6 => some [8, 10, 13]
    | 7 => none
    | 9 => none
    | 10 => some [11]
    | 12 => none
    | _ => some []
  Block := fun v =>
    match v with
    | 3 => 1
    | 4 => 1
    | 6 => 2
    | 8 => 2
    | 10 => 2
    | 11 => 2
    | 13 => 3
    | 14 => 3
    | 15 => 4
    | _ => 0
  Preds := fun b =>
    match b with
    | 1 => [0]
    | 2 => [0, 1]
    | 3 => [2]
    | 4 => [2, 3]
    | _ => []
  Instrs := fun b =>
    match b with
    | 0 => [0, 1]
    | 1 => [3, 4]
    | 2 => [6, 8, 10, 11]
    | 3 => [13, 14]
    | 4 => [15]
    | _ => []
  numBlocks := 5
  Pos := fun v => v

/-- Keys of the function map when every library function is found. -/
def allLibFuncs : List String :=
  ["errors.New", "fmt.Errorf", "github.com/newmo-oss/ergo.New",
    "github.com/newmo-oss/ergo.Wrap", "github.com/newmo-oss/ergo.WithCode"]

/-- SSA form of calls of `forCheckFormatString`, in one block:
`1: ergo.New("%s")`, `3: fmt.Sprintf("%s", "error")`, `4: ergo.New(t3)`,
`6: err = ergo.New("error")`, `8: ergo.Wrap(err, "%+v")`, `10: ergo.Wrap(err, "100%")`,
`11: return`; the last call is not in the test data.  The constants are the
values 0, 2, 5, 7 and 9. -/
def formatFunc : Func where
  node := fun v =>
    match v with
    | 0 => .const (.string "%s")
    | 1 => .call .call "github.com/newmo-oss/ergo.New" [0]
    | 2 => .const (.string "error")
    | 3 => .call .call "fmt.Sprintf" [0, 2]
    | 4 => .call .call "github.com/newmo-oss/ergo.New" [3]
    | 5 => .const (.string "error")
    | 6 => .call .call "github.com/newmo-oss/ergo.New" [5]
    | 7 => .const (.string "%+v")
    | 8 => .call .call "github.com/newmo-oss/ergo.Wrap" [6, 7]
    | 9 => .const (.string "100%")
    | 10 => .call .call "github.com/newmo-oss/ergo.Wrap" [6, 9]
    | _ => .instr
  Referrers := fun v =>
    match v with
    | 3 => some [4]
    | 6 => some [8, 10]
    | 1 => some []
    | 4 => some []
    | 8 => some []
    | 10 => some []
    | 11 => some []
    | _ => none
  Block := fun _ => 0
  Preds := fun _ => []
  Instrs := fun b =>
    match b with
    | 0 => [1, 3, 4, 6, 8, 10, 11]
    | _ => []
  numBlocks := 1
  Pos := fun v => v

/-- SSA form of `func forCheckDeprecatedFunc() { _ = errors.New("error") }`:
`1: errors.New("error")`, `2: return` in one block; value 0 is the constant. -/
def deprecatedFunc : Func where
  node := fun v =>
    match v with
    | 0 => .const (.string "error")
    | 1 => .call .call "errors.New" [0]
    | _ => .instr
  Referrers := fun v =>
    match v with
    | 0 => none
    | _ => some []
  Block := fun _ => 0
  Preds := fun _ => []
  Instrs := fun b =>
    match b with
    | 0 => [1, 2]
    | _ => []
  numBlocks := 1
  Pos := fun v => v

/-- Text matched by a pattern made of `.+`, a literal suffix and `$`: it ends
with the suffix, after at least one more character. -/
def endsWithAfter (suffix path : String) : Bool :=
  decide (suffix.length < path.length)
    && (path.data.drop (path.length - suffix.length) == suffix.data)

/-- Function `regexp.Compile` on the patterns of `TestAnalyzer`; every other
pattern is taken as one that does not compile. -/
def testCompile (pattern : String) : Except Ergo.Error Regexp :=
  if pattern == ".+/a$" then .ok ⟨endsWithAfter "/a"⟩
  else if pattern == ".+/exclue$" then .ok ⟨endsWithAfter "/exclue"⟩
  else .error (.foreign .nil ("error parsing regexp: " ++ pattern) none)

/-- SSA result of a package whose only function is `deprecatedFunc`. -/
def testSSA : SSA where
  Funcs := fun _ => deprecatedFunc
  AnonFuncs := fun _ => []
  SrcFuncs := [0]
  Members := [some 0]

/-- Pass over a package of the given path with the source of `testSSA`. -/
def testPass (pkgPath : String) : Pass where
  PkgPath := pkgPath
  ResultOf := some testSSA
  ObjectOf := fun _ _ => true
  Files := []

/-- Runner after `init` with the given flags on a pass of `testPass`. -/
def testRunner (flagPackages flagExclues pkgPath : String) : Runner :=
  match init testCompile Ergo.testCaller flagPackages flagExclues (testPass pkgPath) with
  | .ok r => r
  | .error _ => ⟨none, none, [], none⟩

/-- SSA form of
`func g() error { err := f(); for ForPhi { if ForPhi { err = ergo.New("error") } };
return ergo.Wrap(err, "") }`, the variadic arguments left out.

* block 0 (entry): `0: t0 = f()`, `1: jump 3`
* block 1 (for.body): `6: t2 = *ForPhi`, `7: if t2 goto 4 else 5`
* block 2 (for.done): `13: t4 = ergo.Wrap(err1, "")`, `14: return t4`
* block 3 (for.loop): `2: err1 = phi [0: t0, 5: err2]`, `3: t1 = *ForPhi`,
  `5: if t1 goto 1 else 2`
* block 4 (if.then): `8: t3 = ergo.New("error")`, `9: jump 5`
* block 5 (if.done): `10: err2 = phi [1: err1, 4: t3]`, `12: jump 3`

The constants are the values 15 and 16.  The phi nodes `err1` and `err2` are
edges of each other. -/
def loopFunc : Func where
  node := fun v =>
    match v with
    | 0 => .call .call "github.com/newmo-oss/a.f" []
    | 2 => .phi [0, 10]
    | 5 => .ifInstr 3
    | 7 => .ifInstr 6
    | 8 => .call .call "github.com/newmo-oss/ergo.New" [15]
    | 10 => .phi [2, 8]
    | 13 => .call .call "github.com/newmo-oss/ergo.Wrap" [2, 16]
    | 15 => .const (.string "error")
    | 16 => .const (.string "")
    | _ => .instr
  Referrers := fun v =>
    match v with
    | 0 => some [2]
    | 2 => some [10, 13]
    | 3 => some [5]
    | 6 => some [7]
    | 8 => some [10]
    | 10 => some [2]
    | 13 => some [14]
    | 15 => none
    | 16 => none
    | _ => some []
  Block := fun v =>
    match v with
    | 6 => 1
    | 7 => 1
    | 13 => 2
    | 14 => 2
    | 2 => 3
    | 3 => 3
    | 5 => 3
    | 8 => 4
    | 9 => 4
    | 10 => 5
    | 12 => 5
    | _ => 0
  Preds := fun b =>
    match b with
    | 1 => [3]
    | 2 => [3]
    | 3 => [0, 5]
    | 4 => [1]
    | 5 => [1, 4]
    | _ => []
  Instrs := fun b =>
    match b with
    | 0 => [0, 1]
    | 1 => [6, 7]
    | 2 => [13, 14]
    | 3 => [2, 3, 5]
    | 4 => [8, 9]
    | 5 => [10, 12]
    | _ => []
  numBlocks := 6
  Pos := fun v => v

/-- SSA form of `var err error; if cond { err = ergo.New("e") }; ergo.Wrap(err, "");
if err == nil { ergo.Wrap(err, "") }`: the function `nilErrFunc` with the
comparison `==` in place of `!=`, so that block 3 is the branch taken when `err`
is nil. -/
def eqNilFunc : Func := withOp nilErrFunc 10 "=="

/-- SSA form of `var err error; if cond { err = ergo.New("e") }; ergo.Wrap(err, "");
if err != nil { log.Println() }; ergo.Wrap(err, "")`: the blocks of `nilErrFunc`
with another call in block 3 and the second call of `ergo.Wrap` in block 4,
after the `if`.

* block 2: `6: t2 = phi [0: nil, 1: t1]`, `8: ergo.Wrap(t2, "")`, `10: t3 = t2 != nil`,
  `11: if t3 goto 3 else 4`
* block 3: `16: log.Println()`, `14: jump 4`
* block 4: `13: ergo.Wrap(t2, "")`, `15: return` -/
def afterIfFunc : Func :=
  { nilErrFunc with
    node := fun v => if v == 16 then .call .call "log.Println" [] else nilErrFunc.node v
    Block := fun v => if v == 13 then 4 else if v == 16 then 3 else nilErrFunc.Block v
    Instrs := fun b =>
      match b with
      | 3 => [16, 14]
      | 4 => [13, 15]
      | _ => nilErrFunc.Instrs b }

/-- SSA form of `var err error; if cond { err = ergo.New("e") }; if err != nil { };
ergo.Wrap(err, "")`, the variadic arguments left out.  The body of the second
`if` is a block made of a jump alone: the builder removes it, replaces the branch
that has both targets the same by a jump, and joins the blocks, so the
comparison is left without a referrer.

* block 0: `0: t0 = cond`, `1: if t0 goto 1 else 2`
* block 1: `3: t1 = ergo.New("e")`, `4: jump 2`
* block 2: `6: t2 = phi [0: nil, 1: t1]`, `10: t3 = t2 != nil`,
  `13: ergo.Wrap(t2, "")`, `15: return`

The constants are the values 2, 5, 7 and 9. -/
def emptyIfFunc : Func where
  node := fun v =>
    match v with
    | 1 => .ifInstr 0
    | 2 => .const (.string "e")
    | 3 => .call .call "github.com/newmo-oss/ergo.New" [2]
    | 5 => .const .nil
    | 6 => .phi [5, 3]
    | 7 => .const (.string "")
    | 9 => .const .nil
    | 10 => .binOp "!=" 6 9
    | 13 => .call .call "github.com/newmo-oss/ergo.Wrap" [6, 7]
    | _ => .instr
  Referrers := fun v =>
    match v with
    | 0 => some [1]
    | 2 => none
    | 3 => some [6]
    | 5 => none
    | 6 => some [10, 13]
    | 7 => none
    | 9 => none
    | _ => some []
  Block := fun v =>
    match v with
    | 3 => 1
    | 4 => 1
    | 6 => 2
    | 10 => 2
    | 13 => 2
    | 15 => 2
    | _ => 0
  Preds := fun b =>
    match b with
    | 1 => [0]
    | 2 => [0, 1]
    | _ => []
  Instrs := fun b =>
    match b with
    | 0 => [0, 1]
    | 1 => [3, 4]
    | 2 => [6, 10, 13, 15]
    | _ => []
  numBlocks := 3
  Pos := fun v => v

/-- SSA form of `func h() { go ergo.Wrap(nil, "%s") }`, the variadic argument
left out: the block 0 holds `2: go ergo.Wrap(nil, "%s")` and `3: return`.  The
constants are the values 0 and 1. -/
def goFunc : Func where
  node := fun v =>
    match v with
    | 0 => .const .nil
    | 1 => .const (.string "%s")
    | 2 => .call .go "github.com/newmo-oss/ergo.Wrap" [0, 1]
    | _ => .instr
  Referrers := fun v =>
    match v with
    | 0 => none
    | 1 => none
    | _ => some []
  Block := fun _ => 0
  Preds := fun _ => []
  Instrs := fun b =>
    match b with
    | 0 => [2, 3]
    | _ => []
  numBlocks := 1
  Pos := fun v => v

end Ergocheck

namespace Ergo

/-! ## Attribute iteration -/

theorem firstPerKey_filter_done (a : Attr) (done : Done) (l : List Attr) (h : a.Key ∈ done) :
    (l.filter (fun b => b.Key != a.Key)).filter (fun b => decide (b.Key ∉ done))
      = l.filter (fun b => decide (b.Key ∉ done)) := by
  rw [List.filter_filter]
  apply List.filter_congr
  intro b _
  by_cases hb : b.Key ∈ done
  · simp [hb]
  · have : b.Key ≠ a.Key := fun e => hb (e ▸ h)
    simp [hb, this]

theorem firstPerKey_filter_cons (a : Attr) (done : Done) (l : List Attr) :
    (l.filter (fun b => b.Key != a.Key)).filter (fun b => decide (b.Key ∉ done))
      = l.filter (fun b => decide (b.Key ∉ a.Key :: done)) := by
  rw [List.filter_filter]
  apply List.filter_congr
  intro b _
  by_cases hb : b.Key ∈ done <;> by_cases hk : b.Key = a.Key <;> simp [hb, hk]

/-- Run of the first loop under the collecting callback. -/
theorem rangeAttrs_collect (attrs : List Attr) (done : Done) (acc : List Attr) :
    (rangeAttrs collectYield attrs done acc).2.2 = true
    ∧ (rangeAttrs collectYield attrs done acc).2.1
        = acc ++ (firstPerKey attrs).filter (fun b => decide (b.Key ∉ done))
    ∧ ∀ k, k ∈ (rangeAttrs collectYield attrs done acc).1 ↔ k ∈ done ∨ k ∈ attrs.map Attr.Key := by
  induction attrs generalizing done acc with
  | nil => simp [rangeAttrs, firstPerKey]
  | cons a rest ih =>
    by_cases h : a.Key ∈ done
    · obtain ⟨h1, h2, h3⟩ := ih done acc
      simp only [rangeAttrs, h, if_true]
      refine ⟨h1, ?_, ?_⟩
      · rw [h2, firstPerKey, List.filter_cons]
        simp only [h, not_true_eq_false, decide_False, Bool.false_eq_true, if_false]
        rw [firstPerKey_filter_done a done _ h]
      · intro k
        rw [h3 k]
        simp only [List.map_cons, List.mem_cons]
        constructor
        · rintro (hk | hk)
          · exact Or.inl hk
          · exact Or.inr (Or.inr hk)
        · rintro (hk | hk | hk)
          · exact Or.inl hk
          · exact Or.inl (hk ▸ h)
          · exact Or.inr hk
    · obtain ⟨h1, h2, h3⟩ := ih (a.Key :: done) (acc ++ [a])
      simp only [rangeAttrs, h, if_false, collectYield, Bool.not_true, Bool.false_eq_true]
      refine ⟨h1, ?_, ?_⟩
      · rw [h2, firstPerKey, List.filter_cons]
        simp only [h, not_false_eq_true, decide_True, if_true]
        rw [firstPerKey_filter_cons a done _]
        simp
      · intro k
        rw [h3 k]
        simp only [List.map_cons, List.mem_cons]
        tauto

theorem firstPerKey_append (xs ys : List Attr) :
    firstPerKey (xs ++ ys)
      = firstPerKey xs ++ (firstPerKey ys).filter (fun b => decide (b.Key ∉ xs.map Attr.Key)) := by
  induction xs with
  | nil => simp [firstPerKey]
  | cons a xs ih =>
    rw [List.cons_append, firstPerKey, firstPerKey, ih, List.filter_append, List.map_cons,
      List.cons_append]
    congr 2
    rw [List.filter_filter]
    apply List.filter_congr
    intro b _
    by_cases hb : b.Key ∈ xs.map Attr.Key <;> by_cases hk : b.Key = a.Key <;> simp [hb, hk]

theorem firstPerKey_keys_nodup (l : List Attr) : ((firstPerKey l).map Attr.Key).Nodup := by
  induction l with
  | nil => simp [firstPerKey]
  | cons a rest ih =>
    simp only [firstPerKey, List.map_cons, List.nodup_cons]
    constructor
    · intro hmem
      obtain ⟨b, hb, hk⟩ := List.mem_map.mp hmem
      simp [List.mem_filter, hk] at hb
    · exact ih.sublist ((List.filter_sublist _).map _)

theorem firstPerKey_filter_key (l : List Attr) (k : String) :
    (firstPerKey l).filter (fun a => a.Key == k)
      = (l.find? (fun a => a.Key == k)).toList := by
  induction l with
  | nil => simp [firstPerKey]
  | cons a rest ih =>
    by_cases hk : a.Key = k
    · simp only [firstPerKey, List.filter_cons, List.find?_cons, hk, beq_self_eq_true, if_true,
        Option.toList_some, List.cons.injEq, true_and]
      rw [List.filter_filter]
      apply List.filter_eq_nil_iff.mpr
      intro b _
      by_cases hb : b.Key = k <;> simp [hb]
    · have hk2 : (a.Key == k) = false := by simpa using hk
      simp only [firstPerKey, List.filter_cons, List.find?_cons, hk2, Bool.false_eq_true, if_false]
      rw [List.filter_filter, ← ih]
      apply List.filter_congr
      intro b _
      by_cases hb : b.Key = k
      · have : ¬ k = a.Key := fun e => hk e.symm
        simp [hb, this]
      · simp [hb]

/-- Run of the sequence body under the collecting callback: the consumer never
stops, the attributes appended are the first-per-key attributes of the chain
whose keys were not in the done map, and the done map gains the keys of the chain. -/
theorem attrsAll_collect (err : Error) (done : Done) (acc : List Attr) :
    (attrsAll collectYield err done acc).2.2 = true
    ∧ (attrsAll collectYield err done acc).2.1
        = acc ++ (firstPerKey (chainAttrs err)).filter (fun b => decide (b.Key ∉ done))
    ∧ ∀ k, k ∈ (attrsAll collectYield err done acc).1
        ↔ k ∈ done ∨ k ∈ (chainAttrs err).map Attr.Key := by
  induction err generalizing done acc with
  | nil => simp [attrsAll, chainAttrs, firstPerKey]
  | codedError parent code ih => simpa [attrsAll, chainAttrs] using ih done acc
  | foreign parent msg format ih => simpa [attrsAll, chainAttrs] using ih done acc
  | defaultError parent msg attrs st ih =>
    obtain ⟨r1, r2, r3⟩ := rangeAttrs_collect attrs done acc
    obtain ⟨h1, h2, h3⟩ := ih (rangeAttrs collectYield attrs done acc).1
      (rangeAttrs collectYield attrs done acc).2.1
    simp only [attrsAll, r1, Bool.not_true, Bool.false_eq_true, if_false, chainAttrs]
    refine ⟨h1, ?_, ?_⟩
    · rw [h2, r2, firstPerKey_append, List.filter_append, List.append_assoc]
      congr 2
      rw [List.filter_filter]
      apply List.filter_congr
      intro b _
      have := r3 b.Key
      by_cases hd : b.Key ∈ done <;> by_cases hx : b.Key ∈ attrs.map Attr.Key <;>
        simp [hd, hx, this]
    · intro k
      rw [h3 k, r3 k]
      simp only [List.map_append, List.mem_append]
      tauto

theorem Collect_eq (err : Error) : Collect err = firstPerKey (chainAttrs err) := by
  have h := (attrsAll_collect err [] []).2.1
  simpa [Collect, AttrsAll] using h

theorem firstPerKey_of_nodup (l : List Attr) (h : (l.map Attr.Key).Nodup) : firstPerKey l = l := by
  induction l with
  | nil => rfl
  | cons a rest ih =>
    simp only [List.map_cons, List.nodup_cons] at h
    rw [firstPerKey, ih h.2]
    congr 1
    apply List.filter_eq_self.mpr
    intro b hb
    have : b.Key ≠ a.Key := fun e => h.1 (e ▸ List.mem_map_of_mem _ hb)
    simpa using this

theorem chainAttrs_Wrap (callerNew : Nat → StackTrace) (p : Error) (m : String)
    (attrs : List Attr) : chainAttrs (Wrap callerNew p m attrs) = attrs ++ chainAttrs p := by
  unfold Wrap
  cases StackTraceOf p <;> rfl

/-- The source shape of `StackTraceOf`: one `errors.As` call, then the stored
trace or the recursion into the parent of the link found. -/
theorem StackTraceOf_unfold (err : Error) :
    StackTraceOf err =
      match asDefaultError err with
      | none => none
      | some (parent, _, _, stacktrace) =>
        match stacktrace with
        | some st => some st
        | none => StackTraceOf parent := by
  induction err with
  | nil => rfl
  | defaultError parent msg attrs st _ => cases st <;> rfl
  | codedError parent code ih => rw [StackTraceOf, asDefaultError, ih]
  | foreign parent msg format ih => rw [StackTraceOf, asDefaultError, ih]

/-- The source shape of `attrsAll`: one `errors.As` call, the loop over the
attributes of the link found, then the sequence of its parent. -/
theorem attrsAll_unfold {σ : Type} (yield : σ → Attr → σ × Bool) (err : Error) (done : Done)
    (s : σ) :
    attrsAll yield err done s =
      match asDefaultError err with
      | none => (done, s, true)
      | some (parent, _, attrs, _) =>
        if !(rangeAttrs yield attrs done s).2.2 then rangeAttrs yield attrs done s
        else attrsAll yield parent (rangeAttrs yield attrs done s).1
          (rangeAttrs yield attrs done s).2.1 := by
  induction err with
  | nil => rfl
  | defaultError parent msg attrs st _ => rfl
  | codedError parent code ih => rw [attrsAll, asDefaultError, ih]
  | foreign parent msg format ih => rw [attrsAll, asDefaultError, ih]

/-- C1: collecting `AttrsAll(err)` gives the attribute lists of the links,
concatenated child first, with every attribute whose key occurred earlier
removed; so the keys collected are pairwise distinct, the attribute collected
for a key is the first one defining it in child-first order, and for `attrs`
with distinct keys `AttrsAll(Wrap(p, m, attrs))` is `attrs` followed by the
attributes of `AttrsAll(p)` whose keys are not in `attrs`. -/
theorem AttrsAll_child_first_shadowing (err p : Error) (callerNew : Nat → StackTrace)
    (m : String) (attrs : List Attr) :
    Collect err = firstPerKey (chainAttrs err)
    ∧ ((Collect err).map Attr.Key).Nodup
    ∧ (∀ k, (Collect err).filter (fun a => a.Key == k)
        = ((chainAttrs err).find? (fun a => a.Key == k)).toList)
    ∧ ((attrs.map Attr.Key).Nodup →
        Collect (Wrap callerNew p m attrs)
          = attrs ++ (Collect p).filter (fun a => decide (a.Key ∉ attrs.map Attr.Key))) := by
  refine ⟨Collect_eq err, ?_, ?_, ?_⟩
  · rw [Collect_eq]
    exact firstPerKey_keys_nodup _
  · intro k
    rw [Collect_eq]
    exact firstPerKey_filter_key _ k
  · intro h
    rw [Collect_eq, Collect_eq, chainAttrs_Wrap, firstPerKey_append, firstPerKey_of_nodup attrs h]

/-- Witness of C1 on the "same attr" case of `TestWrap`: the child redefines `key1`. -/
theorem AttrsAll_child_first_shadowing_witness :
    (List.map Attr.Key [⟨"key2", .string "value2"⟩, ⟨"key1", .bool true⟩]).Nodup
    ∧ Collect (Wrap testCaller testParent "wrap"
        [⟨"key2", .string "value2"⟩, ⟨"key1", .bool true⟩])
      = [⟨"key2", .string "value2"⟩, ⟨"key1", .bool true⟩] :=
  ⟨by decide,
    ((AttrsAll_child_first_shadowing testParent testParent testCaller "wrap"
      [⟨"key2", .string "value2"⟩, ⟨"key1", .bool true⟩]).2.2.2 (by decide)).trans (by decide)⟩

/-- C2 as stated fails on an attribute list that repeats a key: the second
attribute of key `a` is not yielded, with or without a code wrapper. -/
theorem AttrsAll_New_repeated_key_counterexample :
    Collect (New testCaller "error" [⟨"a", .int64 1⟩, ⟨"a", .int64 2⟩])
      ≠ [⟨"a", .int64 1⟩, ⟨"a", .int64 2⟩]
    ∧ Collect (WithCode (New testCaller "error" [⟨"a", .int64 1⟩, ⟨"a", .int64 2⟩]) codeA)
      ≠ [⟨"a", .int64 1⟩, ⟨"a", .int64 2⟩]
    ∧ Collect (New testCaller "error" [⟨"a", .int64 1⟩, ⟨"a", .int64 2⟩])
      = [⟨"a", .int64 1⟩] := by
  decide

/-- C2, amended: `AttrsAll(New(m, attrs))` and `AttrsAll(WithCode(New(m, attrs), c))`
yield `attrs` with every attribute whose key occurred earlier in `attrs`
removed, in the same order; they yield exactly `attrs` when its keys are
pairwise distinct. -/
theorem AttrsAll_New_first_per_key (callerNew : Nat → StackTrace) (m : String)
    (attrs : List Attr) (c : Code) :
    Collect (New callerNew m attrs) = firstPerKey attrs
    ∧ Collect (WithCode (New callerNew m attrs) c) = firstPerKey attrs
    ∧ ((attrs.map Attr.Key).Nodup →
        Collect (New callerNew m attrs) = attrs
        ∧ Collect (WithCode (New callerNew m attrs) c) = attrs) := by
  have h1 : Collect (New callerNew m attrs) = firstPerKey attrs := by
    rw [Collect_eq]
    simp [New, newDefaultError, chainAttrs]
  have h2 : Collect (WithCode (New callerNew m attrs) c) = firstPerKey attrs := by
    rw [Collect_eq]
    simp [WithCode, New, newDefaultError, Error.isNil, chainAttrs]
  refine ⟨h1, h2, fun h => ?_⟩
  rw [h1, h2, firstPerKey_of_nodup attrs h]
  exact ⟨rfl, rfl⟩

/-- Witness of the amended C2 on the two attributes of `TestNew`. -/
theorem AttrsAll_New_first_per_key_witness :
    (List.map Attr.Key [⟨"key1", .int64 100⟩, ⟨"key2", .string "value2"⟩]).Nodup
    ∧ Collect (New testCaller "error message" [⟨"key1", .int64 100⟩, ⟨"key2", .string "value2"⟩])
        = [⟨"key1", .int64 100⟩, ⟨"key2", .string "value2"⟩]
    ∧ Collect (WithCode
          (New testCaller "error message" [⟨"key1", .int64 100⟩, ⟨"key2", .string "value2"⟩]) codeA)
        = [⟨"key1", .int64 100⟩, ⟨"key2", .string "value2"⟩] :=
  ⟨by decide,
    (AttrsAll_New_first_per_key testCaller "error message"
      [⟨"key1", .int64 100⟩, ⟨"key2", .string "value2"⟩] codeA).2.2 (by decide)⟩

/-! ## Plain message -/

theorem Wrap_eq_defaultError (callerNew : Nat → StackTrace) (p : Error) (m : String)
    (attrs : List Attr) :
    Wrap callerNew p m attrs
      = .defaultError p m attrs (if StackTraceOf p = none then callerNew 1 else none) := by
  unfold Wrap
  cases StackTraceOf p <;> rfl

theorem isNil_eraseAttrs (e : Error) : (eraseAttrs e).isNil = e.isNil := by
  cases e <;> rfl

theorem Error_eraseAttrs (e : Error) : (eraseAttrs e).Error = e.Error := by
  induction e with
  | nil => rfl
  | defaultError parent msg attrs st ih => simp only [eraseAttrs, Error.Error, ih, isNil_eraseAttrs]
  | codedError parent code ih => simp only [eraseAttrs, Error.Error, ih]
  | foreign parent msg format _ => rfl

theorem defaultError_Error_empty (p : Error) (attrs : List Attr) (st : StackTrace) :
    (Error.defaultError p "" attrs st).Error = p.Error := by
  simp [Error.Error]

theorem defaultError_Error_no_parent (m : String) (attrs : List Attr) (st : StackTrace)
    (hm : m ≠ "") : (Error.defaultError .nil m attrs st).Error = some m := by
  simp [Error.Error, hm, Error.isNil]

theorem defaultError_Error_parent (p : Error) (m : String) (attrs : List Attr) (st : StackTrace)
    (hm : m ≠ "") (hp : p ≠ .nil) :
    (Error.defaultError p m attrs st).Error = p.Error.map (fun x => m ++ ": " ++ x) := by
  have hn : p.isNil = false := by
    cases p <;> simp_all [Error.isNil]
  simp only [Error.Error, hm, beq_iff_eq, if_false, hn, Bool.not_false, if_true, Option.map_map]
  congr 1
  funext x
  simp [String.append_assoc]

theorem Format_not_verbose (s : State) (verb : Char) (p : Error) (m : String) (attrs : List Attr)
    (st : StackTrace) (h : ¬ (verb = 'v' ∧ s.Flag '+' = true)) :
    Format s verb (.defaultError p m attrs st) = (Error.defaultError p m attrs st).Error := by
  have hc : (verb == 'v' && s.Flag '+') = false := by
    by_cases hv : verb = 'v'
    · have : s.Flag '+' = false := by
        cases hf : s.Flag '+'
        · rfl
        · exact absurd ⟨hv, hf⟩ h
      simp [this]
    · simp [hv]
  rw [Format, hc]
  simp

/-- C3: the plain message of an error built by `New` or `Wrap` with message `m`
and parent `p`, which is what `Error()` returns and what `Format` writes for
every verb and flag combination other than the verb `v` with the plus flag, is
the plain message of `p` when `m` is empty and `p` exists, `m` when `m` is not
empty and `p` is absent, and `m`, a colon and a blank, then the plain message of
`p` when `m` is not empty and `p` exists.  The attributes of the error and of
the links under it play no part in it. -/
theorem plain_message (callerNew : Nat → StackTrace) (p : Error) (m : String)
    (attrs : List Attr) (s : State) (verb : Char) :
    (m ≠ "" → (New callerNew m attrs).Error = some m)
    ∧ (m = "" → p ≠ .nil → (Wrap callerNew p m attrs).Error = p.Error)
    ∧ (m ≠ "" → p = .nil → (Wrap callerNew p m attrs).Error = some m)
    ∧ (m ≠ "" → p ≠ .nil →
        (Wrap callerNew p m attrs).Error = p.Error.map (fun x => m ++ ": " ++ x))
    ∧ (¬ (verb = 'v' ∧ s.Flag '+' = true) →
        Format s verb (New callerNew m attrs) = (New callerNew m attrs).Error
        ∧ Format s verb (Wrap callerNew p m attrs) = (Wrap callerNew p m attrs).Error)
    ∧ (∀ attrs2, (New callerNew m attrs2).Error = (New callerNew m attrs).Error
        ∧ (Wrap callerNew p m attrs2).Error = (Wrap callerNew p m attrs).Error)
    ∧ (eraseAttrs (Wrap callerNew p m attrs)).Error = (Wrap callerNew p m attrs).Error := by
  refine ⟨?_, ?_, ?_, ?_, ?_, ?_, ?_⟩
  · intro hm
    exact defaultError_Error_no_parent m attrs _ hm
  · intro hm _
    rw [Wrap_eq_defaultError, hm]
    exact defaultError_Error_empty p attrs _
  · intro hm hp
    rw [Wrap_eq_defaultError, hp]
    exact defaultError_Error_no_parent m attrs _ hm
  · intro hm hp
    rw [Wrap_eq_defaultError]
    exact defaultError_Error_parent p m attrs _ hm hp
  · intro h
    refine ⟨Format_not_verbose s verb .nil m attrs _ h, ?_⟩
    rw [Wrap_eq_defaultError]
    exact Format_not_verbose s verb p m attrs _ h
  · intro attrs2
    constructor
    · rfl
    · rw [Wrap_eq_defaultError, Wrap_eq_defaultError]
      rfl
  · exact Error_eraseAttrs _

/-- Witness of C3 on the cases of `TestWrap`: an empty message over a parent, a
message without parent, a message over a parent, and the verb `v` without flag. -/
theorem plain_message_witness :
    (New testCaller "error message" parentAttrs).Error = some "error message"
    ∧ (Wrap testCaller testParent "" parentAttrs).Error = some "error"
    ∧ (Wrap testCaller .nil "wrap" []).Error = some "wrap"
    ∧ (Wrap testCaller testParent "wrap" [⟨"key2", .string "value2"⟩]).Error
        = some "wrap: error"
    ∧ Format plainState 'v' (Wrap testCaller testParent "wrap" [⟨"key2", .string "value2"⟩])
        = some "wrap: error" :=
  ⟨(plain_message testCaller .nil "error message" parentAttrs plainState 'v').1 (by decide),
   ((plain_message testCaller testParent "" parentAttrs plainState 'v').2.1 rfl
      (by decide)).trans (by decide),
   (plain_message testCaller .nil "wrap" [] plainState 'v').2.2.1 (by decide) rfl,
   ((plain_message testCaller testParent "wrap" [⟨"key2", .string "value2"⟩] plainState
      'v').2.2.2.1 (by decide) (by decide)).trans (by decide),
   ((plain_message testCaller testParent "wrap" [⟨"key2", .string "value2"⟩] plainState
      'v').2.2.2.2.1 (by decide)).2.trans (by decide)⟩

/-- C4: `Wrap(nil, msg, attrs)` is a non-nil error without parent for every
message, and `Error()` returns the message when it is not empty; on the empty
message `Error()` calls the method of the nil parent and panics, whereas the
verbose branch of `Format` tests the parent and writes the empty text. -/
theorem Wrap_nil_empty_message_panics (callerNew : Nat → StackTrace) (attrs : List Attr) :
    Wrap callerNew .nil "" attrs ≠ .nil
    ∧ Unwrap (Wrap callerNew .nil "" attrs) = .nil
    ∧ (Wrap callerNew .nil "" attrs).Error = none
    ∧ (Wrap callerNew .nil "wrap" attrs).Error = some "wrap"
    ∧ Format plusState 'v' (Wrap callerNew .nil "" []) = some "" := by
  have hw : ∀ msg as, Wrap callerNew .nil msg as = .defaultError .nil msg as (callerNew 1) :=
    fun _ _ => rfl
  refine ⟨?_, ?_, ?_, ?_, ?_⟩
  · rw [hw]
    exact fun h => Error.noConfusion h
  · rfl
  · rfl
  · rw [hw]
    exact defaultError_Error_no_parent "wrap" attrs _ (by decide)
  · rfl

/-! ## Verbose rendering -/

/-- C5: with the plus flag and the verb `v`, `Format` on a default error with
message `m`, attributes `attrs` and parent `p` writes the base text (`m` when
there are no attributes, else `m`, a colon and a blank, and the attributes as
`key=value` joined by commas in the supplied order, or the attributes alone when
`m` is empty), then, when `p` exists, a colon and a blank and the verbose
rendering of `p` if `p` has a `Format` method, its plain message if not, the
separator left out when `m` and the attributes are both empty. -/
theorem verbose_rendering (s : State) (p : Error) (m : String) (attrs : List Attr)
    (st : StackTrace) (h : s.Flag '+' = true) :
    Format s 'v' (.defaultError p m attrs st) = verboseSpec s p m attrs := by
  have hc : (('v' : Char) == 'v' && s.Flag '+') = true := by simp [h]
  rw [Format, hc]
  simp only [if_true, verboseSpec, parentVerbose]
  by_cases hp : p = .nil
  · subst hp
    cases attrs with
    | nil => simp [Error.isNil]
    | cons a rest =>
      by_cases hm : m = "" <;> simp [Error.isNil, hm]
  · have hn : p.isNil = false := by
      cases p <;> simp_all [Error.isNil]
    cases attrs with
    | nil =>
      by_cases hm : m = ""
      · subst hm
        by_cases hf : hasFormat p = true <;> simp [hn, hp, hf]
      · by_cases hf : hasFormat p = true <;> simp [hn, hp, hf, hm]
    | cons a rest =>
      by_cases hm : m = ""
      · subst hm
        by_cases hf : hasFormat p = true <;> simp [hn, hp, hf]
      · by_cases hf : hasFormat p = true <;> simp [hn, hp, hf, hm]

/-- Witness of C5 on the "two attr" case of `TestWrap`. -/
theorem verbose_rendering_witness :
    plusState.Flag '+' = true
    ∧ Format plusState 'v' (.defaultError testParent "wrap"
        [⟨"key2", .string "value2"⟩, ⟨"key3", .bool true⟩] none)
      = some "wrap: key2=value2,key3=true: error: key1=100" :=
  ⟨by decide,
    (verbose_rendering plusState testParent "wrap"
      [⟨"key2", .string "value2"⟩, ⟨"key3", .bool true⟩] none (by decide)).trans (by decide)⟩

/-! ## Codes -/

theorem asCodedError_links (err : Error) :
    (asCodedError err).map Prod.snd = (links err).findSome? storedCode := by
  induction err with
  | nil => rfl
  | defaultError parent msg attrs st ih => simpa [asCodedError, links, storedCode] using ih
  | codedError parent code _ => simp [asCodedError, links, storedCode]
  | foreign parent msg format ih => simpa [asCodedError, links, storedCode] using ih

theorem CodeOf_links (err : Error) :
    CodeOf err = ((links err).findSome? storedCode).getD Code.zero := by
  rw [← asCodedError_links, CodeOf]
  cases asCodedError err <;> rfl

theorem WithCode_of_ne_nil (err : Error) (c : Code) (h : err ≠ .nil) :
    WithCode err c = .codedError err c := by
  cases err <;> simp_all [WithCode, Error.isNil]

/-- C6: `CodeOf(err)` is the code of the first coded-error wrapper among the
links from `err` toward its parents and the zero code when there is none; so
`CodeOf(WithCode(e, c))` is `c` for every non-nil `e`, whatever code `e`
carries, and so is `CodeOf(Wrap(WithCode(e, c), m, attrs))`. -/
theorem CodeOf_first_coded (err e : Error) (c : Code) (callerNew : Nat → StackTrace)
    (m : String) (attrs : List Attr) :
    CodeOf err = ((links err).findSome? storedCode).getD Code.zero
    ∧ ((∀ l ∈ links err, storedCode l = none) → CodeOf err = Code.zero)
    ∧ (e ≠ .nil → CodeOf (WithCode e c) = c)
    ∧ (e ≠ .nil → CodeOf (Wrap callerNew (WithCode e c) m attrs) = c) := by
  refine ⟨CodeOf_links err, ?_, ?_, ?_⟩
  · intro h
    rw [CodeOf_links, List.findSome?_eq_none_iff.mpr h]
    rfl
  · intro he
    rw [WithCode_of_ne_nil e c he]
    rfl
  · intro he
    rw [WithCode_of_ne_nil e c he, Wrap_eq_defaultError]
    rfl

/-- Witness of C6: a chain without code, a code put on an error that already
carries another one, and a wrap over a coded error. -/
theorem CodeOf_first_coded_witness :
    CodeOf testParent = Code.zero
    ∧ CodeOf (WithCode (WithCode testParent ⟨"", "B", "other"⟩) codeA) = codeA
    ∧ CodeOf (Wrap testCaller (WithCode testParent codeA) "wrap" []) = codeA :=
  ⟨(CodeOf_first_coded testParent .nil codeA testCaller "" []).2.1 (by decide),
   (CodeOf_first_coded .nil (WithCode testParent ⟨"", "B", "other"⟩) codeA testCaller ""
      []).2.2.1 (by decide),
   (CodeOf_first_coded .nil testParent codeA testCaller "wrap" []).2.2.2 (by decide)⟩

/-- C7: `WithCode(err, c)` is nil exactly when `err` is nil; on a non-nil `err`
it is the coded-error wrapper with parent `err` and code `c`. -/
theorem WithCode_nil_iff (err : Error) (c : Code) :
    (WithCode err c = .nil ↔ err = .nil)
    ∧ (err ≠ .nil →
        WithCode err c = .codedError err c
        ∧ Unwrap (WithCode err c) = err
        ∧ storedCode (WithCode err c) = some c) := by
  constructor
  · cases err <;> simp [WithCode, Error.isNil]
  · intro h
    rw [WithCode_of_ne_nil err c h]
    exact ⟨rfl, rfl, rfl⟩

/-- Witness of C7 on the "parent not nil" case of `TestWithCode`. -/
theorem WithCode_nil_iff_witness :
    testParent ≠ .nil
    ∧ WithCode testParent codeA = .codedError testParent codeA
    ∧ Unwrap (WithCode testParent codeA) = testParent
    ∧ storedCode (WithCode testParent codeA) = some codeA :=
  ⟨by decide, (WithCode_nil_iff testParent codeA).2 (by decide)⟩

/-! ## Stack traces -/

theorem StackTraceOf_links (err : Error) :
    StackTraceOf err = (links err).findSome? storedTrace := by
  induction err with
  | nil => rfl
  | defaultError parent msg attrs st ih =>
    cases st with
    | none => simpa [StackTraceOf, links, storedTrace] using ih
    | some t => simp [StackTraceOf, links, storedTrace]
  | codedError parent code ih => simpa [StackTraceOf, links, storedTrace] using ih
  | foreign parent msg format ih => simpa [StackTraceOf, links, storedTrace] using ih

theorem storedTrace_of_not_library (l : Error) (h : isLibrary l = false) :
    storedTrace l = none := by
  cases l <;> simp_all [isLibrary, storedTrace]

/-- C8: `StackTraceOf(err)` is the first non-nil stack trace stored in a link,
going from `err` toward its parents; it is nil exactly when no link stores a
trace, which is the case when no link of the chain is a library error. -/
theorem StackTraceOf_first_stored (err : Error) :
    StackTraceOf err = (links err).findSome? storedTrace
    ∧ (StackTraceOf err = none ↔ ∀ l ∈ links err, storedTrace l = none)
    ∧ ((∀ l ∈ links err, isLibrary l = false) → StackTraceOf err = none) := by
  refine ⟨StackTraceOf_links err, ?_, ?_⟩
  · rw [StackTraceOf_links]
    exact List.findSome?_eq_none_iff
  · intro h
    rw [StackTraceOf_links]
    exact List.findSome?_eq_none_iff.mpr (fun l hl => storedTrace_of_not_library l (h l hl))

/-- Witness of C8 on the "no stacktrace" case of `TestStackTraceOf`, a foreign
error wrapping another one. -/
theorem StackTraceOf_first_stored_witness :
    StackTraceOf (.foreign (NewSentinel "error") "outer" none) = none :=
  (StackTraceOf_first_stored (.foreign (NewSentinel "error") "outer" none)).2.2 (by decide)

/-- C9: `Wrap(p, msg, attrs)` stores the trace captured at the call when
`StackTraceOf(p)` is nil and stores none otherwise; so `StackTraceOf` of the
result is `StackTraceOf(p)` when that is not nil and the captured trace when it
is, and it is never nil when the capture is not nil. -/
theorem Wrap_trace (callerNew : Nat → StackTrace) (p : Error) (msg : String)
    (attrs : List Attr) :
    (StackTraceOf p = none → storedTrace (Wrap callerNew p msg attrs) = callerNew 1)
    ∧ (StackTraceOf p ≠ none → storedTrace (Wrap callerNew p msg attrs) = none)
    ∧ (StackTraceOf p ≠ none → StackTraceOf (Wrap callerNew p msg attrs) = StackTraceOf p)
    ∧ (StackTraceOf p = none → StackTraceOf (Wrap callerNew p msg attrs) = callerNew 1)
    ∧ (callerNew 1 ≠ none → StackTraceOf (Wrap callerNew p msg attrs) ≠ none) := by
  rw [Wrap_eq_defaultError]
  refine ⟨?_, ?_, ?_, ?_, ?_⟩
  · intro h
    simp [storedTrace, h]
  · intro h
    simp [storedTrace, h]
  · intro h
    simp [StackTraceOf, h]
  · intro h
    simp only [h, if_true, StackTraceOf]
    cases callerNew 1 <;> simp [h]
  · intro hc
    by_cases h : StackTraceOf p = none
    · simp only [h, if_true, StackTraceOf]
      cases hcn : callerNew 1 with
      | none => exact absurd hcn hc
      | some t => simp
    · simp [StackTraceOf, h]

/-- Witness of C9 on `TestStackTraceOf`: a wrap of nil keeps its own capture, a
wrap of a new error keeps the trace of that error. -/
theorem Wrap_trace_witness :
    StackTraceOf (Wrap testCaller .nil "wrap" []) = testCaller 1
    ∧ storedTrace (Wrap testCaller testParent "wrap" []) = none
    ∧ StackTraceOf (Wrap testCaller testParent "wrap" []) = StackTraceOf testParent
    ∧ storedTrace (Wrap testCaller (NewSentinel "error") "wrap" []) = testCaller 1
    ∧ StackTraceOf (Wrap testCaller testParent "wrap" []) ≠ none :=
  ⟨(Wrap_trace testCaller .nil "wrap" []).2.2.2.1 (by decide),
   (Wrap_trace testCaller testParent "wrap" []).2.1 (by decide),
   (Wrap_trace testCaller testParent "wrap" []).2.2.1 (by decide),
   (Wrap_trace testCaller (NewSentinel "error") "wrap" []).1 (by decide),
   (Wrap_trace testCaller testParent "wrap" []).2.2.2.2 (by decide)⟩

/-! ## Unwrap -/

/-- C10: `Unwrap(New(m, attrs))` is nil, `Unwrap(Wrap(p, m, attrs))` is `p`, also
for a nil `p`, and `Unwrap(WithCode(p, c))` is `p` for a non-nil `p`. -/
theorem Unwrap_parent (callerNew : Nat → StackTrace) (p : Error) (m : String)
    (attrs : List Attr) (c : Code) :
    Unwrap (New callerNew m attrs) = .nil
    ∧ Unwrap (Wrap callerNew p m attrs) = p
    ∧ Unwrap (Wrap callerNew .nil m attrs) = .nil
    ∧ (p ≠ .nil → Unwrap (WithCode p c) = p) := by
  refine ⟨rfl, ?_, rfl, ?_⟩
  · rw [Wrap_eq_defaultError]
    rfl
  · intro h
    rw [WithCode_of_ne_nil p c h]
    rfl

/-- Witness of C10 on the parent of `TestWithCode`. -/
theorem Unwrap_parent_witness :
    testParent ≠ .nil ∧ Unwrap (WithCode testParent codeA) = testParent :=
  ⟨by decide, (Unwrap_parent testCaller testParent "" [] codeA).2.2.2 (by decide)⟩

/-! ## Early termination -/

theorem feed_append {σ : Type} (yield : σ → Attr → σ × Bool) (xs ys : List Attr) (s : σ) :
    feed yield (xs ++ ys) s
      = if (feed yield xs s).2 then feed yield ys (feed yield xs s).1 else feed yield xs s := by
  induction xs generalizing s with
  | nil => simp [feed]
  | cons a xs ih =>
    by_cases h : (yield s a).2 = true
    · rw [List.cons_append, feed, feed, if_pos h, if_pos h]
      exact ih _
    · simp [feed, h]

/-- Run of the first loop with any consumer: the consumer sees the attributes
whose key comes first and is not in the done map, until it stops; when it
does not stop the done map gains the keys of the list. -/
theorem rangeAttrs_feed {σ : Type} (yield : σ → Attr → σ × Bool) (attrs : List Attr)
    (done : Done) (s : σ) :
    (rangeAttrs yield attrs done s).2
        = feed yield ((firstPerKey attrs).filter (fun b => decide (b.Key ∉ done))) s
    ∧ ((rangeAttrs yield attrs done s).2.2 = true →
        ∀ k, k ∈ (rangeAttrs yield attrs done s).1 ↔ k ∈ done ∨ k ∈ attrs.map Attr.Key) := by
  induction attrs generalizing done s with
  | nil => simp [rangeAttrs, firstPerKey, feed]
  | cons a rest ih =>
    by_cases h : a.Key ∈ done
    · obtain ⟨h2, h3⟩ := ih done s
      simp only [rangeAttrs, h, if_true]
      constructor
      · rw [h2, firstPerKey, List.filter_cons]
        simp only [h, not_true_eq_false, decide_False, Bool.false_eq_true, if_false]
        rw [firstPerKey_filter_done a done _ h]
      · intro hok k
        rw [h3 hok k]
        simp only [List.map_cons, List.mem_cons]
        constructor
        · rintro (hk | hk)
          · exact Or.inl hk
          · exact Or.inr (Or.inr hk)
        · rintro (hk | hk | hk)
          · exact Or.inl hk
          · exact Or.inl (hk ▸ h)
          · exact Or.inr hk
    · obtain ⟨h2, h3⟩ := ih (a.Key :: done) (yield s a).1
      have hf : (firstPerKey (a :: rest)).filter (fun b => decide (b.Key ∉ done))
          = a :: (firstPerKey rest).filter (fun b => decide (b.Key ∉ a.Key :: done)) := by
        rw [firstPerKey, List.filter_cons]
        simp only [h, not_false_eq_true, decide_True, if_true]
        rw [firstPerKey_filter_cons a done _]
      rw [hf]
      by_cases hy : (yield s a).2 = true
      · simp only [rangeAttrs, h, if_false, hy, Bool.not_true, Bool.false_eq_true, feed, if_true]
        refine ⟨h2, fun hok k => ?_⟩
        rw [h3 hok k]
        simp only [List.map_cons, List.mem_cons]
        tauto
      · simp [rangeAttrs, h, hy, feed]

/-- Run of the sequence body with any consumer: the consumer is fed the
first-per-key attributes of the chain whose keys are not in the done map, up
to and including the first one on which it returns false. -/
theorem attrsAll_feed {σ : Type} (yield : σ → Attr → σ × Bool) (err : Error) (done : Done)
    (s : σ) :
    (attrsAll yield err done s).2
        = feed yield ((firstPerKey (chainAttrs err)).filter (fun b => decide (b.Key ∉ done))) s
    ∧ ((attrsAll yield err done s).2.2 = true →
        ∀ k, k ∈ (attrsAll yield err done s).1
          ↔ k ∈ done ∨ k ∈ (chainAttrs err).map Attr.Key) := by
  induction err generalizing done s with
  | nil => simp [attrsAll, chainAttrs, firstPerKey, feed]
  | codedError parent code ih => simpa [attrsAll, chainAttrs] using ih done s
  | foreign parent msg format ih => simpa [attrsAll, chainAttrs] using ih done s
  | defaultError parent msg attrs st ih =>
    obtain ⟨r2, r3⟩ := rangeAttrs_feed yield attrs done s
    obtain ⟨h2, h3⟩ := ih (rangeAttrs yield attrs done s).1 (rangeAttrs yield attrs done s).2.1
    by_cases hok : (rangeAttrs yield attrs done s).2.2 = true
    · have hfeed : (feed yield ((firstPerKey attrs).filter (fun b => decide (b.Key ∉ done))) s).2
          = true := by rw [← r2]; exact hok
      have hst : (feed yield ((firstPerKey attrs).filter (fun b => decide (b.Key ∉ done))) s).1
          = (rangeAttrs yield attrs done s).2.1 := by rw [← r2]
      simp only [attrsAll, hok, Bool.not_true, Bool.false_eq_true, if_false, chainAttrs]
      constructor
      · rw [h2, firstPerKey_append, List.filter_append, feed_append, hfeed, if_pos rfl, hst]
        congr 1
        rw [List.filter_filter]
        apply List.filter_congr
        intro b _
        have := r3 hok b.Key
        by_cases hd : b.Key ∈ done <;> by_cases hx : b.Key ∈ attrs.map Attr.Key <;>
          simp [hd, hx, this]
      · intro hok2 k
        rw [h3 hok2 k, r3 hok k]
        simp only [List.map_append, List.mem_append]
        tauto
    · have hfalse : (rangeAttrs yield attrs done s).2.2 = false := by
        simpa using hok
      have hfeed : (feed yield ((firstPerKey attrs).filter (fun b => decide (b.Key ∉ done))) s).2
          = false := by rw [← r2]; exact hfalse
      simp only [attrsAll, hfalse, Bool.not_false, if_true, chainAttrs]
      constructor
      · rw [firstPerKey_append, List.filter_append, feed_append, hfeed]
        simpa using r2
      · intro h
        exact absurd h (by simp)

theorem AttrsAll_feed {σ : Type} (yield : σ → Attr → σ × Bool) (err : Error) (s : σ) :
    (AttrsAll err yield s).2 = feed yield (Collect err) s := by
  have h := (attrsAll_feed yield err [] s).1
  rw [Collect_eq]
  simpa [AttrsAll] using h

theorem feed_recordYield {σ : Type} (yield : σ → Attr → σ × Bool) (l : List Attr)
    (log : List (Attr × Bool)) (s : σ) :
    feed (recordYield yield) l (log, s)
      = ((log ++ feedCalls yield l s, (feed yield l s).1), (feed yield l s).2) := by
  induction l generalizing log s with
  | nil => simp [feed, feedCalls]
  | cons a rest ih =>
    by_cases h : (yield s a).2 = true
    · simp [feed, feedCalls, recordYield, h, ih]
    · have hf : (yield s a).2 = false := by simpa using h
      simp [feed, feedCalls, recordYield, hf]

theorem feedCalls_fst {σ : Type} (yield : σ → Attr → σ × Bool) (l : List Attr) (s : σ) :
    (feedCalls yield l s).map Prod.fst = stopPrefix yield l s := by
  induction l generalizing s with
  | nil => rfl
  | cons a rest ih =>
    by_cases h : (yield s a).2 = true <;> simp [feedCalls, stopPrefix, h, ih]

theorem feedCalls_dropLast {σ : Type} (yield : σ → Attr → σ × Bool) (l : List Attr) (s : σ) :
    ∀ e ∈ (feedCalls yield l s).dropLast, e.2 = true := by
  induction l generalizing s with
  | nil => simp [feedCalls]
  | cons a rest ih =>
    by_cases h : (yield s a).2 = true
    · intro e he
      simp only [feedCalls, h, if_true] at he
      cases hc : feedCalls yield rest (yield s a).1 with
      | nil => simp [hc] at he
      | cons c cs =>
        rw [hc, List.dropLast_cons₂] at he
        rcases List.mem_cons.mp he with he | he
        · rw [he]
        · exact ih (yield s a).1 e (hc ▸ he)
    · simp [feedCalls, h]

theorem stopPrefix_prefix {σ : Type} (yield : σ → Attr → σ × Bool) (l : List Attr) (s : σ) :
    stopPrefix yield l s <+: l := by
  induction l generalizing s with
  | nil => simp [stopPrefix]
  | cons a rest ih =>
    by_cases h : (yield s a).2 = true
    · simp only [stopPrefix, h, if_true]
      exact (List.prefix_cons_inj a).mpr (ih _)
    · simp only [stopPrefix, h, if_false]
      exact ⟨rest, rfl⟩

theorem yieldCalls_eq {σ : Type} (err : Error) (yield : σ → Attr → σ × Bool) (s : σ) :
    yieldCalls err yield s = feedCalls yield (Collect err) s := by
  have h := AttrsAll_feed (recordYield yield) err ([], s)
  rw [feed_recordYield] at h
  have h1 := congrArg (fun r => r.1.1) h
  simpa [yieldCalls] using h1

/-- C11: in one pass over `AttrsAll(err)` with any consumer, every call of
`yield` but the last returned true, so no call follows a call that returned
false, at whatever link of the chain it happened; the attributes passed to
`yield` are the prefix of the full sequence up to and including the one on
which the consumer stopped, and the consumer ends in the state of that run. -/
theorem AttrsAll_stops_at_first_false {σ : Type} (err : Error) (yield : σ → Attr → σ × Bool)
    (s : σ) :
    (∀ e ∈ (yieldCalls err yield s).dropLast, e.2 = true)
    ∧ (yieldCalls err yield s).map Prod.fst = stopPrefix yield (Collect err) s
    ∧ (yieldCalls err yield s).map Prod.fst <+: Collect err
    ∧ (AttrsAll err yield s).2 = feed yield (Collect err) s := by
  rw [yieldCalls_eq]
  refine ⟨feedCalls_dropLast yield _ s, feedCalls_fst yield _ s, ?_, AttrsAll_feed yield err s⟩
  rw [feedCalls_fst]
  exact stopPrefix_prefix yield _ s

/-- The loop `for range AttrsAll(err) { break }` of `TestWrap` on a child with
two attributes over a parent with one: `yield` is called once. -/
theorem AttrsAll_break_example :
    yieldCalls (Wrap testCaller testParent "wrap"
        [⟨"key2", .string "value2"⟩, ⟨"key3", .bool true⟩]) breakYield 0
      = [(⟨"key2", .string "value2"⟩, false)] := by
  decide

/-! ## Foreign links and empty lookups -/

/-- C12 as stated fails: a foreign error whose `Unwrap` returns the parent of
`TestWrap` sits above a library error, and the attribute of that parent is
yielded. -/
theorem AttrsAll_through_foreign_counterexample :
    isLibrary (.foreign testParent "outer" none) = false
    ∧ isLibrary testParent = true
    ∧ Collect (.foreign testParent "outer" none) = [⟨"key1", .int64 100⟩] := by
  decide

theorem attrsAll_of_no_default {σ : Type} (yield : σ → Attr → σ × Bool) (err : Error)
    (done : Done) (s : σ) (h : asDefaultError err = none) :
    attrsAll yield err done s = (done, s, true) := by
  rw [attrsAll_unfold, h]

/-- C12, amended: `AttrsAll` stops where `errors.As` finds no default error by
following `Unwrap` from the current link.  A foreign error is passed through
like a coded-error wrapper: its pass is the pass of the error its `Unwrap`
returns, and it collects the same attributes.  Nothing is yielded when no
default error can be reached, as under a foreign error without parent. -/
theorem AttrsAll_foreign_transparent {σ : Type} (yield : σ → Attr → σ × Bool) (s : σ)
    (err p : Error) (msg : String) (format : Option String) :
    AttrsAll (.foreign p msg format) yield s = AttrsAll p yield s
    ∧ Collect (.foreign p msg format) = Collect p
    ∧ (asDefaultError err = none → AttrsAll err yield s = ([], s, true) ∧ Collect err = []) := by
  refine ⟨rfl, rfl, fun h => ?_⟩
  constructor
  · exact attrsAll_of_no_default yield err [] s h
  · simp [Collect, AttrsAll, attrsAll_of_no_default collectYield err [] [] h]

/-- Witness of the amended C12: a foreign error over a coded error over a
sentinel reaches no default error. -/
theorem AttrsAll_foreign_transparent_witness :
    asDefaultError (.foreign (.codedError (NewSentinel "error") codeA) "outer" none) = none
    ∧ AttrsAll (.foreign (.codedError (NewSentinel "error") codeA) "outer" none) breakYield 0
        = ([], 0, true)
    ∧ Collect (.foreign (.codedError (NewSentinel "error") codeA) "outer" none) = [] :=
  ⟨by decide,
    (AttrsAll_foreign_transparent breakYield 0
      (.foreign (.codedError (NewSentinel "error") codeA) "outer" none) .nil "" none).2.2
      (by decide)⟩

/-- C13: on nil and on a foreign error without parent the lookups return the
empty results: `AttrsAll` never calls `yield` and collects nothing, `CodeOf`
returns a code for which `IsZero` holds, `StackTraceOf` returns nil. -/
theorem lookups_on_nil_or_foreign {σ : Type} (yield : σ → Attr → σ × Bool) (s : σ)
    (msg : String) (format : Option String) :
    (AttrsAll .nil yield s = ([], s, true)
      ∧ Collect .nil = []
      ∧ (CodeOf .nil).IsZero = true
      ∧ StackTraceOf .nil = none)
    ∧ (AttrsAll (.foreign .nil msg format) yield s = ([], s, true)
      ∧ Collect (.foreign .nil msg format) = []
      ∧ (CodeOf (.foreign .nil msg format)).IsZero = true
      ∧ StackTraceOf (.foreign .nil msg format) = none) := by
  refine ⟨⟨rfl, rfl, ?_, rfl⟩, ⟨rfl, rfl, ?_, rfl⟩⟩ <;>
    simp [CodeOf, asCodedError, Code.IsZero]

/-! ## Code text and sentinels -/

/-- C14: `String()` of a code is the package path, a dot, the key, a colon and
a blank, and the message when the package path is not empty, and the key, a
colon and a blank, and the message when it is empty; so for every capture
`NewCode(k, m)` has key `k`, message `m`, and a text that ends with `k`, a colon
and a blank, and `m`. -/
theorem Code_String_format (code : Code) (callerNew : Nat → StackTrace) (k m : String) :
    (code.pkgpath ≠ "" →
        code.String = code.pkgpath ++ "." ++ code.key ++ ": " ++ code.message)
    ∧ (code.pkgpath = "" → code.String = code.key ++ ": " ++ code.message)
    ∧ (NewCode callerNew k m).Key = k
    ∧ (NewCode callerNew k m).Message = m
    ∧ ∃ pre, (NewCode callerNew k m).String = pre ++ (k ++ ": " ++ m) := by
  have hkey : ∀ c : Code, ∃ pre, c.String = pre ++ (c.key ++ ": " ++ c.message) := by
    intro c
    by_cases h : c.pkgpath = ""
    · exact ⟨"", by simp [Code.String, h]⟩
    · exact ⟨c.pkgpath ++ ".", by simp [Code.String, h, String.append_assoc]⟩
  have hk : (NewCode callerNew k m).key = k := by
    unfold NewCode; split <;> rfl
  have hm : (NewCode callerNew k m).message = m := by
    unfold NewCode; split <;> rfl
  refine ⟨?_, ?_, hk, hm, ?_⟩
  · intro h
    simp [Code.String, h]
  · intro h
    simp [Code.String, h]
  · obtain ⟨pre, hpre⟩ := hkey (NewCode callerNew k m)
    rw [hk, hm] at hpre
    exact ⟨pre, hpre⟩

/-- Witness of C14 on `codeA` and on a code without package path. -/
theorem Code_String_format_witness :
    codeA.String = "github.com/newmo-oss/ergo_test.A: code A message"
    ∧ (Code.mk "" "X" "msg").String = "X: msg" :=
  ⟨((Code_String_format codeA testCaller "X" "msg").1 (by decide)).trans (by decide),
   ((Code_String_format (Code.mk "" "X" "msg") testCaller "X" "msg").2.1 rfl).trans (by decide)⟩

/-- C15: for a non-nil `p` the plain message of `WithCode(p, c)` is the text
of `c`, a colon and a blank, and the plain message of `p`. -/
theorem WithCode_plain_message (p : Error) (c : Code) :
    p ≠ .nil → (WithCode p c).Error = p.Error.map (fun x => c.String ++ ": " ++ x) := by
  intro h
  rw [WithCode_of_ne_nil p c h]
  rfl

/-- Witness of C15 on the "parent not nil" case of `TestWithCode`. -/
theorem WithCode_plain_message_witness :
    testParent ≠ .nil
    ∧ (WithCode testParent codeA).Error
      = some "github.com/newmo-oss/ergo_test.A: code A message: error" :=
  ⟨by decide, (WithCode_plain_message testParent codeA (by decide)).trans (by decide)⟩

/-- C16: `NewSentinel(msg)` is a bare error: `Error()` is `msg`, `AttrsAll`
never calls `yield` and collects nothing, no link stores a trace or attributes,
`StackTraceOf` is nil, `CodeOf` is the zero code and `Unwrap` is nil. -/
theorem NewSentinel_bare {σ : Type} (msg : String) (yield : σ → Attr → σ × Bool) (s : σ) :
    (NewSentinel msg).Error = some msg
    ∧ AttrsAll (NewSentinel msg) yield s = ([], s, true)
    ∧ Collect (NewSentinel msg) = []
    ∧ chainAttrs (NewSentinel msg) = []
    ∧ storedTrace (NewSentinel msg) = none
    ∧ StackTraceOf (NewSentinel msg) = none
    ∧ CodeOf (NewSentinel msg) = Code.zero
    ∧ Unwrap (NewSentinel msg) = .nil :=
  ⟨rfl, rfl, rfl, rfl, rfl, rfl, rfl, rfl⟩

/-! ## Passes over one sequence value -/

theorem stopPrefix_of_feed_true {σ : Type} (yield : σ → Attr → σ × Bool) (l : List Attr) (s : σ)
    (h : (feed yield l s).2 = true) : stopPrefix yield l s = l := by
  induction l generalizing s with
  | nil => rfl
  | cons a rest ih =>
    by_cases hy : (yield s a).2 = true
    · simp only [feed, hy, if_true] at h
      simp only [stopPrefix, hy, if_true, ih _ h]
    · simp [feed, hy] at h

theorem stopPrefix_append {σ : Type} (yield : σ → Attr → σ × Bool) (xs ys : List Attr) (s : σ) :
    stopPrefix yield (xs ++ ys) s
      = if (feed yield xs s).2 then xs ++ stopPrefix yield ys (feed yield xs s).1
        else stopPrefix yield xs s := by
  induction xs generalizing s with
  | nil => simp [feed, stopPrefix]
  | cons a xs ih =>
    by_cases hy : (yield s a).2 = true
    · rw [List.cons_append, stopPrefix, stopPrefix, feed, if_pos hy, if_pos hy, if_pos hy, ih]
      split <;> rfl
    · simp [feed, stopPrefix, hy]

/-- Content of the done map after the first loop: the keys of the attributes
passed to `yield`, the last one first, in front of the former content. -/
theorem rangeAttrs_done_eq {σ : Type} (yield : σ → Attr → σ × Bool) (attrs : List Attr)
    (done : Done) (s : σ) :
    (rangeAttrs yield attrs done s).1
      = ((stopPrefix yield ((firstPerKey attrs).filter (fun b => decide (b.Key ∉ done))) s).map
          Attr.Key).reverse ++ done := by
  induction attrs generalizing done s with
  | nil => simp [rangeAttrs, firstPerKey, stopPrefix]
  | cons a rest ih =>
    by_cases h : a.Key ∈ done
    · have hf : (firstPerKey (a :: rest)).filter (fun b => decide (b.Key ∉ done))
          = (firstPerKey rest).filter (fun b => decide (b.Key ∉ done)) := by
        rw [firstPerKey, List.filter_cons]
        simp only [h, not_true_eq_false, decide_False, Bool.false_eq_true, if_false]
        rw [firstPerKey_filter_done a done _ h]
      rw [hf, ← ih done s]
      simp only [rangeAttrs, h, if_true]
    · have hf : (firstPerKey (a :: rest)).filter (fun b => decide (b.Key ∉ done))
          = a :: (firstPerKey rest).filter (fun b => decide (b.Key ∉ a.Key :: done)) := by
        rw [firstPerKey, List.filter_cons]
        simp only [h, not_false_eq_true, decide_True, if_true]
        rw [firstPerKey_filter_cons a done _]
      rw [hf]
      by_cases hy : (yield s a).2 = true
      · simp only [rangeAttrs, h, if_false, hy, Bool.not_true, Bool.false_eq_true, stopPrefix,
          if_true, ih (a.Key :: done) (yield s a).1, List.map_cons, List.reverse_cons,
          List.append_assoc, List.singleton_append]
      · simp [rangeAttrs, h, hy, stopPrefix]

/-- Content of the done map after a run of the sequence body: the keys of the
attributes passed to `yield`, the last one first, in front of the former
content. -/
theorem attrsAll_done_eq {σ : Type} (yield : σ → Attr → σ × Bool) (err : Error) (done : Done)
    (s : σ) :
    (attrsAll yield err done s).1
      = ((stopPrefix yield
          ((firstPerKey (chainAttrs err)).filter (fun b => decide (b.Key ∉ done))) s).map
          Attr.Key).reverse ++ done := by
  induction err generalizing done s with
  | nil => simp [attrsAll, chainAttrs, firstPerKey, stopPrefix]
  | codedError parent code ih => simpa [attrsAll, chainAttrs] using ih done s
  | foreign parent msg format ih => simpa [attrsAll, chainAttrs] using ih done s
  | defaultError parent msg attrs st ih =>
    obtain ⟨r2, r3⟩ := rangeAttrs_feed yield attrs done s
    have r1 := rangeAttrs_done_eq yield attrs done s
    rw [chainAttrs, firstPerKey_append, List.filter_append, stopPrefix_append]
    by_cases hok : (rangeAttrs yield attrs done s).2.2 = true
    · have hfeed : (feed yield ((firstPerKey attrs).filter (fun b => decide (b.Key ∉ done))) s).2
          = true := by rw [← r2]; exact hok
      have hst : (feed yield ((firstPerKey attrs).filter (fun b => decide (b.Key ∉ done))) s).1
          = (rangeAttrs yield attrs done s).2.1 := by rw [← r2]
      have hfil : (firstPerKey (chainAttrs parent)).filter
            (fun b => decide (b.Key ∉ (rangeAttrs yield attrs done s).1))
          = ((firstPerKey (chainAttrs parent)).filter
              (fun b => decide (b.Key ∉ attrs.map Attr.Key))).filter
              (fun b => decide (b.Key ∉ done)) := by
        rw [List.filter_filter]
        apply List.filter_congr
        intro b _
        have := r3 hok b.Key
        by_cases hd : b.Key ∈ done <;> by_cases hx : b.Key ∈ attrs.map Attr.Key <;>
          simp [hd, hx, this]
      simp only [attrsAll, hok, Bool.not_true, Bool.false_eq_true, if_false, hfeed, if_true]
      rw [ih, hfil, hst, r1, stopPrefix_of_feed_true yield _ s hfeed]
      simp [List.map_append, List.reverse_append, List.append_assoc]
    · have hfalse : (rangeAttrs yield attrs done s).2.2 = false := by
        simpa using hok
      have hfeed : (feed yield ((firstPerKey attrs).filter (fun b => decide (b.Key ∉ done))) s).2
          = false := by rw [← r2]; exact hfalse
      simp only [attrsAll, hfalse, Bool.not_false, if_true, hfeed, Bool.false_eq_true, if_false]
      exact r1

theorem filter_not_mem_prefix (l p : List Attr) (hn : (l.map Attr.Key).Nodup) (hp : p <+: l) :
    l.filter (fun a => decide (a.Key ∉ p.map Attr.Key)) = l.drop p.length := by
  obtain ⟨t, rfl⟩ := hp
  rw [List.drop_left, List.filter_append]
  rw [List.map_append] at hn
  have hdis := (List.nodup_append.mp hn).2.2
  have h1 : p.filter (fun a => decide (a.Key ∉ p.map Attr.Key)) = [] := by
    apply List.filter_eq_nil_iff.mpr
    intro a ha
    simp [List.mem_map_of_mem Attr.Key ha]
  have h2 : t.filter (fun a => decide (a.Key ∉ p.map Attr.Key)) = t := by
    apply List.filter_eq_self.mpr
    intro a ha
    have : a.Key ∉ p.map Attr.Key := fun hk => hdis hk (List.mem_map_of_mem Attr.Key ha)
    simpa using this
  rw [h1, h2, List.nil_append]

/-- The done map owned by the sequence of one `AttrsAll(err)` call holds, after
a first pass, the keys of the attributes passed to `yield`; so a further pass
over the same sequence is fed the rest of the collected sequence. -/
theorem attrsAll_after_pass {σ τ : Type} (err : Error) (yield1 : σ → Attr → σ × Bool) (s1 : σ)
    (yield2 : τ → Attr → τ × Bool) (s2 : τ) :
    (attrsAll yield2 err (AttrsAll err yield1 s1).1 s2).2
      = feed yield2 ((Collect err).drop (yieldCalls err yield1 s1).length) s2 := by
  have hdone : (AttrsAll err yield1 s1).1
      = ((stopPrefix yield1 (Collect err) s1).map Attr.Key).reverse := by
    have h := attrsAll_done_eq yield1 err [] s1
    rw [Collect_eq]
    simpa [AttrsAll] using h
  have hlen : (yieldCalls err yield1 s1).length = (stopPrefix yield1 (Collect err) s1).length := by
    rw [yieldCalls_eq, ← feedCalls_fst, List.length_map]
  rw [(attrsAll_feed yield2 err _ s2).1, hlen,
    ← filter_not_mem_prefix (Collect err) (stopPrefix yield1 (Collect err) s1)
      (by rw [Collect_eq]; exact firstPerKey_keys_nodup _) ( stopPrefix_prefix yield1 _ s1),
    hdone, ← Collect_eq]
  congr 1
  apply List.filter_congr
  intro b _
  simp

/-- C25: the sequence returned by one `AttrsAll(err)` call keeps one done map
through all its passes.  A further pass over it, started with the content the
first pass left, feeds its consumer the collected sequence without what the
first pass passed to `yield`: nothing after a first pass that was not stopped,
and after a partial first pass only attributes whose keys differ from every key
yielded before.  A pass over the sequence of a separate `AttrsAll(err)` call is
fed the whole collected sequence. -/
theorem AttrsAll_one_done_set {σ τ : Type} (err : Error) (yield1 : σ → Attr → σ × Bool) (s1 : σ)
    (yield2 : τ → Attr → τ × Bool) (s2 : τ) :
    ((AttrsAll err yield1 s1).2.2 = true →
        (attrsAll yield2 err (AttrsAll err yield1 s1).1 s2).2 = (s2, true))
    ∧ (attrsAll yield2 err (AttrsAll err yield1 s1).1 s2).2
        = feed yield2 ((Collect err).drop (yieldCalls err yield1 s1).length) s2
    ∧ (∀ a ∈ (Collect err).drop (yieldCalls err yield1 s1).length,
        ∀ e ∈ yieldCalls err yield1 s1, a.Key ≠ e.1.Key)
    ∧ (AttrsAll err yield2 s2).2 = feed yield2 (Collect err) s2 := by
  have hpass := attrsAll_after_pass err yield1 s1 yield2 s2
  have hlen : (yieldCalls err yield1 s1).length = (stopPrefix yield1 (Collect err) s1).length := by
    rw [yieldCalls_eq, ← feedCalls_fst, List.length_map]
  refine ⟨?_, hpass, ?_, AttrsAll_feed yield2 err s2⟩
  · intro hok
    have hfeed : (feed yield1 (Collect err) s1).2 = true := by
      rw [← AttrsAll_feed]; exact hok
    rw [hpass, hlen, stopPrefix_of_feed_true yield1 _ s1 hfeed, List.drop_length]
    rfl
  · intro a ha e he
    obtain ⟨t, ht⟩ := stopPrefix_prefix yield1 (Collect err) s1
    have hnodup : ((Collect err).map Attr.Key).Nodup := by
      rw [Collect_eq]; exact firstPerKey_keys_nodup _
    have hdrop := List.drop_left (stopPrefix yield1 (Collect err) s1) t
    rw [ht] at hdrop
    rw [hlen, hdrop] at ha
    have hmap := congrArg (List.map Attr.Key) ht
    rw [List.map_append] at hmap
    rw [← hmap] at hnodup
    have hdis := (List.nodup_append.mp hnodup).2.2
    have he1 : e.1 ∈ stopPrefix yield1 (Collect err) s1 := by
      rw [← feedCalls_fst, ← yieldCalls_eq]
      exact List.mem_map_of_mem Prod.fst he
    intro hk
    exact hdis (List.mem_map_of_mem Attr.Key he1) (hk ▸ List.mem_map_of_mem Attr.Key ha)

/-- Witness of C25 on a child with two attributes over the parent of `TestWrap`:
after a collecting first pass a second pass over the same sequence collects
nothing, and after a first pass stopped on `key2` it collects `key3` and `key1`. -/
theorem AttrsAll_one_done_set_witness :
    (attrsAll collectYield (Wrap testCaller testParent "wrap"
        [⟨"key2", .string "value2"⟩, ⟨"key3", .bool true⟩])
      (AttrsAll (Wrap testCaller testParent "wrap"
        [⟨"key2", .string "value2"⟩, ⟨"key3", .bool true⟩]) collectYield []).1 []).2 = ([], true)
    ∧ (attrsAll collectYield (Wrap testCaller testParent "wrap"
        [⟨"key2", .string "value2"⟩, ⟨"key3", .bool true⟩])
      (AttrsAll (Wrap testCaller testParent "wrap"
        [⟨"key2", .string "value2"⟩, ⟨"key3", .bool true⟩]) breakYield 0).1 []).2
      = ([⟨"key3", .bool true⟩, ⟨"key1", .int64 100⟩], true) :=
  ⟨(AttrsAll_one_done_set (Wrap testCaller testParent "wrap"
      [⟨"key2", .string "value2"⟩, ⟨"key3", .bool true⟩]) collectYield [] collectYield []).1
      (by decide),
   ((AttrsAll_one_done_set (Wrap testCaller testParent "wrap"
      [⟨"key2", .string "value2"⟩, ⟨"key3", .bool true⟩]) breakYield 0 collectYield []).2.1).trans
      (by decide)⟩

/-! ## Verbose rendering over a code -/

theorem Format_over_coded (s : State) (h : s.Flag '+' = true) (e : Error) (c : Code) (m : String)
    (attrs : List Attr) (st : StackTrace) :
    Format s 'v' (.defaultError (.codedError e c) m attrs st)
      = (Error.codedError e c).Error.map (fun p => verboseHead m attrs ++ p) := by
  have hc : (('v' : Char) == 'v' && s.Flag '+') = true := by simp [h]
  rw [Format, hc]
  simp only [if_true, Error.isNil, hasFormat, Bool.not_false, Bool.false_eq_true, if_false,
    verboseHead]
  by_cases ha : (attrs.length == 0) = true
  · simp only [ha, if_true]
  · simp only [ha, Bool.false_eq_true, if_false]

/-- C26: with the plus flag and the verb `v`, the rendering of
`Wrap(WithCode(e, c), m, attrs)` for a non-nil `e` is a text followed by the
plain message of `WithCode(e, c)`; it is the same when every attribute list of
`e` and of the links under it is emptied; and `WithCode(e, c)` has no `Format`
method, so its verbose rendering is its plain message. -/
theorem verbose_stops_at_code (s : State) (callerNew : Nat → StackTrace) (e : Error) (c : Code)
    (m : String) (attrs : List Attr) (h : s.Flag '+' = true) (he : e ≠ .nil) :
    Format s 'v' (Wrap callerNew (WithCode e c) m attrs)
        = (WithCode e c).Error.map (fun p => verboseHead m attrs ++ p)
    ∧ Format s 'v' (Wrap callerNew (WithCode e c) m attrs)
        = Format s 'v' (Wrap callerNew (WithCode (eraseAttrs e) c) m attrs)
    ∧ hasFormat (WithCode e c) = false
    ∧ parentVerbose s (WithCode e c) = (WithCode e c).Error := by
  have he2 : eraseAttrs e ≠ .nil := by
    cases e <;> simp_all [eraseAttrs]
  have herase : (Error.codedError (eraseAttrs e) c).Error = (Error.codedError e c).Error :=
    Error_eraseAttrs (.codedError e c)
  rw [WithCode_of_ne_nil e c he, WithCode_of_ne_nil _ c he2, Wrap_eq_defaultError,
    Wrap_eq_defaultError, Format_over_coded s h, Format_over_coded s h, herase]
  exact ⟨rfl, rfl, rfl, rfl⟩

/-- Witness of C26 on the parent of `TestWithCode`: the attribute `key1=100` of
the error under the code is not rendered. -/
theorem verbose_stops_at_code_witness :
    plusState.Flag '+' = true ∧ testParent ≠ .nil
    ∧ Format plusState 'v' (Wrap testCaller (WithCode testParent codeA) "wrap"
        [⟨"key2", .string "value2"⟩])
      = some "wrap: key2=value2: github.com/newmo-oss/ergo_test.A: code A message: error"
    ∧ parentVerbose plusState (WithCode testParent codeA)
      = some "github.com/newmo-oss/ergo_test.A: code A message: error" :=
  ⟨by decide, by decide,
   ((verbose_stops_at_code plusState testCaller testParent codeA "wrap"
      [⟨"key2", .string "value2"⟩] (by decide) (by decide)).1).trans (by decide),
   ((verbose_stops_at_code plusState testCaller testParent codeA "wrap"
      [⟨"key2", .string "value2"⟩] (by decide) (by decide)).2.2.2).trans (by decide)⟩

/-! ## One stored trace per chain -/

/-- In a built chain the traces stored in the links, from the head toward the
parents, are the trace returned by `StackTraceOf` and nothing else, and there is
one when a link is a default error. -/
theorem Built_traces (e : Error) (hb : Built e) :
    (links e).filterMap storedTrace = (StackTraceOf e).toList
    ∧ ((∃ l ∈ links e, isDefault l = true) → StackTraceOf e ≠ none) := by
  induction hb with
  | nil => exact ⟨rfl, fun ⟨l, hl, _⟩ => absurd hl (List.not_mem_nil l)⟩
  | new callerNew msg attrs hc =>
    cases hcn : callerNew 2 with
    | none => exact absurd hcn hc
    | some t =>
      simp [New, newDefaultError, links, storedTrace, StackTraceOf, hcn]
  | sentinel msg =>
    refine ⟨rfl, ?_⟩
    rintro ⟨l, hl, hd⟩
    simp only [NewSentinel, links, List.mem_singleton] at hl
    subst hl
    simp [isDefault] at hd
  | wrap callerNew parent msg attrs hc _ ih =>
    obtain ⟨ih1, _⟩ := ih
    rw [Wrap_eq_defaultError]
    cases hp : StackTraceOf parent with
    | none =>
      cases hcn : callerNew 1 with
      | none => exact absurd hcn hc
      | some t =>
        rw [hp] at ih1
        simp [links, storedTrace, StackTraceOf, hcn, ih1]
    | some t =>
      rw [hp] at ih1
      simp [links, storedTrace, StackTraceOf, hp, ih1]
  | withCode err code _ ih =>
    obtain ⟨ih1, ih2⟩ := ih
    by_cases he : err = .nil
    · subst he
      exact ⟨rfl, fun ⟨l, hl, _⟩ => absurd hl (List.not_mem_nil l)⟩
    · rw [WithCode_of_ne_nil err code he]
      constructor
      · simpa [links, storedTrace, StackTraceOf] using ih1
      · rintro ⟨l, hl, hd⟩
        simp only [links, List.mem_cons] at hl
        rcases hl with hl | hl
        · subst hl
          simp [isDefault] at hd
        · simpa [StackTraceOf] using ih2 ⟨l, hl, hd⟩

/-- C27: in a chain built with `New`, `Wrap`, `WithCode` and `NewSentinel`
only, every capture returning a non-nil trace, at most one link stores a non-nil
stack trace, exactly one does when a link is a default error, and a trace
stored in a link is what `StackTraceOf` returns on the head of the chain. -/
theorem Built_one_trace (e : Error) (hb : Built e) :
    ((links e).filterMap storedTrace).length ≤ 1
    ∧ ((∃ l ∈ links e, isDefault l = true) → ((links e).filterMap storedTrace).length = 1)
    ∧ (∀ l ∈ links e, ∀ t, storedTrace l = some t → StackTraceOf e = some t)
    ∧ (links e).filterMap storedTrace = (StackTraceOf e).toList := by
  obtain ⟨h1, h2⟩ := Built_traces e hb
  refine ⟨?_, ?_, ?_, h1⟩
  · rw [h1]
    cases StackTraceOf e <;> simp
  · intro hd
    rw [h1]
    cases hs : StackTraceOf e with
    | none => exact absurd hs (h2 hd)
    | some t => rfl
  · intro l hl t ht
    have hmem : t ∈ (links e).filterMap storedTrace := List.mem_filterMap.mpr ⟨l, hl, ht⟩
    rw [h1] at hmem
    cases hs : StackTraceOf e with
    | none => simp [hs] at hmem
    | some t2 =>
      simp only [hs, Option.toList_some, List.mem_singleton] at hmem
      rw [hmem]

/-- Witness of C27 on a wrap over a code over the parent of `TestWrap`: the only
stored trace is the one captured by `New`. -/
theorem Built_one_trace_witness :
    Built (Wrap testCaller (WithCode testParent codeA) "wrap" [])
    ∧ (links (Wrap testCaller (WithCode testParent codeA) "wrap" [])).filterMap storedTrace
      = [[⟨"ergo_test.go", 2, "ergo_test.TestWrap", "github.com/newmo-oss/ergo_test"⟩]]
    ∧ StackTraceOf (Wrap testCaller (WithCode testParent codeA) "wrap" []) = testCaller 2 :=
  have hb : Built (Wrap testCaller (WithCode testParent codeA) "wrap" []) :=
    Built.wrap testCaller _ "wrap" [] (by decide)
      (Built.withCode _ codeA (Built.new testCaller "error" parentAttrs (by decide)))
  ⟨hb, ((Built_one_trace _ hb).2.2.2).trans (by decide),
    (Built_one_trace _ hb).2.2.1 testParent (by decide) _ rfl⟩

end Ergo

namespace Ergocheck

/-! ## Backtrace -/

theorem rangePreds_true (rec : BlockId → List BlockId → Option (Bool × List BlockId))
    (drop : BlockId → Bool) (l done d1 : List BlockId)
    (h : rangePreds rec drop l done = some (true, d1)) :
    ∃ p ∈ l, drop p = false ∧ ∃ d0, rec p d0 = some (true, d1) := by
  induction l generalizing done with
  | nil => simp [rangePreds] at h
  | cons pre rest ih =>
    by_cases hd : drop pre = true
    · simp only [rangePreds, hd, Bool.not_true, Bool.false_eq_true, if_false] at h
      obtain ⟨p, hp, hr⟩ := ih done h
      exact ⟨p, List.mem_cons_of_mem _ hp, hr⟩
    · have hd2 : drop pre = false := by simpa using hd
      simp only [rangePreds, hd2, Bool.not_false, if_true] at h
      cases hrec : rec pre done with
      | none => simp [hrec] at h
      | some r =>
        obtain ⟨res, d2⟩ := r
        cases res with
        | true =>
          simp only [hrec, Option.some.injEq, Prod.mk.injEq, true_and] at h
          exact ⟨pre, List.mem_cons_self _ _, hd2, done, by rw [hrec, h]⟩
        | false =>
          simp only [hrec] at h
          obtain ⟨p, hp, hr⟩ := ih d2 h
          exact ⟨p, List.mem_cons_of_mem _ hp, hr⟩

/-- A run of `backtrace` that returns true has found a way to a terminating block. -/
theorem backtrace_sound (preds : BlockId → List BlockId) (drop terminate : BlockId → Bool)
    (fuel : Nat) (b : BlockId) (done d1 : List BlockId)
    (h : backtrace preds drop terminate fuel b done = some (true, d1)) :
    Reaches preds drop terminate b := by
  induction fuel generalizing b done d1 with
  | zero => simp [backtrace] at h
  | succ n ih =>
    by_cases hb : b ∈ done
    · simp [backtrace, hb] at h
    · by_cases ht : terminate b = true
      · exact Reaches.here ht
      · simp only [backtrace, hb, if_false, ht, Bool.false_eq_true] at h
        obtain ⟨p, hp, hdp, d0, hrec⟩ := rangePreds_true _ drop _ _ _ h
        exact Reaches.pred hp hdp (ih p d0 d1 hrec)

theorem Explored.trans {preds : BlockId → List BlockId} {drop terminate : BlockId → Bool}
    {d0 d1 d2 : List BlockId} (h1 : Explored preds drop terminate d0 d1)
    (h2 : Explored preds drop terminate d1 d2) : Explored preds drop terminate d0 d2 := by
  refine ⟨fun x hx => h2.1 (h1.1 hx), fun x hx hx0 => ?_⟩
  by_cases hx1 : x ∈ d1
  · obtain ⟨ht, hq⟩ := h1.2 x hx1 hx0
    exact ⟨ht, fun q hq1 hq2 => h2.1 (hq q hq1 hq2)⟩
  · exact h2.2 x hx hx1

theorem rangePreds_false (preds : BlockId → List BlockId) (drop terminate : BlockId → Bool)
    (rec : BlockId → List BlockId → Option (Bool × List BlockId))
    (hrec : ∀ p d d1, rec p d = some (false, d1) → p ∈ d1 ∧ Explored preds drop terminate d d1)
    (l done d1 : List BlockId) (h : rangePreds rec drop l done = some (false, d1)) :
    (∀ p ∈ l, drop p = false → p ∈ d1) ∧ Explored preds drop terminate done d1 := by
  induction l generalizing done with
  | nil =>
    simp only [rangePreds, Option.some.injEq, Prod.mk.injEq, true_and] at h
    subst h
    exact ⟨fun p hp => absurd hp (List.not_mem_nil p), fun x hx => hx, fun x hx hx0 => absurd hx hx0⟩
  | cons pre rest ih =>
    by_cases hd : drop pre = true
    · simp only [rangePreds, hd, Bool.not_true, Bool.false_eq_true, if_false] at h
      obtain ⟨h1, h2⟩ := ih done h
      refine ⟨fun p hp hdp => ?_, h2⟩
      rcases List.mem_cons.mp hp with hp | hp
      · rw [hp, hd] at hdp
        exact absurd hdp (by simp)
      · exact h1 p hp hdp
    · have hd2 : drop pre = false := by simpa using hd
      simp only [rangePreds, hd2, Bool.not_false, if_true] at h
      cases hr : rec pre done with
      | none => simp [hr] at h
      | some r =>
        obtain ⟨res, d2⟩ := r
        cases res with
        | true => simp [hr] at h
        | false =>
          simp only [hr] at h
          obtain ⟨hp2, he2⟩ := hrec pre done d2 hr
          obtain ⟨h1, h2⟩ := ih d2 h
          refine ⟨fun p hp hdp => ?_, he2.trans h2⟩
          rcases List.mem_cons.mp hp with hp | hp
          · rw [hp]
            exact h2.1 hp2
          · exact h1 p hp hdp

/-- A run of `backtrace` that returns false leaves the start block in the done
map, and the blocks it added are explored. -/
theorem backtrace_false (preds : BlockId → List BlockId) (drop terminate : BlockId → Bool)
    (fuel : Nat) (b : BlockId) (done d1 : List BlockId)
    (h : backtrace preds drop terminate fuel b done = some (false, d1)) :
    b ∈ d1 ∧ Explored preds drop terminate done d1 := by
  induction fuel generalizing b done d1 with
  | zero => simp [backtrace] at h
  | succ n ih =>
    by_cases hb : b ∈ done
    · simp only [backtrace, hb, if_true, Option.some.injEq, Prod.mk.injEq, true_and] at h
      subst h
      exact ⟨hb, fun x hx => hx, fun x hx hx0 => absurd hx hx0⟩
    · by_cases ht : terminate b = true
      · simp [backtrace, hb, ht] at h
      · have ht2 : terminate b = false := by simpa using ht
        simp only [backtrace, hb, if_false, ht, Bool.false_eq_true] at h
        obtain ⟨h1, h2⟩ := rangePreds_false preds drop terminate _ (fun p d d2 => ih p d d2) _ _ _ h
        have hbd : b ∈ d1 := h2.1 (List.mem_cons_self _ _)
        refine ⟨hbd, fun x hx => h2.1 (List.mem_cons_of_mem _ hx), fun x hx hx0 => ?_⟩
        by_cases hxb : x = b
        · subst hxb
          exact ⟨ht2, h1⟩
        · exact h2.2 x hx (fun hmem => by
            rcases List.mem_cons.mp hmem with hmem | hmem
            · exact hxb hmem
            · exact hx0 hmem)

/-- From a block of an explored set that started empty no terminating block
can be reached. -/
theorem not_reaches_of_explored (preds : BlockId → List BlockId)
    (drop terminate : BlockId → Bool) (d1 : List BlockId)
    (he : Explored preds drop terminate [] d1) (b : BlockId)
    (hr : Reaches preds drop terminate b) : b ∉ d1 := by
  induction hr with
  | here ht =>
    intro hb
    have := (he.2 _ hb (List.not_mem_nil _)).1
    rw [ht] at this
    exact absurd this (by simp)
  | pred hp hd _ ih =>
    intro hb
    exact ih ((he.2 _ hb (List.not_mem_nil _)).2 _ hp hd)

/-- A run of `backtrace` from an empty done map returns true exactly when a
terminating block can be reached. -/
theorem backtrace_iff_reaches (preds : BlockId → List BlockId) (drop terminate : BlockId → Bool)
    (fuel : Nat) (b : BlockId) (r : Bool) (d1 : List BlockId)
    (h : backtrace preds drop terminate fuel b [] = some (r, d1)) :
    r = true ↔ Reaches preds drop terminate b := by
  cases r with
  | true => exact ⟨fun _ => backtrace_sound preds drop terminate fuel b [] d1 h, fun _ => rfl⟩
  | false =>
    obtain ⟨hb, he⟩ := backtrace_false preds drop terminate fuel b [] d1 h
    constructor
    · intro hf
      exact absurd hf (by simp)
    · intro hr
      exact absurd hb (not_reaches_of_explored preds drop terminate d1 he b hr)

theorem unvisited_eq_card (n : Nat) (done : List BlockId) :
    unvisited n done = (Finset.range n \ done.toFinset).card := by
  unfold unvisited
  rw [← List.toFinset_card_of_nodup ((List.nodup_range n).filter _)]
  congr 1
  ext x
  simp

theorem unvisited_mono (n : Nat) (d d1 : List BlockId) (h : d ⊆ d1) :
    unvisited n d1 ≤ unvisited n d := by
  rw [unvisited_eq_card, unvisited_eq_card]
  apply Finset.card_le_card
  apply Finset.sdiff_subset_sdiff (le_refl _)
  intro x hx
  exact List.mem_toFinset.mpr (h (List.mem_toFinset.mp hx))

theorem unvisited_cons_lt (n : Nat) (b : BlockId) (done : List BlockId) (hb : b < n)
    (hd : b ∉ done) : unvisited n (b :: done) < unvisited n done := by
  rw [unvisited_eq_card, unvisited_eq_card]
  apply Finset.card_lt_card
  rw [Finset.ssubset_iff_of_subset]
  · refine ⟨b, ?_, ?_⟩
    · simp [hb, hd]
    · simp
  · apply Finset.sdiff_subset_sdiff (le_refl _)
    intro x hx
    simp only [List.toFinset_cons, Finset.mem_insert]
    exact Or.inr hx

theorem rangePreds_returns (n fuel : Nat) (drop : BlockId → Bool)
    (rec : BlockId → List BlockId → Option (Bool × List BlockId))
    (hrec : ∀ p d, p < n → unvisited n d < fuel → ∃ r d1, rec p d = some (r, d1) ∧ d ⊆ d1)
    (l : List BlockId) (hl : ∀ p ∈ l, p < n) (done : List BlockId)
    (hfuel : unvisited n done < fuel) :
    ∃ r d1, rangePreds rec drop l done = some (r, d1) ∧ done ⊆ d1 := by
  induction l generalizing done with
  | nil => exact ⟨false, done, rfl, fun x hx => hx⟩
  | cons pre rest ih =>
    have hrest : ∀ p ∈ rest, p < n := fun p hp => hl p (List.mem_cons_of_mem _ hp)
    by_cases hd : drop pre = true
    · simp only [rangePreds, hd, Bool.not_true, Bool.false_eq_true, if_false]
      exact ih hrest done hfuel
    · have hd2 : drop pre = false := by simpa using hd
      simp only [rangePreds, hd2, Bool.not_false, if_true]
      obtain ⟨r, d2, hr, hsub⟩ := hrec pre done (hl pre (List.mem_cons_self _ _)) hfuel
      rw [hr]
      cases r with
      | true => exact ⟨true, d2, rfl, hsub⟩
      | false =>
        obtain ⟨r3, d3, h3, hsub3⟩ :=
          ih hrest d2 (lt_of_le_of_lt (unvisited_mono n done d2 hsub) hfuel)
        exact ⟨r3, d3, h3, fun x hx => hsub3 (hsub hx)⟩

/-- With more fuel than there are blocks outside the done map, `backtrace`
returns, and the done map has only grown. -/
theorem backtrace_returns (preds : BlockId → List BlockId) (drop terminate : BlockId → Bool)
    (n : Nat) (hwf : ∀ x, x < n → ∀ p ∈ preds x, p < n) (fuel : Nat) (b : BlockId)
    (done : List BlockId) (hb : b < n) (hfuel : unvisited n done < fuel) :
    ∃ r d1, backtrace preds drop terminate fuel b done = some (r, d1) ∧ done ⊆ d1 := by
  induction fuel generalizing b done with
  | zero => exact absurd hfuel (Nat.not_lt_zero _)
  | succ k ih =>
    by_cases hbd : b ∈ done
    · exact ⟨false, done, by simp [backtrace, hbd], fun x hx => hx⟩
    · by_cases ht : terminate b = true
      · exact ⟨true, b :: done, by simp [backtrace, hbd, ht], fun x hx => List.mem_cons_of_mem _ hx⟩
      · simp only [backtrace, hbd, if_false, ht, Bool.false_eq_true]
        have hlt : unvisited n (b :: done) < k :=
          lt_of_lt_of_le (unvisited_cons_lt n b done hb hbd) (Nat.lt_succ_iff.mp hfuel)
        obtain ⟨r, d1, hr, hsub⟩ := rangePreds_returns n k drop _
          (fun p d hp hd => ih p d hp hd) (preds b) (hwf b hb) (b :: done) hlt
        exact ⟨r, d1, hr, fun x hx => hsub (List.mem_cons_of_mem _ hx)⟩

theorem unvisited_nil (n : Nat) : unvisited n [] = n := by
  simp [unvisited]

theorem reaches_iff_entryPath (preds : BlockId → List BlockId) (drop : BlockId → Bool)
    (b : BlockId) :
    Reaches preds drop isEntry b ↔ ∃ l, EntryPath preds b l ∧ ∀ x ∈ l, drop x = false := by
  constructor
  · intro h
    induction h with
    | @here b0 ht =>
      have h0 : b0 = 0 := by simpa [isEntry] using ht
      subst h0
      exact ⟨[], EntryPath.entry, fun x hx => absurd hx (List.not_mem_nil x)⟩
    | pred hp hd _ ih =>
      obtain ⟨l, hl, hall⟩ := ih
      refine ⟨_ :: l, EntryPath.pred hp hl, fun x hx => ?_⟩
      rcases List.mem_cons.mp hx with hx | hx
      · rw [hx]; exact hd
      · exact hall x hx
  · rintro ⟨l, hl, hall⟩
    induction hl with
    | entry => exact Reaches.here (by simp [isEntry])
    | pred hp _ ih =>
      exact Reaches.pred hp (hall _ (List.mem_cons_self _ _))
        (ih (fun x hx => hall x (List.mem_cons_of_mem _ hx)))

theorem dropGuard_nil (f : Func) (b : BlockId) : dropGuard f [] b = false := by
  unfold dropGuard
  cases (f.Instrs b).getLast? <;> simp

theorem not_reaches_iff_paths (preds : BlockId → List BlockId) (drop : BlockId → Bool)
    (b : BlockId) :
    ¬ Reaches preds drop isEntry b
      ↔ ∀ l, EntryPath preds b l → ∃ x ∈ l, drop x = true := by
  rw [reaches_iff_entryPath]
  constructor
  · intro h l hl
    by_contra hc
    apply h
    refine ⟨l, hl, fun x hx => ?_⟩
    cases hd : drop x with
    | false => rfl
    | true => exact absurd ⟨x, hx, hd⟩ hc
  · rintro h ⟨l, hl, hall⟩
    obtain ⟨x, hx, hd⟩ := h l hl
    rw [hall x hx] at hd
    exact absurd hd (by simp)

/-- The graph part of `hasNilGuard`, once the guards are collected: the call
returns, and it returns false exactly when there is no guard or the entry block
can be reached without entering a guard block. -/
theorem hasNilGuardWith_of_guards (f : Func) (isNilRec : BlockId → ValueId → Option Bool)
    (fuel : Nat) (b : BlockId) (v : ValueId) (refs guards : List ValueId)
    (hwf : ∀ x, x < f.numBlocks → ∀ p ∈ f.Preds x, p < f.numBlocks) (hb : b < f.numBlocks)
    (hv : isInstruction (f.node v) = true) (hrefs : f.Referrers v = some refs)
    (hguards : collectGuards f isNilRec fuel v refs = some guards) :
    ∃ r, hasNilGuardWith f isNilRec fuel b v = some r
      ∧ (r = false ↔ guards = [] ∨ Reaches f.Preds (dropGuard f guards) isEntry b) := by
  unfold hasNilGuardWith
  simp only [hv, Bool.not_true, Bool.false_eq_true, if_false, hrefs, hguards]
  cases guards with
  | nil => exact ⟨false, by simp, by simp⟩
  | cons g gs =>
    obtain ⟨r0, d1, hr0, _⟩ := backtrace_returns f.Preds (dropGuard f (g :: gs)) isEntry
      f.numBlocks hwf (f.numBlocks + 1) b [] hb (by rw [unvisited_nil]; exact Nat.lt_succ_self _)
    have hiff := backtrace_iff_reaches f.Preds (dropGuard f (g :: gs)) isEntry _ b r0 d1 hr0
    rw [hr0]
    cases r0 with
    | true =>
      refine ⟨false, by simp, ?_⟩
      simp only [true_iff]
      exact Or.inr (hiff.mp rfl)
    | false =>
      refine ⟨true, by simp, ?_⟩
      constructor
      · intro h
        exact absurd h (by simp)
      · rintro (h | h)
        · exact absurd h (by simp)
        · exact absurd (hiff.mpr h) (by simp)

/-! ## Fuel

A run that returned with some fuel returns the same with more fuel. -/

theorem rangeEdges_mono {σ : Type} (rec1 rec2 : ValueId → σ → Option (σ × Bool))
    (h : ∀ v s r, rec1 v s = some r → rec2 v s = some r) (l : List ValueId) (s : σ)
    (r : σ × Bool) (hr : rangeEdges rec1 l s = some r) : rangeEdges rec2 l s = some r := by
  induction l generalizing s with
  | nil => exact hr
  | cons v rest ih =>
    cases h1 : rec1 v s with
    | none => simp [rangeEdges, h1] at hr
    | some r1 =>
      obtain ⟨s1, ok⟩ := r1
      have h2 := h v s _ h1
      cases ok with
      | false =>
        simp only [rangeEdges, h1] at hr
        simp only [rangeEdges, h2]
        exact hr
      | true =>
        simp only [rangeEdges, h1] at hr
        simp only [rangeEdges, h2]
        exact ih s1 hr

theorem phiValues_mono {σ : Type} (f : Func) (yield : σ → ValueId → σ × Bool) (n : Nat)
    (v : ValueId) (s : σ) (r : σ × Bool) (hr : phiValues f yield n v s = some r) :
    phiValues f yield (n + 1) v s = some r := by
  induction n generalizing v s r with
  | zero => simp [phiValues] at hr
  | succ k ih =>
    rw [phiValues] at hr ⊢
    cases hn : f.node v with
    | phi edges =>
      simp only [hn] at hr ⊢
      exact rangeEdges_mono _ _ (fun v s r h => ih v s r h) edges s r hr
    | const val => simpa [hn] using hr
    | parameter => simpa [hn] using hr
    | binOp op x y => simpa [hn] using hr
    | ifInstr cond => simpa [hn] using hr
    | call kind callee args => simpa [hn] using hr
    | instr => simpa [hn] using hr

theorem equalValue_mono (f : Func) (n : Nat) (x y : ValueId) (r : Bool)
    (hr : equalValue f n x y = some r) : equalValue f (n + 1) x y = some r := by
  unfold equalValue at hr ⊢
  by_cases hxy : (x == y) = true
  · rw [if_pos hxy] at hr ⊢
    exact hr
  · rw [if_neg hxy] at hr ⊢
    generalize (fun (found : Bool) (x1 : ValueId) =>
      if x1 == y then (true, false) else (found, true)) = c1 at hr ⊢
    generalize (fun (found : Bool) (y1 : ValueId) =>
      if x == y1 then (true, false) else (found, true)) = c2 at hr ⊢
    cases h1 : phiValues f c1 n x false with
    | none =>
      rw [h1] at hr
      exact absurd hr (by simp)
    | some r1 =>
      obtain ⟨found, ok⟩ := r1
      rw [phiValues_mono f c1 n x false _ h1]
      rw [h1] at hr
      cases found with
      | true => exact hr
      | false =>
        simp only at hr ⊢
        cases h2 : phiValues f c2 n y false with
        | none =>
          rw [h2] at hr
          exact absurd hr (by simp)
        | some r2 =>
          rw [phiValues_mono f c2 n y false _ h2]
          rw [h2] at hr
          exact hr

theorem andThen_mono (a1 a2 b1 b2 : Option Bool) (ha : ∀ r, a1 = some r → a2 = some r)
    (hb : ∀ r, b1 = some r → b2 = some r) (r : Bool) (h : andThen a1 b1 = some r) :
    andThen a2 b2 = some r := by
  cases a1 with
  | none => simp [andThen] at h
  | some x =>
    rw [ha x rfl]
    cases x with
    | false => exact h
    | true => exact hb r h

theorem toNilGuard_mono (f : Func) (rec1 rec2 : BlockId → ValueId → Option Bool)
    (h : ∀ b v r, rec1 b v = some r → rec2 b v = some r) (n : Nat) (v instr : ValueId)
    (g : Option ValueId) (hg : toNilGuard f rec1 n v instr = some g) :
    toNilGuard f rec2 (n + 1) v instr = some g := by
  unfold toNilGuard at hg ⊢
  cases hn : f.node instr with
  | binOp op x y =>
    simp only [hn] at hg ⊢
    cases hi : getIf f instr with
    | none => simpa [hi] using hg
    | some guard =>
      simp only [hi] at hg ⊢
      cases h1 : andThen (equalValue f n x v) (rec1 (f.Block instr) y) with
      | none => simp [h1] at hg
      | some r1 =>
        rw [andThen_mono _ _ _ _ (fun r hr => equalValue_mono f n x v r hr)
          (fun r hr => h _ _ r hr) r1 h1]
        cases r1 with
        | true => simpa [h1] using hg
        | false =>
          simp only [h1] at hg ⊢
          cases h2 : andThen (equalValue f n y v) (rec1 (f.Block instr) x) with
          | none => simp [h2] at hg
          | some r2 =>
            rw [andThen_mono _ _ _ _ (fun r hr => equalValue_mono f n y v r hr)
              (fun r hr => h _ _ r hr) r2 h2]
            simpa [h2] using hg
  | const val => simpa [hn] using hg
  | parameter => simpa [hn] using hg
  | phi edges => simpa [hn] using hg
  | ifInstr cond => simpa [hn] using hg
  | call kind callee args => simpa [hn] using hg
  | instr => simpa [hn] using hg

theorem collectGuards_mono (f : Func) (rec1 rec2 : BlockId → ValueId → Option Bool)
    (h : ∀ b v r, rec1 b v = some r → rec2 b v = some r) (n : Nat) (v : ValueId)
    (refs guards : List ValueId) (hg : collectGuards f rec1 n v refs = some guards) :
    collectGuards f rec2 (n + 1) v refs = some guards := by
  induction refs generalizing guards with
  | nil => exact hg
  | cons ref rest ih =>
    rw [collectGuards] at hg ⊢
    cases h1 : toNilGuard f rec1 n v ref with
    | none => simp [h1] at hg
    | some g =>
      rw [toNilGuard_mono f rec1 rec2 h n v ref g h1]
      simp only [h1] at hg ⊢
      cases h2 : collectGuards f rec1 n v rest with
      | none => simp [h2] at hg
      | some gs =>
        rw [ih gs h2]
        simpa [h2] using hg

theorem hasNilGuardWith_mono (f : Func) (rec1 rec2 : BlockId → ValueId → Option Bool)
    (h : ∀ b v r, rec1 b v = some r → rec2 b v = some r) (n : Nat) (b : BlockId) (v : ValueId)
    (r : Bool) (hr : hasNilGuardWith f rec1 n b v = some r) :
    hasNilGuardWith f rec2 (n + 1) b v = some r := by
  unfold hasNilGuardWith at hr ⊢
  by_cases hi : isInstruction (f.node v) = true
  · simp only [hi, Bool.not_true, Bool.false_eq_true, if_false] at hr ⊢
    cases hrefs : f.Referrers v with
    | none => simpa [hrefs] using hr
    | some refs =>
      simp only [hrefs] at hr ⊢
      cases hg : collectGuards f rec1 n v refs with
      | none => simp [hg] at hr
      | some guards =>
        rw [collectGuards_mono f rec1 rec2 h n v refs guards hg]
        simpa [hg] using hr
  · simpa [hi] using hr

theorem containsFunc_mono {α : Type} (p1 p2 : α → Option Bool)
    (h : ∀ a r, p1 a = some r → p2 a = some r) (l : List α) (r : Bool)
    (hr : containsFunc p1 l = some r) : containsFunc p2 l = some r := by
  induction l with
  | nil => exact hr
  | cons a rest ih =>
    rw [containsFunc] at hr ⊢
    cases h1 : p1 a with
    | none => simp [h1] at hr
    | some x =>
      rw [h a x h1]
      cases x with
      | true => simpa [h1] using hr
      | false =>
        simp only [h1] at hr ⊢
        exact ih hr

/-- A call of `isNil` that returned with some fuel returns the same with more. -/
theorem isNil_mono (f : Func) (n : Nat) (b : BlockId) (v : ValueId) (r : Bool)
    (hr : isNil f n b v = some r) : isNil f (n + 1) b v = some r := by
  induction n generalizing b v r with
  | zero => simp [isNil] at hr
  | succ k ih =>
    rw [isNil] at hr ⊢
    cases hn : f.node v with
    | phi edges =>
      simp only [hn] at hr ⊢
      cases hg : hasNilGuardWith f (isNil f k) k b v with
      | none => simp [hg] at hr
      | some g =>
        rw [hasNilGuardWith_mono f (isNil f k) (isNil f (k + 1)) (fun b v r h => ih b v r h)
          k b v g hg]
        cases g with
        | true => simpa [hg] using hr
        | false =>
          simp only [hg] at hr ⊢
          exact containsFunc_mono _ _ (fun a r h => ih b a r h) edges r hr
    | const val => simpa [hn] using hr
    | parameter => simpa [hn] using hr
    | binOp op x y => simpa [hn] using hr
    | ifInstr cond => simpa [hn] using hr
    | call kind callee args => simpa [hn] using hr
    | instr => simpa [hn] using hr

/-- A call of `hasNilGuard` that returned with some fuel returns the same with
more. -/
theorem hasNilGuard_mono (f : Func) (n : Nat) (b : BlockId) (v : ValueId) (r : Bool)
    (hr : hasNilGuard f n b v = some r) : hasNilGuard f (n + 1) b v = some r :=
  hasNilGuardWith_mono f (isNil f n) (isNil f (n + 1)) (fun b v r h => isNil_mono f n b v r h)
    n b v r hr

/-! ## Nil guards on the control-flow graph -/

theorem andThen_eq_true (a b : Option Bool) :
    andThen a b = some true ↔ a = some true ∧ b = some true := by
  cases a with
  | none => simp [andThen]
  | some x => cases x <;> simp [andThen]

/-- What `toNilGuard` returns, when it returns: the first `*ssa.If` referrer of
a binary operation that has one operand equal to `v` and the other nil, and
nothing on any other instruction. -/
theorem toNilGuard_eq_some (f : Func) (isNilRec : BlockId → ValueId → Option Bool) (fuel : Nat)
    (v ref g : ValueId) (hret : (toNilGuard f isNilRec fuel v ref).isSome = true) :
    toNilGuard f isNilRec fuel v ref = some (some g) ↔
      ∃ op x y, f.node ref = .binOp op x y ∧ getIf f ref = some g
        ∧ ((equalValue f fuel x v = some true ∧ isNilRec (f.Block ref) y = some true)
          ∨ (equalValue f fuel y v = some true ∧ isNilRec (f.Block ref) x = some true)) := by
  unfold toNilGuard at hret ⊢
  cases hn : f.node ref with
  | binOp op x y =>
    simp only [hn] at hret ⊢
    cases hg : getIf f ref with
    | none =>
      simp only [hg]
      constructor
      · intro h
        exact absurd h (by simp)
      · rintro ⟨_, _, _, _, h, _⟩
        exact absurd h (by simp)
    | some guard =>
      simp only [hg] at hret ⊢
      cases h1 : andThen (equalValue f fuel x v) (isNilRec (f.Block ref) y) with
      | none => simp [h1] at hret
      | some r1 =>
        cases r1 with
        | true =>
          simp only [h1, Option.some.injEq]
          constructor
          · intro h
            exact ⟨op, x, y, rfl, h, Or.inl ((andThen_eq_true _ _).mp h1)⟩
          · rintro ⟨_, _, _, _, h, _⟩
            exact h
        | false =>
          simp only [h1] at hret ⊢
          cases h2 : andThen (equalValue f fuel y v) (isNilRec (f.Block ref) x) with
          | none => simp [h2] at hret
          | some r2 =>
            cases r2 with
            | true =>
              simp only [Option.some.injEq]
              constructor
              · intro h
                exact ⟨op, x, y, rfl, h, Or.inr ((andThen_eq_true _ _).mp h2)⟩
              · rintro ⟨_, _, _, _, h, _⟩
                exact h
            | false =>
              constructor
              · intro h
                exact absurd h (by simp)
              · rintro ⟨op2, x2, y2, hnode, _, hor⟩
                injection hnode with _ hx hy
                subst hx
                subst hy
                rcases hor with h | h
                · rw [(andThen_eq_true _ _).mpr h] at h1
                  exact absurd h1 (by simp)
                · rw [(andThen_eq_true _ _).mpr h] at h2
                  exact absurd h2 (by simp)
  | const val =>
    simp only [hn]
    constructor
    · intro h
      exact absurd h (by simp)
    · rintro ⟨_, _, _, h, _⟩
      exact absurd h (by simp)
  | parameter =>
    simp only [hn]
    constructor
    · intro h
      exact absurd h (by simp)
    · rintro ⟨_, _, _, h, _⟩
      exact absurd h (by simp)
  | phi edges =>
    simp only [hn]
    constructor
    · intro h
      exact absurd h (by simp)
    · rintro ⟨_, _, _, h, _⟩
      exact absurd h (by simp)
  | ifInstr cond =>
    simp only [hn]
    constructor
    · intro h
      exact absurd h (by simp)
    · rintro ⟨_, _, _, h, _⟩
      exact absurd h (by simp)
  | call kind callee args =>
    simp only [hn]
    constructor
    · intro h
      exact absurd h (by simp)
    · rintro ⟨_, _, _, h, _⟩
      exact absurd h (by simp)
  | instr =>
    simp only [hn]
    constructor
    · intro h
      exact absurd h (by simp)
    · rintro ⟨_, _, _, h, _⟩
      exact absurd h (by simp)

/-- The keys of the `guards` map after the loop of `hasNilGuard`: what
`toNilGuard` returned on the referrers, each call having returned. -/
theorem collectGuards_mem (f : Func) (isNilRec : BlockId → ValueId → Option Bool) (fuel : Nat)
    (v : ValueId) (refs guards : List ValueId)
    (h : collectGuards f isNilRec fuel v refs = some guards) :
    (∀ ref ∈ refs, (toNilGuard f isNilRec fuel v ref).isSome = true)
      ∧ ∀ g, g ∈ guards ↔ ∃ ref ∈ refs, toNilGuard f isNilRec fuel v ref = some (some g) := by
  induction refs generalizing guards with
  | nil =>
    simp only [collectGuards, Option.some.injEq] at h
    rw [← h]
    exact ⟨fun _ hr => absurd hr (List.not_mem_nil _), fun g => by simp⟩
  | cons ref rest ih =>
    rw [collectGuards] at h
    cases h1 : toNilGuard f isNilRec fuel v ref with
    | none => simp [h1] at h
    | some guard =>
      simp only [h1] at h
      cases h2 : collectGuards f isNilRec fuel v rest with
      | none => simp [h2] at h
      | some gs =>
        simp only [h2] at h
        obtain ⟨hret, hmem⟩ := ih gs h2
        constructor
        · intro r hr
          rcases List.mem_cons.mp hr with hr | hr
          · rw [hr, h1]
            rfl
          · exact hret r hr
        · intro g
          cases guard with
          | none =>
            simp only [Option.some.injEq] at h
            rw [← h, hmem g]
            constructor
            · rintro ⟨r, hr, hg⟩
              exact ⟨r, List.mem_cons_of_mem _ hr, hg⟩
            · rintro ⟨r, hr, hg⟩
              rcases List.mem_cons.mp hr with hr | hr
              · rw [hr, h1] at hg
                exact absurd hg (by simp)
              · exact ⟨r, hr, hg⟩
          | some g0 =>
            simp only [Option.some.injEq] at h
            rw [← h, List.mem_cons, hmem g]
            constructor
            · rintro (hg | ⟨r, hr, hg⟩)
              · exact ⟨ref, List.mem_cons_self _ _, by rw [h1, hg]⟩
              · exact ⟨r, List.mem_cons_of_mem _ hr, hg⟩
            · rintro ⟨r, hr, hg⟩
              rcases List.mem_cons.mp hr with hr | hr
              · rw [hr, h1] at hg
                exact Or.inl (Option.some.inj (Option.some.inj hg)).symm
              · exact Or.inr ⟨r, hr, hg⟩

/-- The guards that `hasNilGuard` collects for `v` are the nil guards of `v`. -/
theorem collectGuards_iff_NilGuard (f : Func) (fuel : Nat) (v : ValueId)
    (refs guards : List ValueId) (hrefs : f.Referrers v = some refs)
    (h : collectGuards f (isNil f fuel) fuel v refs = some guards) (g : ValueId) :
    g ∈ guards ↔ NilGuard f fuel v g := by
  obtain ⟨hret, hmem⟩ := collectGuards_mem f (isNil f fuel) fuel v refs guards h
  rw [hmem g]
  constructor
  · rintro ⟨ref, hr, hg⟩
    obtain ⟨op, x, y, hn, hif, hor⟩ :=
      (toNilGuard_eq_some f (isNil f fuel) fuel v ref g (hret ref hr)).mp hg
    exact ⟨refs, ref, op, x, y, hrefs, hr, hn, hif, hor⟩
  · rintro ⟨refs2, ref, op, x, y, hrefs2, hr, hn, hif, hor⟩
    rw [hrefs] at hrefs2
    rw [← Option.some.inj hrefs2] at hr
    exact ⟨ref, hr, (toNilGuard_eq_some f (isNil f fuel) fuel v ref g (hret ref hr)).mpr
      ⟨op, x, y, hn, hif, hor⟩⟩

/-- The blocks that the backtrace of `hasNilGuard` drops are the blocks that end
in a nil guard of `v`. -/
theorem dropGuard_iff_GuardBlock (f : Func) (fuel : Nat) (v : ValueId)
    (refs guards : List ValueId) (hrefs : f.Referrers v = some refs)
    (h : collectGuards f (isNil f fuel) fuel v refs = some guards) (x : BlockId) :
    dropGuard f guards x = true ↔ GuardBlock f fuel v x := by
  unfold dropGuard GuardBlock
  cases hl : (f.Instrs x).getLast? with
  | none => simp
  | some last =>
    simp only [decide_eq_true_eq, Option.some.injEq]
    rw [collectGuards_iff_NilGuard f fuel v refs guards hrefs h last]
    constructor
    · intro hg
      exact ⟨last, rfl, hg⟩
    · rintro ⟨g, hg, hng⟩
      rw [hg]
      exact hng

/-- C20: let the control-flow graph be finite, with `b` and the predecessors of
its blocks among its blocks, and let `v` be a phi node, as at the one call of
`hasNilGuard`, whose guards are collected.  A nil guard of `v` is a conditional
branch on a binary operation that has `v` as one operand and nil as the other.
Then `hasNilGuard(b, v)` returns; it returns false exactly when `v` has no nil
guard or the entry block can be reached from `b` by predecessor edges without
entering a block that ends in a nil guard of `v`; and when `b` can be reached
from the entry block it returns true exactly when every path from the entry
block to `b` goes, before it ends in `b`, through a block that ends in a nil
guard of `v`. -/
theorem hasNilGuard_guarded (f : Func) (fuel : Nat) (b : BlockId) (v : ValueId)
    (edges refs guards : List ValueId)
    (hwf : ∀ x, x < f.numBlocks → ∀ p ∈ f.Preds x, p < f.numBlocks) (hb : b < f.numBlocks)
    (hv : f.node v = .phi edges) (hrefs : f.Referrers v = some refs)
    (hguards : collectGuards f (isNil f fuel) fuel v refs = some guards) :
    (∀ g, g ∈ guards ↔ NilGuard f fuel v g)
    ∧ ∃ r, hasNilGuard f fuel b v = some r
      ∧ (r = false ↔ (∀ g, ¬ NilGuard f fuel v g)
          ∨ ∃ l, EntryPath f.Preds b l ∧ ∀ x ∈ l, ¬ GuardBlock f fuel v x)
      ∧ (r = true ↔ (∃ g, NilGuard f fuel v g)
          ∧ ∀ l, EntryPath f.Preds b l → ∃ x ∈ l, GuardBlock f fuel v x)
      ∧ ((∃ l, EntryPath f.Preds b l) →
          (r = true ↔ ∀ l, EntryPath f.Preds b l → ∃ x ∈ l, GuardBlock f fuel v x)) := by
  have hmem := collectGuards_iff_NilGuard f fuel v refs guards hrefs hguards
  have hdrop := dropGuard_iff_GuardBlock f fuel v refs guards hrefs hguards
  obtain ⟨r, hr, hfalse⟩ :=
    hasNilGuardWith_of_guards f (isNil f fuel) fuel b v refs guards hwf hb
      (by rw [hv]; rfl) hrefs hguards
  have hnil : guards = [] ↔ ∀ g, ¬ NilGuard f fuel v g := by
    constructor
    · intro h g hg
      rw [← hmem g, h] at hg
      exact absurd hg (List.not_mem_nil g)
    · intro h
      cases hgs : guards with
      | nil => rfl
      | cons g gs =>
        exact absurd ((hmem g).mp (by rw [hgs]; exact List.mem_cons_self _ _)) (h g)
  have hreach : Reaches f.Preds (dropGuard f guards) isEntry b
      ↔ ∃ l, EntryPath f.Preds b l ∧ ∀ x ∈ l, ¬ GuardBlock f fuel v x := by
    rw [reaches_iff_entryPath]
    constructor
    · rintro ⟨l, hl, hall⟩
      refine ⟨l, hl, fun x hx hg => ?_⟩
      have hd := hall x hx
      rw [(hdrop x).mpr hg] at hd
      exact absurd hd (by simp)
    · rintro ⟨l, hl, hall⟩
      refine ⟨l, hl, fun x hx => ?_⟩
      cases hd : dropGuard f guards x with
      | false => rfl
      | true => exact absurd ((hdrop x).mp hd) (hall x hx)
  have hfalse2 : r = false ↔ (∀ g, ¬ NilGuard f fuel v g)
      ∨ ∃ l, EntryPath f.Preds b l ∧ ∀ x ∈ l, ¬ GuardBlock f fuel v x := by
    rw [hfalse, hnil, hreach]
  have htrue : r = true ↔ (∃ g, NilGuard f fuel v g)
      ∧ ∀ l, EntryPath f.Preds b l → ∃ x ∈ l, GuardBlock f fuel v x := by
    have hnot : r = true ↔ ¬ r = false := by cases r <;> simp
    rw [hnot, hfalse2, not_or, not_forall]
    constructor
    · rintro ⟨⟨g, hg⟩, hpaths⟩
      refine ⟨⟨g, not_not.mp hg⟩, fun l hl => ?_⟩
      by_contra hc
      exact hpaths ⟨l, hl, fun x hx hgb => hc ⟨x, hx, hgb⟩⟩
    · rintro ⟨⟨g, hg⟩, hpaths⟩
      refine ⟨⟨g, not_not.mpr hg⟩, ?_⟩
      rintro ⟨l, hl, hall⟩
      obtain ⟨x, hx, hgb⟩ := hpaths l hl
      exact hall x hx hgb
  refine ⟨hmem, r, hr, hfalse2, htrue, ?_⟩
  rintro ⟨l0, hl0⟩
  rw [htrue]
  constructor
  · exact fun h => h.2
  · intro h
    obtain ⟨x, _, g, _, hg⟩ := h l0 hl0
    exact ⟨⟨g, hg⟩, h⟩

/-- Witness of C20 on `nilErrFunc`: the branch `if err != nil` is the one nil
guard of the phi node of `err`; in block 3, behind the guard, `hasNilGuard`
returns true and every path from the entry block goes through the guard block 2;
in block 2, where the first call is, it returns false. -/
theorem hasNilGuard_guarded_witness :
    NilGuard nilErrFunc 3 6 11
    ∧ (hasNilGuard nilErrFunc 3 3 6 = some true
      ∧ ∀ l, EntryPath nilErrFunc.Preds 3 l → ∃ x ∈ l, GuardBlock nilErrFunc 3 6 x)
    ∧ (hasNilGuard nilErrFunc 3 2 6 = some false
      ∧ ∃ l, EntryPath nilErrFunc.Preds 2 l ∧ ∀ x ∈ l, ¬ GuardBlock nilErrFunc 3 6 x) := by
  have hg : NilGuard nilErrFunc 3 6 11 :=
    ((hasNilGuard_guarded nilErrFunc 3 3 6 [5, 3] [8, 10, 13] [11] (by decide) (by decide)
      (by decide) (by decide) (by decide)).1 11).mp (by decide)
  refine ⟨hg, ?_, ?_⟩
  · obtain ⟨r, hr, _, htrue, _⟩ :=
      (hasNilGuard_guarded nilErrFunc 3 3 6 [5, 3] [8, 10, 13] [11] (by decide) (by decide)
        (by decide) (by decide) (by decide)).2
    have hr2 : hasNilGuard nilErrFunc 3 3 6 = some true := by decide
    have hrt : r = true := by
      rw [hr2] at hr
      exact (Option.some.inj hr).symm
    exact ⟨hr2, (htrue.mp hrt).2⟩
  · obtain ⟨r, hr, hfalse, _⟩ :=
      (hasNilGuard_guarded nilErrFunc 3 2 6 [5, 3] [8, 10, 13] [11] (by decide) (by decide)
        (by decide) (by decide) (by decide)).2
    have hr2 : hasNilGuard nilErrFunc 3 2 6 = some false := by decide
    have hrf : r = false := by
      rw [hr2] at hr
      exact (Option.some.inj hr).symm
    refine ⟨hr2, ?_⟩
    rcases hfalse.mp hrf with h | h
    · exact absurd hg (h 11)
    · exact h

/-! ## The nil-argument rule -/

theorem containsFunc_of_returns {α : Type} (p : α → Option Bool) (l : List α)
    (h : ∀ e ∈ l, (p e).isSome = true) :
    ∃ r, containsFunc p l = some r ∧ (r = true ↔ ∃ e ∈ l, p e = some true) := by
  induction l with
  | nil => exact ⟨false, rfl, by simp⟩
  | cons a rest ih =>
    obtain ⟨r, hr, hiff⟩ := ih (fun e he => h e (List.mem_cons_of_mem _ he))
    have ha := h a (List.mem_cons_self _ _)
    cases hpa : p a with
    | none => simp [hpa] at ha
    | some x =>
      cases x with
      | true => exact ⟨true, by simp [containsFunc, hpa], by simp [hpa]⟩
      | false =>
        refine ⟨r, by simp [containsFunc, hpa, hr], ?_⟩
        rw [hiff]
        simp [hpa]

theorem Called_of_call (f : Func) (instr : ValueId) (kind : CallKind) (callee : String)
    (args : List ValueId) (obj : String) (h : f.node instr = .call kind callee args) :
    Called f instr obj = (callee == obj) := by
  simp [Called, h]

theorem checkNilErrOne_other (libFuncs : List String) (f : Func) (fuel : Nat) (instr : ValueId)
    (kind : CallKind) (callee : String) (args : List ValueId) (fn : String × Nat)
    (h : f.node instr = .call kind callee args) (hne : callee ≠ fn.1) :
    checkNilErrOne libFuncs f fuel instr fn = some [] := by
  unfold checkNilErrOne
  by_cases hl : fn.1 ∈ libFuncs
  · simp [hl, Called_of_call f instr kind callee args fn.1 h, hne]
  · simp [hl]

theorem checkNilErrOne_call (libFuncs : List String) (f : Func) (fuel : Nat) (instr : ValueId)
    (args : List ValueId) (key : String) (errarg : ValueId) (r : Bool)
    (hl : key ∈ libFuncs) (h : f.node instr = .call .call key args)
    (harg : args.get? 0 = some errarg) (hr : isNil f fuel (f.Block instr) errarg = some r) :
    checkNilErrOne libFuncs f fuel instr (key, 0)
      = some (if r = true then [.nilErr (f.Pos instr) "1st" key] else []) := by
  unfold checkNilErrOne
  simp only [hl, not_true_eq_false, if_false, Called_of_call f instr .call key args key h,
    beq_self_eq_true, Bool.not_true, Bool.false_eq_true, h, harg, hr]
  cases r <;> simp [ordinalNumber]

theorem checkNilErrOne_not_call (libFuncs : List String) (f : Func) (fuel : Nat)
    (instr : ValueId) (kind : CallKind) (callee : String) (args : List ValueId)
    (fn : String × Nat) (h : f.node instr = .call kind callee args) (hk : kind ≠ .call) :
    checkNilErrOne libFuncs f fuel instr fn = some [] := by
  unfold checkNilErrOne
  cases kind with
  | call => exact absurd rfl hk
  | go =>
    simp only [h]
    split_ifs <;> rfl
  | defer =>
    simp only [h]
    split_ifs <;> rfl

/-- C17 as stated fails on a call made by a `go` or `defer` statement.  In
`goFunc` the instruction `go ergo.Wrap(nil, "%s")` is a call of `ergo.Wrap`,
`isNil` returns true on its first argument, the constant nil, in its block, and
the nil-argument rule reports nothing. -/
theorem checkNilErr_go_counterexample :
    Called goFunc 2 "github.com/newmo-oss/ergo.Wrap" = true
    ∧ goFunc.node 2 = .call .go "github.com/newmo-oss/ergo.Wrap" [0, 1]
    ∧ isNil goFunc 1 (goFunc.Block 2) 0 = some true
    ∧ checkNilErr allLibFuncs goFunc 1 2 = some [] := by
  decide

/-- C17, amended: `isNil(b, v)` returns whether the constant is nil on a
constant, so true on a constant nil; on a phi node, when `hasNilGuard(b, v)` and
the calls on the edges return, it returns true exactly if `hasNilGuard(b, v)`
returned false and `isNil(b, e)` returned true on at least one edge `e`; it
returns false on every other kind of value.  On a call of `ergo.WithCode` or
`ergo.Wrap` made by a call instruction the nil-argument rule reports one
diagnostic when `isNil` returns true on the first argument in the block of the
call, and none when it returns false; on a call made by a `go` or `defer`
statement it reports nothing. -/
theorem isNil_rule (f : Func) (fuel : Nat) (b : BlockId) (v : ValueId) (libFuncs : List String)
    (instr errarg : ValueId) (args : List ValueId) (key : String) (kind : CallKind) :
    (∀ val, f.node v = .const val → isNil f (fuel + 1) b v = some val.IsNil)
    ∧ (f.node v = .const .nil → isNil f (fuel + 1) b v = some true)
    ∧ (∀ edges g, f.node v = .phi edges → hasNilGuard f fuel b v = some g →
        (∀ e ∈ edges, (isNil f fuel b e).isSome = true) →
        ∃ r, isNil f (fuel + 1) b v = some r
          ∧ (r = true ↔ g = false ∧ ∃ e ∈ edges, isNil f fuel b e = some true))
    ∧ ((∀ val, f.node v ≠ .const val) → (∀ edges, f.node v ≠ .phi edges) →
        isNil f (fuel + 1) b v = some false)
    ∧ ((key = "github.com/newmo-oss/ergo.WithCode" ∨ key = "github.com/newmo-oss/ergo.Wrap") →
        key ∈ libFuncs → f.node instr = .call kind key args →
        (kind ≠ .call → checkNilErr libFuncs f fuel instr = some [])
        ∧ (kind = .call → args.get? 0 = some errarg →
            ∀ r, isNil f fuel (f.Block instr) errarg = some r →
              checkNilErr libFuncs f fuel instr
                = some (if r = true then [.nilErr (f.Pos instr) "1st" key] else []))) := by
  refine ⟨?_, ?_, ?_, ?_, ?_⟩
  · intro val h
    simp [isNil, h]
  · intro h
    simp [isNil, h, ConstVal.IsNil]
  · intro edges g h hg hedges
    have hg2 : hasNilGuardWith f (isNil f fuel) fuel b v = some g := hg
    obtain ⟨r, hr, hiff⟩ := containsFunc_of_returns (isNil f fuel b) edges hedges
    cases g with
    | true => exact ⟨false, by simp [isNil, h, hg2], by simp⟩
    | false => exact ⟨r, by simp [isNil, h, hg2, hr], by simp [hiff]⟩
  · intro hc hp
    cases hn : f.node v with
    | const val => exact absurd hn (hc val)
    | phi edges => exact absurd hn (hp edges)
    | parameter => simp [isNil, hn]
    | binOp op x y => simp [isNil, hn]
    | ifInstr cond => simp [isNil, hn]
    | call kind callee cargs => simp [isNil, hn]
    | instr => simp [isNil, hn]
  · intro hkey hl hcall
    constructor
    · intro hk
      unfold checkNilErr
      rw [checkNilErrOne_not_call libFuncs f fuel instr kind key args _ hcall hk,
        checkNilErrOne_not_call libFuncs f fuel instr kind key args _ hcall hk]
      rfl
    · intro hk harg r hr
      subst hk
      unfold checkNilErr
      rcases hkey with hkey | hkey
      · subst hkey
        rw [checkNilErrOne_call libFuncs f fuel instr args _ errarg r hl hcall harg hr,
          checkNilErrOne_other libFuncs f fuel instr .call _ args _ hcall (by decide)]
        simp
      · subst hkey
        rw [checkNilErrOne_other libFuncs f fuel instr .call _ args _ hcall (by decide),
          checkNilErrOne_call libFuncs f fuel instr args _ errarg r hl hcall harg hr]
        simp

/-- Witness of the amended C17 on `nilErrFunc`: the phi node of `err` is nil in
the block of the first `ergo.Wrap` call, which is reported, and is not nil in
the block of the call under `if err != nil`, which is not reported; and on
`goFunc`, where the call made by a `go` statement is not reported. -/
theorem isNil_rule_witness :
    isNil nilErrFunc 3 2 5 = some true
    ∧ (∃ r, isNil nilErrFunc 3 2 6 = some r
        ∧ (r = true ↔ false = false ∧ ∃ e ∈ [5, 3], isNil nilErrFunc 2 2 e = some true))
    ∧ isNil nilErrFunc 3 2 3 = some false
    ∧ checkNilErr allLibFuncs nilErrFunc 3 8
        = some [.nilErr 8 "1st" "github.com/newmo-oss/ergo.Wrap"]
    ∧ checkNilErr allLibFuncs nilErrFunc 3 13 = some []
    ∧ checkNilErr allLibFuncs goFunc 3 2 = some [] :=
  ⟨(isNil_rule nilErrFunc 2 2 5 allLibFuncs 8 6 [6, 7] "" .call).2.1 (by decide),
   (isNil_rule nilErrFunc 2 2 6 allLibFuncs 8 6 [6, 7] "" .call).2.2.1 [5, 3] false (by decide)
      (by decide) (by decide),
   (isNil_rule nilErrFunc 2 2 3 allLibFuncs 8 6 [6, 7] "" .call).2.2.2.1
      (fun _ h => by simp [nilErrFunc] at h) (fun _ h => by simp [nilErrFunc] at h),
   ((isNil_rule nilErrFunc 3 2 6 allLibFuncs 8 6 [6, 7] "github.com/newmo-oss/ergo.Wrap"
      .call).2.2.2.2 (Or.inr rfl) (by decide) (by decide)).2 rfl (by decide) true (by decide),
   ((isNil_rule nilErrFunc 3 3 6 allLibFuncs 13 6 [6, 12] "github.com/newmo-oss/ergo.Wrap"
      .call).2.2.2.2 (Or.inr rfl) (by decide) (by decide)).2 rfl (by decide) false (by decide),
   ((isNil_rule goFunc 3 0 0 allLibFuncs 2 0 [0, 1] "github.com/newmo-oss/ergo.Wrap"
      .go).2.2.2.2 (Or.inr rfl) (by decide) (by decide)).1 (by decide)⟩

/-! ## The format-string rule -/

theorem append_ne_nil_iff_or {α : Type} (p q : List α) : p ++ q ≠ [] ↔ p ≠ [] ∨ q ≠ [] := by
  rw [ne_eq, List.append_eq_nil]
  tauto

theorem cls_step_ne_nil (cs : List Char) (s : List Char) :
    (Pattern.cls cs).step s ≠ [] ↔ ∃ z rest, s = z :: rest ∧ z ∈ cs := by
  cases s with
  | nil => simp [Pattern.step]
  | cons x rest =>
    by_cases hx : x ∈ cs
    · simp [Pattern.step, hx]
    · simp [Pattern.step, hx]

theorem cls_step_mem (cs : List Char) (x : Char) (rest : List Char) (h : x ∈ cs) :
    (Pattern.cls cs).step (x :: rest) = [rest] := by
  simp [Pattern.step, h]

theorem cls_step_not_mem (cs : List Char) (x : Char) (rest : List Char) (h : x ∉ cs) :
    (Pattern.cls cs).step (x :: rest) = [] := by
  simp [Pattern.step, h]

theorem formatPattern_step_ne_nil (t : List Char) :
    formatPattern.step t ≠ [] ↔
      ∃ flag verb post, t = '%' :: (flag ++ verb :: post)
        ∧ (flag = [] ∨ flag = ['+'] ∨ flag = ['#'])
        ∧ verb ∈ ['v', 's', 'd', 'T'] := by
  cases t with
  | nil => simp [formatPattern, Pattern.step]
  | cons x r =>
    by_cases hx : x = '%'
    · subst hx
      have hstep : formatPattern.step ('%' :: r)
          = ((Pattern.cls ['+', '#']).step r).flatMap (Pattern.cls ['v', 's', 'd', 'T']).step
            ++ (Pattern.cls ['v', 's', 'd', 'T']).step r := by
        simp [formatPattern, Pattern.step, List.flatMap_append]
      rw [hstep]
      constructor
      · intro h
        rcases (append_ne_nil_iff_or _ _).mp h with h1 | h2
        · -- a flag, then a verb
          cases r with
          | nil => simp [Pattern.step] at h1
          | cons y r1 =>
            by_cases hy : y ∈ ['+', '#']
            · have hs : (Pattern.cls ['+', '#']).step (y :: r1) = [r1] :=
                cls_step_mem _ y r1 hy
              rw [hs] at h1
              simp only [List.flatMap_cons, List.flatMap_nil, List.append_nil] at h1
              obtain ⟨z, post, hz, hzc⟩ := (cls_step_ne_nil _ _).mp h1
              refine ⟨[y], z, post, by simp [hz], ?_, hzc⟩
              simp only [List.mem_cons, List.mem_singleton, List.not_mem_nil, or_false] at hy
              rcases hy with hy | hy
              · exact Or.inr (Or.inl (by rw [hy]))
              · exact Or.inr (Or.inr (by rw [hy]))
            · have hs : (Pattern.cls ['+', '#']).step (y :: r1) = [] :=
                cls_step_not_mem _ y r1 hy
              rw [hs] at h1
              simp at h1
        · obtain ⟨z, post, hz, hzc⟩ := (cls_step_ne_nil _ _).mp h2
          exact ⟨[], z, post, by simp [hz], Or.inl rfl, hzc⟩
      · rintro ⟨flag, verb, post, ht, hflag, hverb⟩
        have hr : r = flag ++ verb :: post := by
          simpa using ht
        apply (append_ne_nil_iff_or _ _).mpr
        rcases hflag with hf | hf | hf
        · right
          subst hf
          exact (cls_step_ne_nil _ _).mpr ⟨verb, post, by simpa using hr, hverb⟩
        · left
          subst hf
          have hs : (Pattern.cls ['+', '#']).step r = [verb :: post] := by
            rw [hr]
            simp [Pattern.step]
          rw [hs]
          simp only [List.flatMap_cons, List.flatMap_nil, List.append_nil]
          exact (cls_step_ne_nil _ _).mpr ⟨verb, post, rfl, hverb⟩
        · left
          subst hf
          have hs : (Pattern.cls ['+', '#']).step r = [verb :: post] := by
            rw [hr]
            simp [Pattern.step]
          rw [hs]
          simp only [List.flatMap_cons, List.flatMap_nil, List.append_nil]
          exact (cls_step_ne_nil _ _).mpr ⟨verb, post, rfl, hverb⟩
    · have hstep : formatPattern.step (x :: r) = [] := by
        simp [formatPattern, Pattern.step, hx]
      rw [hstep]
      simp only [ne_eq, not_true_eq_false, false_iff, not_exists, not_and]
      intro flag verb post ht
      simp only [List.cons.injEq] at ht
      exact absurd ht.1 hx

/-- The pattern of `formatRegexp` matches a text exactly when the text holds a
percent sign, an optional plus or hash sign, and one of the four letters. -/
theorem formatRegexp_iff (m : String) : formatRegexp.MatchString m = true ↔ HasVerb m := by
  simp only [formatRegexp, Pattern.MatchString, List.any_eq_true, List.mem_tails,
    Bool.not_eq_true', List.isEmpty_eq_false, HasVerb]
  constructor
  · rintro ⟨t, ⟨pre, hpre⟩, ht⟩
    obtain ⟨flag, verb, post, htt, hflag, hverb⟩ := (formatPattern_step_ne_nil t).mp ht
    exact ⟨pre, flag, verb, post, by rw [← hpre, htt], hflag, hverb⟩
  · rintro ⟨pre, flag, verb, post, hm, hflag, hverb⟩
    exact ⟨'%' :: (flag ++ verb :: post), ⟨pre, hm.symm⟩,
      (formatPattern_step_ne_nil _).mpr ⟨flag, verb, post, rfl, hflag, hverb⟩⟩

/-- The rule on a call of one of the two constructors: the entry of the other
constructor reports nothing, so the result is decided by the message argument. -/
theorem checkFormatString_call (libFuncs : List String) (f : Func) (instr : ValueId)
    (args : List ValueId) (fn : String × Nat)
    (hfn : fn = ("github.com/newmo-oss/ergo.New", 0) ∨ fn = ("github.com/newmo-oss/ergo.Wrap", 1))
    (hl : fn.1 ∈ libFuncs) (hcall : f.node instr = .call .call fn.1 args) :
    checkFormatString libFuncs f instr =
      match args.get? fn.2 with
      | none => []
      | some msgarg =>
        match f.node msgarg with
        | .const (.string msg) =>
          if formatRegexp.MatchString msg then [.formatString (f.Pos instr) fn.1 msg] else []
        | _ => [] := by
  rcases hfn with hfn | hfn
  · subst hfn
    simp only at hl hcall
    simp only [checkFormatString, List.filterMap_cons, List.filterMap_nil, hl, not_true_eq_false,
      if_false, Called_of_call f instr .call _ args _ hcall, beq_self_eq_true, Bool.not_true,
      Bool.false_eq_true, hcall]
    have hne : ("github.com/newmo-oss/ergo.New" == "github.com/newmo-oss/ergo.Wrap") = false := by
      decide
    simp only [hne, Bool.not_false, if_true]
    have hwrap : (if "github.com/newmo-oss/ergo.Wrap" ∉ libFuncs then (none : Option Diagnostic)
        else none) = none := by split <;> rfl
    rw [hwrap]
    cases args.get? 0 with
    | none => rfl
    | some msgarg =>
      simp only
      cases hn : f.node msgarg with
      | const val =>
        cases val with
        | string msg => by_cases hm : formatRegexp.MatchString msg = true <;> simp [hm]
        | nil => rfl
        | other => rfl
      | _ => rfl
  · subst hfn
    simp only at hl hcall
    simp only [checkFormatString, List.filterMap_cons, List.filterMap_nil, hl, not_true_eq_false,
      if_false, Called_of_call f instr .call _ args _ hcall, beq_self_eq_true, Bool.not_true,
      Bool.false_eq_true, hcall]
    have hne : ("github.com/newmo-oss/ergo.Wrap" == "github.com/newmo-oss/ergo.New") = false := by
      decide
    simp only [hne, Bool.not_false, if_true]
    have hnew : (if "github.com/newmo-oss/ergo.New" ∉ libFuncs then (none : Option Diagnostic)
        else none) = none := by split <;> rfl
    rw [hnew]
    cases args.get? 1 with
    | none => rfl
    | some msgarg =>
      simp only
      cases hn : f.node msgarg with
      | const val =>
        cases val with
        | string msg => by_cases hm : formatRegexp.MatchString msg = true <;> simp [hm]
        | nil => rfl
        | other => rfl
      | _ => rfl

theorem checkFormatString_not_call (libFuncs : List String) (f : Func) (instr : ValueId)
    (kind : CallKind) (callee : String) (args : List ValueId)
    (h : f.node instr = .call kind callee args) (hk : kind ≠ .call) :
    checkFormatString libFuncs f instr = [] := by
  unfold checkFormatString
  cases kind with
  | call => exact absurd rfl hk
  | go =>
    simp only [List.filterMap_cons, List.filterMap_nil, h]
    split_ifs <;> rfl
  | defer =>
    simp only [List.filterMap_cons, List.filterMap_nil, h]
    split_ifs <;> rfl

/-- C18 as stated fails on a call made by a `go` or `defer` statement.  In
`goFunc` the instruction `go ergo.Wrap(nil, "%s")` is a call of `ergo.Wrap`
whose message argument is the string constant `%s`, which the pattern matches,
and the format-string rule reports nothing. -/
theorem checkFormatString_go_counterexample :
    Called goFunc 2 "github.com/newmo-oss/ergo.Wrap" = true
    ∧ goFunc.node 2 = .call .go "github.com/newmo-oss/ergo.Wrap" [0, 1]
    ∧ goFunc.node 1 = .const (.string "%s")
    ∧ formatRegexp.MatchString "%s" = true
    ∧ checkFormatString allLibFuncs goFunc 2 = [] := by
  decide

/-- C18, amended: on a call of `ergo.New` (message at argument 0) or `ergo.Wrap`
(message at argument 1) made by a call instruction, whose message argument is a
string constant `m`, the format-string rule reports one diagnostic when `m`
holds a percent sign, then at most one plus or hash sign, then one of the
letters `v`, `s`, `d`, `T`, and reports nothing otherwise; it reports nothing
when the message argument is not a string constant, and nothing on a call made
by a `go` or `defer` statement. -/
theorem checkFormatString_iff (libFuncs : List String) (f : Func) (instr msgarg : ValueId)
    (args : List ValueId) (fn : String × Nat) (kind : CallKind)
    (hfn : fn = ("github.com/newmo-oss/ergo.New", 0) ∨ fn = ("github.com/newmo-oss/ergo.Wrap", 1))
    (hl : fn.1 ∈ libFuncs) (hcall : f.node instr = .call kind fn.1 args)
    (harg : args.get? fn.2 = some msgarg) :
    (∀ m, f.node msgarg = .const (.string m) →
        (checkFormatString libFuncs f instr ≠ [] ↔ kind = .call ∧ HasVerb m)
        ∧ (kind = .call → HasVerb m →
            checkFormatString libFuncs f instr = [.formatString (f.Pos instr) fn.1 m])
        ∧ (¬ HasVerb m → checkFormatString libFuncs f instr = []))
    ∧ ((∀ m, f.node msgarg ≠ .const (.string m)) → checkFormatString libFuncs f instr = [])
    ∧ (kind ≠ .call → checkFormatString libFuncs f instr = []) := by
  by_cases hk : kind = .call
  · subst hk
    rw [checkFormatString_call libFuncs f instr args fn hfn hl hcall, harg]
    refine ⟨?_, ?_, fun h => absurd rfl h⟩
    · intro m hm
      simp only [hm]
      by_cases hv : HasVerb m
      · have hmatch := (formatRegexp_iff m).mpr hv
        simp [hmatch, hv]
      · have hmatch : formatRegexp.MatchString m = false := by
          cases hc : formatRegexp.MatchString m with
          | false => rfl
          | true => exact absurd ((formatRegexp_iff m).mp hc) hv
        simp [hmatch, hv]
    · intro hne
      simp only
  · have hnone := checkFormatString_not_call libFuncs f instr kind fn.1 args hcall hk
    rw [hnone]
    refine ⟨fun m _ => ⟨?_, fun h => absurd h hk, fun _ => rfl⟩, fun _ => rfl, fun _ => rfl⟩
    constructor
    · intro h
      exact absurd rfl h
    · rintro ⟨h, _⟩
      exact absurd h hk

/-- Witness of the amended C18 on `formatFunc`: `ergo.New("%s")` and
`ergo.Wrap(err, "%+v")` are reported, `ergo.Wrap(err, "100%")` and
`ergo.New(fmt.Sprintf("%s", "error"))` are not; and on `goFunc`, where the call
made by a `go` statement is not reported. -/
theorem checkFormatString_iff_witness :
    checkFormatString allLibFuncs formatFunc 1
      = [.formatString 1 "github.com/newmo-oss/ergo.New" "%s"]
    ∧ checkFormatString allLibFuncs formatFunc 8
      = [.formatString 8 "github.com/newmo-oss/ergo.Wrap" "%+v"]
    ∧ checkFormatString allLibFuncs formatFunc 10 = []
    ∧ checkFormatString allLibFuncs formatFunc 4 = []
    ∧ checkFormatString allLibFuncs goFunc 2 = [] :=
  ⟨((checkFormatString_iff allLibFuncs formatFunc 1 0 [0] ("github.com/newmo-oss/ergo.New", 0)
      .call (Or.inl rfl) (by decide) (by decide) (by decide)).1 "%s" (by decide)).2.1 rfl
      ⟨[], [], 's', [], by decide, Or.inl rfl, by decide⟩,
   ((checkFormatString_iff allLibFuncs formatFunc 8 7 [6, 7] ("github.com/newmo-oss/ergo.Wrap", 1)
      .call (Or.inr rfl) (by decide) (by decide) (by decide)).1 "%+v" (by decide)).2.1 rfl
      ⟨[], ['+'], 'v', [], by decide, Or.inr (Or.inl rfl), by decide⟩,
   ((checkFormatString_iff allLibFuncs formatFunc 10 9 [6, 9] ("github.com/newmo-oss/ergo.Wrap", 1)
      .call (Or.inr rfl) (by decide) (by decide) (by decide)).1 "100%" (by decide)).2.2
      (fun h => absurd ((formatRegexp_iff "100%").mpr h) (by decide)),
   (checkFormatString_iff allLibFuncs formatFunc 4 3 [3] ("github.com/newmo-oss/ergo.New", 0)
      .call (Or.inl rfl) (by decide) (by decide) (by decide)).2.1
      (fun _ h => by simp [formatFunc] at h),
   (checkFormatString_iff allLibFuncs goFunc 2 1 [0, 1] ("github.com/newmo-oss/ergo.Wrap", 1)
      .go (Or.inr rfl) (by decide) (by decide) (by decide)).2.2 (by decide)⟩

/-! ## Package filters -/

/-- C19: a package path passes `isTargetPkg` exactly when the target filter is
unset or matches it and the exclude filter is unset or does not match it; with
both flags empty every path passes.  After a successful `init`, `run` on a
package that does not pass reports nothing and returns no error, and on a
package that passes, with an SSA result, it reports what the rules find. -/
theorem isTargetPkg_gate (Compile : String → Except Ergo.Error Regexp)
    (callerNew : Nat → Ergo.StackTrace) (flagPackages flagExclues : String) (fuel : Nat)
    (pass : Pass) (r : Runner) (pkgpath : String) (ssa : SSA) :
    (isTargetPkg r pkgpath = true ↔
        (r.targetPackgeRegexp = none
          ∨ ∃ re, r.targetPackgeRegexp = some re ∧ re.MatchString pkgpath = true)
        ∧ (r.excludePackageRegexp = none
          ∨ ∃ re, r.excludePackageRegexp = some re ∧ re.MatchString pkgpath = false))
    ∧ (r.targetPackgeRegexp = none → r.excludePackageRegexp = none →
        isTargetPkg r pkgpath = true)
    ∧ (init Compile callerNew "" "" pass = .ok r → isTargetPkg r pkgpath = true)
    ∧ (init Compile callerNew flagPackages flagExclues pass = .ok r →
        isTargetPkg r pass.PkgPath = false →
        run Compile callerNew flagPackages flagExclues fuel pass = some ([], .nil))
    ∧ (init Compile callerNew flagPackages flagExclues pass = .ok r → r.ssa = some ssa →
        isTargetPkg r pass.PkgPath = true →
        run Compile callerNew flagPackages flagExclues fuel pass
          = (checkInstrs r.libFuncs pass.PkgPath fuel (allInstrs ssa (collectFuncs ssa))).map
              (fun ds => (ds ++ checkVarInit r.libFuncs pass.Files, .nil))) := by
  have hiff : isTargetPkg r pkgpath = true ↔
      (r.targetPackgeRegexp = none
        ∨ ∃ re, r.targetPackgeRegexp = some re ∧ re.MatchString pkgpath = true)
      ∧ (r.excludePackageRegexp = none
        ∨ ∃ re, r.excludePackageRegexp = some re ∧ re.MatchString pkgpath = false) := by
    unfold isTargetPkg
    cases r.targetPackgeRegexp <;> cases r.excludePackageRegexp <;> simp
  refine ⟨hiff, ?_, ?_, ?_, ?_⟩
  · intro h1 h2
    exact hiff.mpr ⟨Or.inl h1, Or.inl h2⟩
  · intro h
    simp only [init, bne_self_eq_false, Bool.false_eq_true, if_false, Except.ok.injEq] at h
    subst h
    rfl
  · intro hinit hnot
    unfold run
    rw [hinit]
    cases hs : r.ssa with
    | none => simp only [hs]
    | some ssa0 => simp only [hs, hnot, Bool.not_false, if_true]
  · intro hinit hssa hyes
    unfold run
    rw [hinit]
    simp only [hssa, hyes, Bool.not_true, Bool.false_eq_true, if_false]
    cases checkInstrs r.libFuncs pass.PkgPath fuel (allInstrs ssa (collectFuncs ssa)) <;> rfl

/-- Witness of C19 with the flags of `TestAnalyzer`: the package `a` passes the
filters and the call of `errors.New` is reported; the package `notarget` is not
matched by the target filter and a package matched by the exclude filter is
skipped, both without diagnostic or error. -/
theorem isTargetPkg_gate_witness :
    run testCompile Ergo.testCaller ".+/a$" ".+/exclue$" 3 (testPass "github.com/newmo-oss/a")
      = some ([.deprecated 1 "errors.New" "github.com/newmo-oss/a" "ergo.New"], .nil)
    ∧ run testCompile Ergo.testCaller ".+/a$" ".+/exclue$" 3
        (testPass "github.com/newmo-oss/notarget") = some ([], .nil)
    ∧ run testCompile Ergo.testCaller "" ".+/exclue$" 3
        (testPass "github.com/newmo-oss/exclue") = some ([], .nil)
    ∧ isTargetPkg (testRunner "" "" "github.com/newmo-oss/exclue") "github.com/newmo-oss/exclue"
        = true :=
  ⟨((isTargetPkg_gate testCompile Ergo.testCaller ".+/a$" ".+/exclue$" 3
      (testPass "github.com/newmo-oss/a")
      (testRunner ".+/a$" ".+/exclue$" "github.com/newmo-oss/a") "" testSSA).2.2.2.2
      rfl rfl (by decide)).trans (by decide),
   (isTargetPkg_gate testCompile Ergo.testCaller ".+/a$" ".+/exclue$" 3
      (testPass "github.com/newmo-oss/notarget")
      (testRunner ".+/a$" ".+/exclue$" "github.com/newmo-oss/notarget") "" testSSA).2.2.2.1
      rfl (by decide),
   (isTargetPkg_gate testCompile Ergo.testCaller "" ".+/exclue$" 3
      (testPass "github.com/newmo-oss/exclue")
      (testRunner "" ".+/exclue$" "github.com/newmo-oss/exclue") "" testSSA).2.2.2.1
      rfl (by decide),
   (isTargetPkg_gate testCompile Ergo.testCaller "" "" 3
      (testPass "github.com/newmo-oss/exclue")
      (testRunner "" "" "github.com/newmo-oss/exclue") "github.com/newmo-oss/exclue"
      testSSA).2.2.1 rfl⟩

/-! ## Termination of backtrace -/

theorem rangePreds_mono (rec1 rec2 : BlockId → List BlockId → Option (Bool × List BlockId))
    (h : ∀ p d r, rec1 p d = some r → rec2 p d = some r) (drop : BlockId → Bool)
    (l done : List BlockId) (r : Bool × List BlockId)
    (hr : rangePreds rec1 drop l done = some r) : rangePreds rec2 drop l done = some r := by
  induction l generalizing done with
  | nil => exact hr
  | cons pre rest ih =>
    by_cases hd : drop pre = true
    · simp only [rangePreds, hd, Bool.not_true, Bool.false_eq_true, if_false] at hr ⊢
      exact ih done hr
    · have hd2 : drop pre = false := by simpa using hd
      simp only [rangePreds, hd2, Bool.not_false, if_true] at hr ⊢
      cases h1 : rec1 pre done with
      | none => simp [h1] at hr
      | some r1 =>
        obtain ⟨res, d1⟩ := r1
        rw [h pre done _ h1]
        cases res with
        | true => simpa [h1] using hr
        | false =>
          simp only [h1] at hr ⊢
          exact ih d1 hr

/-- A run of `backtrace` that returned with some fuel returns the same with more. -/
theorem backtrace_mono (preds : BlockId → List BlockId) (drop terminate : BlockId → Bool)
    (fuel : Nat) (b : BlockId) (done : List BlockId) (r : Bool × List BlockId)
    (hr : backtrace preds drop terminate fuel b done = some r) :
    backtrace preds drop terminate (fuel + 1) b done = some r := by
  induction fuel generalizing b done r with
  | zero => simp [backtrace] at hr
  | succ k ih =>
    rw [backtrace] at hr ⊢
    by_cases hb : b ∈ done
    · simpa [hb] using hr
    · by_cases ht : terminate b = true
      · simpa [hb, ht] using hr
      · simp only [hb, if_false, ht, Bool.false_eq_true] at hr ⊢
        exact rangePreds_mono _ _ (fun p d r h => ih p d r h) drop _ _ r hr

theorem backtrace_mono_le (preds : BlockId → List BlockId) (drop terminate : BlockId → Bool)
    (fuel fuel2 : Nat) (hle : fuel ≤ fuel2) (b : BlockId) (done : List BlockId)
    (r : Bool × List BlockId) (hr : backtrace preds drop terminate fuel b done = some r) :
    backtrace preds drop terminate fuel2 b done = some r := by
  induction hle with
  | refl => exact hr
  | step _ ih => exact backtrace_mono preds drop terminate _ b done r ih

theorem rangePreds_nodup (n : Nat) (drop : BlockId → Bool)
    (rec : BlockId → List BlockId → Option (Bool × List BlockId))
    (hrec : ∀ p d r d1, p < n → d.Nodup → (∀ x ∈ d, x < n) → rec p d = some (r, d1) →
      d1.Nodup ∧ ∀ x ∈ d1, x < n)
    (l : List BlockId) (hl : ∀ p ∈ l, p < n) (done : List BlockId) (hnd : done.Nodup)
    (hdn : ∀ x ∈ done, x < n) (r : Bool) (d1 : List BlockId)
    (hr : rangePreds rec drop l done = some (r, d1)) : d1.Nodup ∧ ∀ x ∈ d1, x < n := by
  induction l generalizing done with
  | nil =>
    simp only [rangePreds, Option.some.injEq, Prod.mk.injEq] at hr
    rw [← hr.2]
    exact ⟨hnd, hdn⟩
  | cons pre rest ih =>
    have hrest : ∀ p ∈ rest, p < n := fun p hp => hl p (List.mem_cons_of_mem _ hp)
    by_cases hd : drop pre = true
    · simp only [rangePreds, hd, Bool.not_true, Bool.false_eq_true, if_false] at hr
      exact ih hrest done hnd hdn hr
    · have hd2 : drop pre = false := by simpa using hd
      simp only [rangePreds, hd2, Bool.not_false, if_true] at hr
      cases h1 : rec pre done with
      | none => simp [h1] at hr
      | some r1 =>
        obtain ⟨res, d2⟩ := r1
        have h2 := hrec pre done res d2 (hl pre (List.mem_cons_self _ _)) hnd hdn h1
        cases res with
        | true =>
          simp only [h1, Option.some.injEq, Prod.mk.injEq] at hr
          rw [← hr.2]
          exact h2
        | false =>
          simp only [h1] at hr
          exact ih hrest d2 h2.1 h2.2 hr

/-- A run of `backtrace` adds a block to the done map only when the block is not
in it yet: a done map without repetition stays without repetition, and it holds
blocks of the graph only. -/
theorem backtrace_nodup (preds : BlockId → List BlockId) (drop terminate : BlockId → Bool)
    (n : Nat) (hwf : ∀ x, x < n → ∀ p ∈ preds x, p < n) (fuel : Nat) (b : BlockId)
    (done : List BlockId) (r : Bool) (d1 : List BlockId) (hb : b < n) (hnd : done.Nodup)
    (hdn : ∀ x ∈ done, x < n)
    (hr : backtrace preds drop terminate fuel b done = some (r, d1)) :
    d1.Nodup ∧ ∀ x ∈ d1, x < n := by
  induction fuel generalizing b done r d1 with
  | zero => simp [backtrace] at hr
  | succ k ih =>
    rw [backtrace] at hr
    by_cases hbd : b ∈ done
    · simp only [hbd, if_true, Option.some.injEq, Prod.mk.injEq] at hr
      rw [← hr.2]
      exact ⟨hnd, hdn⟩
    · have hnd2 : (b :: done).Nodup := List.nodup_cons.mpr ⟨hbd, hnd⟩
      have hdn2 : ∀ x ∈ b :: done, x < n := by
        intro x hx
        rcases List.mem_cons.mp hx with h | h
        · rw [h]; exact hb
        · exact hdn x h
      by_cases ht : terminate b = true
      · simp only [hbd, if_false, ht, if_true, Option.some.injEq, Prod.mk.injEq] at hr
        rw [← hr.2]
        exact ⟨hnd2, hdn2⟩
      · simp only [hbd, if_false, ht, Bool.false_eq_true] at hr
        exact rangePreds_nodup n drop _
          (fun p d r2 d2 hp hpn hpd h => ih p d r2 d2 hp hpn hpd h)
          (preds b) (hwf b hb) (b :: done) hnd2 hdn2 r d1 hr

theorem nodup_length_le (n : Nat) (d : List BlockId) (hnd : d.Nodup) (hdn : ∀ x ∈ d, x < n) :
    d.length ≤ n := by
  have h1 : d.toFinset.card = d.length := List.toFinset_card_of_nodup hnd
  have h2 : d.toFinset ⊆ Finset.range n := by
    intro x hx
    exact Finset.mem_range.mpr (hdn x (List.mem_toFinset.mp hx))
  have h3 := Finset.card_le_card h2
  rw [h1, Finset.card_range] at h3
  exact h3

/-- C22: on a control-flow graph of `n` blocks, with or without cycles, for every
start block and every pair of drop and terminate predicates, `backtrace` from an
empty done map returns with any fuel above `n`, the result does not depend on
the fuel, and the done map it leaves lists no block twice and so has at most `n`
entries: a block is entered at most once, because it is put in the done map
before its predecessors are explored. -/
theorem backtrace_terminates (preds : BlockId → List BlockId) (drop terminate : BlockId → Bool)
    (n : Nat) (hwf : ∀ x, x < n → ∀ p ∈ preds x, p < n) (b : BlockId) (hb : b < n)
    (fuel : Nat) (hfuel : n < fuel) :
    ∃ r d1, backtrace preds drop terminate fuel b [] = some (r, d1) ∧
      backtrace preds drop terminate (n + 1) b [] = some (r, d1) ∧
      d1.Nodup ∧ b ∈ d1 ∧ d1.length ≤ n := by
  obtain ⟨r, d1, hr, _⟩ := backtrace_returns preds drop terminate n hwf (n + 1) b [] hb
    (by rw [unvisited_nil]; exact Nat.lt_succ_self _)
  have hinv := backtrace_nodup preds drop terminate n hwf (n + 1) b [] r d1 hb List.nodup_nil
    (fun x hx => absurd hx (List.not_mem_nil x)) hr
  have hmem : b ∈ d1 := by
    rw [backtrace] at hr
    by_cases ht : terminate b = true
    · simp only [List.not_mem_nil, if_false, ht, if_true, Option.some.injEq,
        Prod.mk.injEq] at hr
      rw [← hr.2]
      exact List.mem_cons_self _ _
    · simp only [List.not_mem_nil, if_false, ht, Bool.false_eq_true] at hr
      obtain ⟨r2, d2, h2, hsub⟩ := rangePreds_returns n n drop _
        (fun p d hp hd => backtrace_returns preds drop terminate n hwf n p d hp hd)
        (preds b) (hwf b hb) [b]
        (by
          have := unvisited_cons_lt n b [] hb (List.not_mem_nil b)
          rw [unvisited_nil] at this
          exact this)
      rw [h2] at hr
      simp only [Option.some.injEq, Prod.mk.injEq] at hr
      rw [← hr.2]
      exact hsub (List.mem_cons_self _ _)
  exact ⟨r, d1, backtrace_mono_le preds drop terminate (n + 1) fuel hfuel b [] (r, d1) hr, hr,
    hinv.1, hmem, nodup_length_le n d1 hinv.1 hinv.2⟩

/-- The graph of `loopFunc` has a cycle through the blocks 3, 1 and 5; the walk
back from the block of the call enters five of its six blocks once each. -/
theorem backtrace_terminates_witness :
    ∃ r d1, backtrace loopFunc.Preds (fun _ => false) isEntry 100 2 [] = some (r, d1) ∧
      backtrace loopFunc.Preds (fun _ => false) isEntry (6 + 1) 2 [] = some (r, d1) ∧
      d1.Nodup ∧ 2 ∈ d1 ∧ d1.length ≤ 6 :=
  backtrace_terminates loopFunc.Preds (fun _ => false) isEntry 6
    (by decide) 2 (by decide) 100 (by decide)

/-! ## Phi nodes that are edges of each other -/

/-- On the loop-carried phi nodes of `loopFunc` the expansion of a phi node
does not return with any fuel, when the consumer does not stop at the first
leaf. -/
theorem phiValues_loop {σ : Type} (yield : σ → ValueId → σ × Bool)
    (h0 : ∀ s, (yield s 0).2 = true) (fuel : Nat) :
    ∀ s, phiValues loopFunc yield fuel 2 s = none ∧ phiValues loopFunc yield fuel 10 s = none := by
  induction fuel with
  | zero => intro s; exact ⟨rfl, rfl⟩
  | succ k ih =>
    intro s
    constructor
    · show rangeEdges (phiValues loopFunc yield k) [0, 10] s = none
      cases k with
      | zero => rfl
      | succ j =>
        have h1 : phiValues loopFunc yield (j + 1) 0 s = some (yield s 0) := rfl
        have h2 : yield s 0 = ((yield s 0).1, true) := by
          rw [← h0 s]
        rw [h2] at h1
        simp only [rangeEdges, h1, (ih (yield s 0).1).2]
    · show rangeEdges (phiValues loopFunc yield k) [2, 8] s = none
      simp only [rangeEdges, (ih s).1]

theorem hasNilGuardWith_loop (isNilRec : BlockId → ValueId → Option Bool) (fuel : Nat)
    (b : BlockId) :
    hasNilGuardWith loopFunc isNilRec fuel b 2 = some false
      ∧ hasNilGuardWith loopFunc isNilRec fuel b 10 = some false :=
  ⟨rfl, rfl⟩

theorem isNil_loop (fuel : Nat) :
    ∀ b, isNil loopFunc fuel b 2 = none ∧ isNil loopFunc fuel b 10 = none := by
  induction fuel with
  | zero => intro b; exact ⟨rfl, rfl⟩
  | succ k ih =>
    intro b
    constructor
    · show (match hasNilGuardWith loopFunc (isNil loopFunc k) k b 2 with
        | none => none
        | some true => some false
        | some false => containsFunc (isNil loopFunc k b) [0, 10]) = none
      rw [(hasNilGuardWith_loop (isNil loopFunc k) k b).1]
      cases k with
      | zero => rfl
      | succ j =>
        have h1 : isNil loopFunc (j + 1) b 0 = some false := rfl
        simp only [containsFunc, h1, (ih b).2]
    · show (match hasNilGuardWith loopFunc (isNil loopFunc k) k b 10 with
        | none => none
        | some true => some false
        | some false => containsFunc (isNil loopFunc k b) [2, 8]) = none
      rw [(hasNilGuardWith_loop (isNil loopFunc k) k b).2]
      simp only [containsFunc, (ih b).1]

/-- C23: the phi expansion has no visited set.  In `loopFunc` the phi nodes
`err1` and `err2` of a loop are edges of each other, and with every fuel the
expansion of `err1` by a consumer that collects the leaves, the comparison of
`err1` with the call of `ergo.Wrap`, the call `isNil(b, err1)` in the block of
that call and the nil-argument rule on it do not return: each call on `err1` makes
the same call on `err2`, which makes it on `err1` again. -/
theorem phi_expansion_diverges (fuel : Nat) :
    phiValues loopFunc collectLeaf fuel 2 [] = none
      ∧ equalValue loopFunc fuel 2 13 = none
      ∧ isNil loopFunc fuel 2 2 = none
      ∧ checkNilErr allLibFuncs loopFunc fuel 13 = none := by
  refine ⟨(phiValues_loop collectLeaf (fun _ => rfl) fuel []).1, ?_, (isNil_loop fuel 2).1, ?_⟩
  · have h := (phiValues_loop (fun (found : Bool) (x1 : ValueId) =>
        if x1 == 13 then (true, false) else (found, true)) (fun _ => rfl) fuel false).1
    unfold equalValue
    rw [h]
    rfl
  · have h : isNil loopFunc fuel (loopFunc.Block 13) 2 = none := (isNil_loop fuel 2).1
    have h1 : checkNilErrOne allLibFuncs loopFunc fuel 13
        ("github.com/newmo-oss/ergo.WithCode", 0) = some [] := by
      unfold checkNilErrOne
      rw [if_neg (by decide), if_pos (by decide)]
    have h2 : checkNilErrOne allLibFuncs loopFunc fuel 13
        ("github.com/newmo-oss/ergo.Wrap", 0) = none := by
      unfold checkNilErrOne
      rw [if_neg (by decide), if_neg (by decide)]
      have hn : loopFunc.node 13 = .call .call "github.com/newmo-oss/ergo.Wrap" [2, 16] := rfl
      simp only [hn, List.get?, h]
    unfold checkNilErr
    rw [h1, h2]

/-! ## The operator of a comparison -/

/-- Replacing the operator of a binary operation changes no node but that one,
and keeps its operands. -/
theorem withOp_node (f : Func) (instr : ValueId) (op : String) (v : ValueId) :
    (withOp f instr op).node v = f.node v
      ∨ ∃ o x y, f.node v = .binOp o x y ∧ (withOp f instr op).node v = .binOp op x y := by
  show (if (v == instr) = true then
      match f.node v with
      | .binOp _ x y => Node.binOp op x y
      | n => n
    else f.node v) = f.node v ∨ ∃ o x y, f.node v = .binOp o x y ∧
    (if (v == instr) = true then
      match f.node v with
      | .binOp _ x y => Node.binOp op x y
      | n => n
    else f.node v) = .binOp op x y
  by_cases h : (v == instr) = true
  · rw [if_pos h]
    cases hn : f.node v with
    | binOp o x y => exact Or.inr ⟨o, x, y, rfl, rfl⟩
    | const val => exact Or.inl rfl
    | parameter => exact Or.inl rfl
    | phi edges => exact Or.inl rfl
    | ifInstr cond => exact Or.inl rfl
    | call kind callee args => exact Or.inl rfl
    | instr => exact Or.inl rfl
  · rw [if_neg h]
    exact Or.inl rfl

theorem phiValues_withOp {σ : Type} (f : Func) (instr : ValueId) (op : String)
    (yield : σ → ValueId → σ × Bool) (fuel : Nat) :
    phiValues (withOp f instr op) yield fuel = phiValues f yield fuel := by
  induction fuel with
  | zero => rfl
  | succ k ih =>
    funext v s
    rw [phiValues, phiValues, ih]
    rcases withOp_node f instr op v with h | ⟨o, x, y, h1, h2⟩
    · rw [h]
    · rw [h1, h2]

theorem equalValue_withOp (f : Func) (instr : ValueId) (op : String) (fuel : Nat)
    (x y : ValueId) : equalValue (withOp f instr op) fuel x y = equalValue f fuel x y := by
  unfold equalValue
  rw [phiValues_withOp, phiValues_withOp]

theorem getIf_withOp (f : Func) (instr : ValueId) (op : String) (cond : ValueId) :
    getIf (withOp f instr op) cond = getIf f cond := by
  have hp : (fun ref => match (withOp f instr op).node ref with
      | .ifInstr _ => true
      | _ => false) = (fun ref => match f.node ref with
      | .ifInstr _ => true
      | _ => false) := by
    funext ref
    rcases withOp_node f instr op ref with h | ⟨o, x, y, h1, h2⟩
    · rw [h]
    · rw [h1, h2]
  unfold getIf
  rw [hp]
  rfl

theorem toNilGuard_withOp (f : Func) (instr : ValueId) (op : String)
    (isNilRec : BlockId → ValueId → Option Bool) (fuel : Nat) (v ref : ValueId) :
    toNilGuard (withOp f instr op) isNilRec fuel v ref = toNilGuard f isNilRec fuel v ref := by
  have hb : (withOp f instr op).Block ref = f.Block ref := rfl
  unfold toNilGuard
  simp only [getIf_withOp, equalValue_withOp, hb]
  rcases withOp_node f instr op ref with h | ⟨o, x, y, h1, h2⟩
  · rw [h]
  · rw [h1, h2]

theorem collectGuards_withOp (f : Func) (instr : ValueId) (op : String)
    (isNilRec : BlockId → ValueId → Option Bool) (fuel : Nat) (v : ValueId)
    (refs : List ValueId) :
    collectGuards (withOp f instr op) isNilRec fuel v refs
      = collectGuards f isNilRec fuel v refs := by
  induction refs with
  | nil => rfl
  | cons ref rest ih => simp only [collectGuards, toNilGuard_withOp, ih]

theorem hasNilGuardWith_withOp (f : Func) (instr : ValueId) (op : String)
    (isNilRec : BlockId → ValueId → Option Bool) (fuel : Nat) (b : BlockId) (v : ValueId) :
    hasNilGuardWith (withOp f instr op) isNilRec fuel b v
      = hasNilGuardWith f isNilRec fuel b v := by
  have hi : isInstruction ((withOp f instr op).node v) = isInstruction (f.node v) := by
    rcases withOp_node f instr op v with h | ⟨o, x, y, h1, h2⟩
    · rw [h]
    · rw [h1, h2]
      rfl
  unfold hasNilGuardWith
  simp only [hi, collectGuards_withOp]
  rfl

theorem isNil_withOp (f : Func) (instr : ValueId) (op : String) (fuel : Nat) :
    isNil (withOp f instr op) fuel = isNil f fuel := by
  induction fuel with
  | zero => rfl
  | succ k ih =>
    funext b v
    rw [isNil, isNil, ih, hasNilGuardWith_withOp]
    rcases withOp_node f instr op v with h | ⟨o, x, y, h1, h2⟩
    · rw [h]
    · rw [h1, h2]

theorem checkNilErrOne_withOp (libFuncs : List String) (f : Func) (instr : ValueId)
    (op : String) (fuel : Nat) (call : ValueId) (fn : String × Nat) :
    checkNilErrOne libFuncs (withOp f instr op) fuel call fn
      = checkNilErrOne libFuncs f fuel call fn := by
  have hb : (withOp f instr op).Block call = f.Block call := rfl
  have hp : (withOp f instr op).Pos call = f.Pos call := rfl
  unfold checkNilErrOne Called
  simp only [isNil_withOp, hb, hp]
  rcases withOp_node f instr op call with h | ⟨o, x, y, h1, h2⟩
  · rw [h]
  · rw [h1, h2]

theorem checkNilErr_withOp (libFuncs : List String) (f : Func) (instr : ValueId)
    (op : String) (fuel : Nat) (call : ValueId) :
    checkNilErr libFuncs (withOp f instr op) fuel call = checkNilErr libFuncs f fuel call := by
  unfold checkNilErr
  rw [checkNilErrOne_withOp, checkNilErrOne_withOp]

/-! ## What the nil guard does not look at -/

theorem EntryPath_inv (preds : BlockId → List BlockId) (b : BlockId) (l : List BlockId)
    (h : EntryPath preds b l) :
    (b = 0 ∧ l = []) ∨ ∃ p l1, p ∈ preds b ∧ EntryPath preds p l1 ∧ l = p :: l1 := by
  cases h with
  | entry => exact Or.inl ⟨rfl, rfl⟩
  | @pred _ p l1 hp hl => exact Or.inr ⟨p, l1, hp, hl, rfl⟩

theorem checkNilErrOne_of_false (libFuncs : List String) (f : Func) (fuel : Nat)
    (call : ValueId) (fn : String × Nat) (key : String) (args : List ValueId)
    (errarg : ValueId) (h : f.node call = .call .call key args)
    (harg : args.get? fn.2 = some errarg)
    (hr : isNil f fuel (f.Block call) errarg = some false) :
    checkNilErrOne libFuncs f fuel call fn = some [] := by
  unfold checkNilErrOne
  simp only [h, harg, hr]
  split_ifs <;> rfl

/-- C24 as stated fails for the `if` with an empty body.  In `emptyIfFunc`, the
SSA form of a call of `ergo.Wrap` that comes after `if err != nil { }`, no branch
is left: the comparison has no `*ssa.If` referrer, the phi node of `err` has no
guard, `hasNilGuard` returns false, `isNil` returns true and the call is
reported. -/
theorem nilGuard_empty_if_counterexample :
    emptyIfFunc.node 10 = .binOp "!=" 6 9
    ∧ getIf emptyIfFunc 10 = none
    ∧ collectGuards emptyIfFunc (isNil emptyIfFunc 2) 2 6 [10, 13] = some []
    ∧ hasNilGuard emptyIfFunc 2 2 6 = some false
    ∧ isNil emptyIfFunc 3 2 6 = some true
    ∧ checkNilErr allLibFuncs emptyIfFunc 3 13
        = some [.nilErr 13 "1st" "github.com/newmo-oss/ergo.Wrap"] := by
  decide

/-- C24, amended: the nil-guard analysis reads neither the operator of the
comparison nor the successors of the branch.  Replacing the operator of any
binary operation changes no result of `hasNilGuard`, `isNil` and the
nil-argument rule.  And for a phi node `v` with at least one guard, whatever its
edges, in a block `b` such that every path from the entry block to `b` goes
through a block that ends in a guard of `v`, `hasNilGuard(b, v)` returns true,
`isNil(b, v)` returns false, and the rule reports nothing on a call in `b` with
`v` as its first argument: `b` may be either successor of the branch, or any
block behind it, as long as the branch is still in the SSA form. -/
theorem nilGuard_ignores_branch (f : Func) (instr : ValueId) (op : String) (fuel : Nat)
    (b : BlockId) (v : ValueId) (libFuncs : List String) (call : ValueId) :
    (hasNilGuard (withOp f instr op) fuel b v = hasNilGuard f fuel b v
      ∧ isNil (withOp f instr op) fuel b v = isNil f fuel b v
      ∧ checkNilErr libFuncs (withOp f instr op) fuel call = checkNilErr libFuncs f fuel call)
    ∧ (∀ edges refs guards key args,
        (∀ x, x < f.numBlocks → ∀ p ∈ f.Preds x, p < f.numBlocks) → b < f.numBlocks →
        f.node v = .phi edges → f.Referrers v = some refs →
        collectGuards f (isNil f fuel) fuel v refs = some guards → guards ≠ [] →
        (∀ l, EntryPath f.Preds b l → ∃ x ∈ l, dropGuard f guards x = true) →
        f.node call = .call .call key args → args.get? 0 = some v → f.Block call = b →
        hasNilGuard f fuel b v = some true ∧ isNil f (fuel + 1) b v = some false
          ∧ checkNilErr libFuncs f (fuel + 1) call = some []) := by
  refine ⟨⟨?_, ?_, checkNilErr_withOp libFuncs f instr op fuel call⟩, ?_⟩
  · unfold hasNilGuard
    rw [isNil_withOp, hasNilGuardWith_withOp]
  · rw [isNil_withOp]
  · intro edges refs guards key args hwf hb hv hrefs hguards hne hpaths hcall harg hblock
    obtain ⟨r, hr, hiff⟩ := hasNilGuardWith_of_guards f (isNil f fuel) fuel b v refs guards
      hwf hb (by rw [hv]; rfl) hrefs hguards
    have hnot : ¬ Reaches f.Preds (dropGuard f guards) isEntry b :=
      (not_reaches_iff_paths f.Preds (dropGuard f guards) b).mpr hpaths
    have hrt : r = true := by
      cases r with
      | true => rfl
      | false =>
        rcases hiff.mp rfl with h | h
        · exact absurd h hne
        · exact absurd h hnot
    rw [hrt] at hr
    have hnil : isNil f (fuel + 1) b v = some false := by
      rw [isNil, hv]
      simp only [hr]
    have hnil2 : isNil f (fuel + 1) (f.Block call) v = some false := by
      rw [hblock]
      exact hnil
    refine ⟨hr, hnil, ?_⟩
    unfold checkNilErr
    rw [checkNilErrOne_of_false libFuncs f (fuel + 1) call _ key args v hcall harg hnil2,
      checkNilErrOne_of_false libFuncs f (fuel + 1) call _ key args v hcall harg hnil2]
    rfl

/-- Witness of the amended C24.  In `eqNilFunc` the call of block 3 is in the
branch taken when `err == nil` holds, in `afterIfFunc` the call of block 4 comes
after an `if err != nil` whose body falls through: in both the phi node of `err`
has an edge that is the constant nil, on which `isNil` returns true, and the
call is not reported. -/
theorem nilGuard_ignores_branch_witness :
    (hasNilGuard eqNilFunc 2 3 6 = hasNilGuard nilErrFunc 2 3 6
      ∧ isNil eqNilFunc 2 3 6 = isNil nilErrFunc 2 3 6
      ∧ checkNilErr allLibFuncs eqNilFunc 2 13 = checkNilErr allLibFuncs nilErrFunc 2 13)
    ∧ (eqNilFunc.node 10 = .binOp "==" 6 9 ∧ isNil eqNilFunc 2 3 5 = some true
      ∧ hasNilGuard eqNilFunc 2 3 6 = some true ∧ isNil eqNilFunc (2 + 1) 3 6 = some false
      ∧ checkNilErr allLibFuncs eqNilFunc (2 + 1) 13 = some [])
    ∧ (isNil afterIfFunc 2 4 5 = some true
      ∧ hasNilGuard afterIfFunc 2 4 6 = some true
      ∧ isNil afterIfFunc (2 + 1) 4 6 = some false
      ∧ checkNilErr allLibFuncs afterIfFunc (2 + 1) 13 = some []) :=
  ⟨(nilGuard_ignores_branch nilErrFunc 10 "==" 2 3 6 allLibFuncs 13).1,
   ⟨by decide, by decide,
    (nilGuard_ignores_branch eqNilFunc 10 "==" 2 3 6 allLibFuncs 13).2 [5, 3] [8, 10, 13] [11]
      "github.com/newmo-oss/ergo.Wrap" [6, 12] (by decide) (by decide) (by decide) (by decide)
      (by decide) (by decide)
      (by
        intro l hl
        rcases EntryPath_inv _ _ _ hl with ⟨h0, _⟩ | ⟨p, l1, hp, _, hl1⟩
        · exact absurd h0 (by decide)
        · have hp2 : p = 2 := by simpa [eqNilFunc, withOp, nilErrFunc] using hp
          exact ⟨2, by rw [hl1, hp2]; exact List.mem_cons_self _ _, by decide⟩)
      (by decide) (by decide) (by decide)⟩,
   ⟨by decide,
    (nilGuard_ignores_branch afterIfFunc 10 "!=" 2 4 6 allLibFuncs 13).2 [5, 3] [8, 10, 13]
      [11] "github.com/newmo-oss/ergo.Wrap" [6, 12] (by decide) (by decide) (by decide)
      (by decide) (by decide) (by decide)
      (by
        intro l hl
        rcases EntryPath_inv _ _ _ hl with ⟨h0, _⟩ | ⟨p, l1, hp, hpath, hl1⟩
        · exact absurd h0 (by decide)
        · have hp2 : p = 2 ∨ p = 3 := by simpa [afterIfFunc, nilErrFunc] using hp
          rcases hp2 with h2 | h3
          · exact ⟨2, by rw [hl1, h2]; exact List.mem_cons_self _ _, by decide⟩
          · rw [h3] at hpath
            rcases EntryPath_inv _ _ _ hpath with ⟨h0, _⟩ | ⟨q, l2, hq, _, hl2⟩
            · exact absurd h0 (by decide)
            · have hq2 : q = 2 := by simpa [afterIfFunc, nilErrFunc] using hq
              exact ⟨2, by
                rw [hl1, hl2, hq2]
                exact List.mem_cons_of_mem _ (List.mem_cons_self _ _), by decide⟩)
      (by decide) (by decide) (by decide)⟩⟩

/-! ## Equality up to phi nodes -/

theorem Leaf_phi_iff (f : Func) (v l : ValueId) (edges : List ValueId)
    (h : f.node v = .phi edges) : Leaf f v l ↔ ∃ e ∈ edges, Leaf f e l := by
  constructor
  · intro hl
    cases hl with
    | self hn => exact absurd h (hn edges)
    | @edge _ e _ edges2 h2 he hl2 =>
      rw [h] at h2
      have heq : edges = edges2 := by
        injection h2
      rw [heq]
      exact ⟨e, he, hl2⟩
  · rintro ⟨e, he, hl⟩
    exact Leaf.edge h he hl

theorem Leaf_self_iff (f : Func) (v l : ValueId) (h : ∀ edges, f.node v ≠ .phi edges) :
    Leaf f v l ↔ l = v := by
  constructor
  · intro hl
    cases hl with
    | self _ => rfl
    | @edge _ e _ edges2 h2 _ _ => exact absurd h2 (h edges2)
  · rintro rfl
    exact Leaf.self h

theorem rangeEdges_found (P : ValueId → Prop)
    (rec : ValueId → Bool → Option (Bool × Bool)) (edges : List ValueId)
    (hrec : ∀ e ∈ edges, ∃ r, rec e false = some (r, !r) ∧ (r = true ↔ P e)) :
    ∃ r, rangeEdges rec edges false = some (r, !r) ∧ (r = true ↔ ∃ e ∈ edges, P e) := by
  induction edges with
  | nil => exact ⟨false, rfl, by simp⟩
  | cons e rest ih =>
    obtain ⟨r, hr, hiff⟩ := hrec e (List.mem_cons_self _ _)
    cases r with
    | true =>
      refine ⟨true, ?_, ?_⟩
      · simp only [rangeEdges, hr, Bool.not_true]
      · simp only [true_iff]
        exact ⟨e, List.mem_cons_self _ _, hiff.mp rfl⟩
    | false =>
      obtain ⟨r2, hr2, hiff2⟩ := ih (fun e2 he2 => hrec e2 (List.mem_cons_of_mem _ he2))
      refine ⟨r2, ?_, ?_⟩
      · simp only [rangeEdges, hr, Bool.not_false]
        exact hr2
      · rw [hiff2]
        constructor
        · rintro ⟨e2, he2, h2⟩
          exact ⟨e2, List.mem_cons_of_mem _ he2, h2⟩
        · rintro ⟨e2, he2, h2⟩
          rcases List.mem_cons.mp he2 with h | h
          · rw [h] at h2
            exact absurd (hiff.mpr h2) (by simp)
          · exact ⟨e2, h, h2⟩

theorem phiValues_of_not_phi {σ : Type} (f : Func) (yield : σ → ValueId → σ × Bool)
    (fuel : Nat) (v : ValueId) (s : σ) (h : ∀ edges, f.node v ≠ .phi edges) :
    phiValues f yield (fuel + 1) v s = some (yield s v) := by
  rw [phiValues]
  cases hn : f.node v with
  | phi edges => exact absurd hn (h edges)
  | const val => rfl
  | parameter => rfl
  | binOp o x y => rfl
  | ifInstr cond => rfl
  | call kind callee args => rfl
  | instr => rfl

/-- On a phi graph without cycles, a loop over `phiValues(v)` whose body returns
true at the first value that passes a test returns, and it finds a value exactly
when a leaf of the phi-tree of `v` passes the test. -/
theorem phiValues_found (f : Func) (rank : ValueId → Nat)
    (hrank : ∀ v edges, f.node v = .phi edges → ∀ e ∈ edges, rank e < rank v)
    (p : ValueId → Bool) (fuel : Nat) (v : ValueId) (hv : rank v < fuel) :
    ∃ r, phiValues f (fun found x1 => if p x1 = true then (true, false) else (found, true))
        fuel v false = some (r, !r)
      ∧ (r = true ↔ ∃ l, Leaf f v l ∧ p l = true) := by
  induction fuel generalizing v with
  | zero => exact absurd hv (Nat.not_lt_zero _)
  | succ k ih =>
    by_cases hphi : ∃ edges, f.node v = .phi edges
    · obtain ⟨edges, hn⟩ := hphi
      rw [phiValues, hn]
      obtain ⟨r, hr, hiff⟩ := rangeEdges_found (fun e => ∃ l, Leaf f e l ∧ p l = true)
        (phiValues f (fun found x1 => if p x1 = true then (true, false) else (found, true)) k)
        edges
        (fun e he => ih e (lt_of_lt_of_le (hrank v edges hn e he) (Nat.lt_succ_iff.mp hv)))
      refine ⟨r, hr, ?_⟩
      rw [hiff]
      constructor
      · rintro ⟨e, he, l, hl, hp⟩
        exact ⟨l, (Leaf_phi_iff f v l edges hn).mpr ⟨e, he, hl⟩, hp⟩
      · rintro ⟨l, hl, hp⟩
        obtain ⟨e, he, hl2⟩ := (Leaf_phi_iff f v l edges hn).mp hl
        exact ⟨e, he, l, hl2, hp⟩
    · have hself : ∀ edges, f.node v ≠ .phi edges := fun edges h => hphi ⟨edges, h⟩
      rw [phiValues_of_not_phi f _ k v false hself]
      refine ⟨p v, ?_, ?_⟩
      · cases hp : p v <;> simp
      · constructor
        · intro h
          exact ⟨v, Leaf.self hself, h⟩
        · rintro ⟨l, hl, hp⟩
          rw [(Leaf_self_iff f v l hself).mp hl] at hp
          exact hp

/-- On a phi graph without cycles `equalValue(x, y)` returns, and it returns true
exactly when the values are the same or one is a leaf of the phi-tree of the
other. -/
theorem equalValue_returns (f : Func) (rank : ValueId → Nat)
    (hrank : ∀ v edges, f.node v = .phi edges → ∀ e ∈ edges, rank e < rank v)
    (fuel : Nat) (x y : ValueId) (hx : rank x < fuel) (hy : rank y < fuel) :
    ∃ r, equalValue f fuel x y = some r ∧ (r = true ↔ x = y ∨ Leaf f x y ∨ Leaf f y x) := by
  by_cases hxy : x = y
  · refine ⟨true, ?_, ?_⟩
    · unfold equalValue
      rw [if_pos (by rw [hxy]; exact beq_self_eq_true y)]
    · simp only [true_iff]
      exact Or.inl hxy
  · obtain ⟨r1, h1, hiff1⟩ := phiValues_found f rank hrank (fun x1 => x1 == y) fuel x hx
    obtain ⟨r2, h2, hiff2⟩ := phiValues_found f rank hrank (fun y1 => x == y1) fuel y hy
    have hl1 : (∃ l, Leaf f x l ∧ (l == y) = true) ↔ Leaf f x y := by
      constructor
      · rintro ⟨l, hl, hp⟩
        rw [← beq_iff_eq.mp hp]
        exact hl
      · intro hl
        exact ⟨y, hl, beq_self_eq_true y⟩
    have hl2 : (∃ l, Leaf f y l ∧ (x == l) = true) ↔ Leaf f y x := by
      constructor
      · rintro ⟨l, hl, hp⟩
        rw [beq_iff_eq.mp hp]
        exact hl
      · intro hl
        exact ⟨x, hl, beq_self_eq_true x⟩
    rw [hl1] at hiff1
    rw [hl2] at hiff2
    have hne : (x == y) = false := by
      cases hb : x == y with
      | true => exact absurd (beq_iff_eq.mp hb) hxy
      | false => rfl
    unfold equalValue
    simp only [hne, Bool.false_eq_true, if_false]
    have h1b : phiValues f (fun found x1 => if (x1 == y) = true then (true, false)
        else (found, true)) fuel x false = some (r1, !r1) := h1
    have h2b : phiValues f (fun found y1 => if (x == y1) = true then (true, false)
        else (found, true)) fuel y false = some (r2, !r2) := h2
    rw [h1b]
    cases r1 with
    | true =>
      refine ⟨true, rfl, ?_⟩
      simp only [true_iff]
      exact Or.inr (Or.inl (hiff1.mp rfl))
    | false =>
      simp only [Bool.not_false]
      rw [h2b]
      refine ⟨r2, rfl, ?_⟩
      rw [hiff2]
      constructor
      · intro h
        exact Or.inr (Or.inr h)
      · rintro (h | h | h)
        · exact absurd h hxy
        · exact absurd (hiff1.mpr h) (by simp)
        · exact h

/-- C21: on a phi graph without cycles, given as a rank that decreases along every
phi edge, with fuel above the ranks of `x` and `y` the call `equalValue(x, y)`
returns, and it returns true exactly when `x` and `y` are the same value, or `y`
is a leaf of the phi-tree of `x`, or `x` is a leaf of the phi-tree of `y`;
`equalValue(x, x)` returns true and `equalValue(x, y)` returns what
`equalValue(y, x)` returns. -/
theorem equalValue_iff_leaf (f : Func) (rank : ValueId → Nat)
    (hrank : ∀ v edges, f.node v = .phi edges → ∀ e ∈ edges, rank e < rank v)
    (fuel : Nat) (x y : ValueId) (hx : rank x < fuel) (hy : rank y < fuel) :
    (∃ r, equalValue f fuel x y = some r ∧ (r = true ↔ x = y ∨ Leaf f x y ∨ Leaf f y x))
      ∧ equalValue f fuel x x = some true
      ∧ equalValue f fuel x y = equalValue f fuel y x := by
  obtain ⟨r, hr, hiff⟩ := equalValue_returns f rank hrank fuel x y hx hy
  obtain ⟨r2, hr2, hiff2⟩ := equalValue_returns f rank hrank fuel y x hy hx
  refine ⟨⟨r, hr, hiff⟩, ?_, ?_⟩
  · unfold equalValue
    rw [if_pos (beq_self_eq_true x)]
  · have heq : r = r2 := by
      have h : r = true ↔ r2 = true := by
        rw [hiff, hiff2]
        constructor
        · rintro (h | h | h)
          · exact Or.inl h.symm
          · exact Or.inr (Or.inr h)
          · exact Or.inr (Or.inl h)
        · rintro (h | h | h)
          · exact Or.inl h.symm
          · exact Or.inr (Or.inr h)
          · exact Or.inr (Or.inl h)
      cases r <;> cases r2 <;> simp at h ⊢
    rw [hr, hr2, heq]

theorem nilErrFunc_phi (v : ValueId) (edges : List ValueId)
    (h : nilErrFunc.node v = .phi edges) : v = 6 ∧ edges = [5, 3] := by
  rcases Nat.lt_or_ge v 14 with hlt | hge
  · interval_cases v <;> simp [nilErrFunc] at h ⊢
    exact h.symm
  · obtain ⟨k, rfl⟩ := Nat.exists_eq_add_of_le' hge
    have hi : nilErrFunc.node (k + 14) = Node.instr := rfl
    rw [hi] at h
    cases h

/-- Witness of C21 on `nilErrFunc`: the phi node 6 of `err` has the leaves 5 and 3,
and it is equal to the call 3 in both orders. -/
theorem equalValue_iff_leaf_witness :
    (∃ r, equalValue nilErrFunc 2 6 3 = some r
        ∧ (r = true ↔ 6 = 3 ∨ Leaf nilErrFunc 6 3 ∨ Leaf nilErrFunc 3 6))
      ∧ equalValue nilErrFunc 2 6 6 = some true
      ∧ equalValue nilErrFunc 2 6 3 = equalValue nilErrFunc 2 3 6 :=
  equalValue_iff_leaf nilErrFunc (fun v => if v = 6 then 1 else 0)
    (by
      intro v edges h e he
      obtain ⟨hv, hedges⟩ := nilErrFunc_phi v edges h
      rw [hedges] at he
      rw [hv]
      rcases List.mem_cons.mp he with h5 | h3
      · rw [h5]; decide
      · rw [List.mem_singleton.mp h3]; decide)
    2 6 3 (by decide) (by decide)

end Ergocheck
